import Mathlib

/-!
# goadesignupgrader: a shallow embedding of the rewrite engine

The analyzer rewrites Goa v1 design files (Go syntax trees) into Goa v3 form and reports
one diagnostic per rewritten construct.  The Go code mutates the tree in place through
pointers; here every handler returns the node as it stands after the mutation, together
with the diagnostics it reported, so that "the same node, mutated" is the value found at
the same position of the result.

Diagnostic positions are not modelled: a diagnostic is its message and, for the
declaration-level diagnostics, the replacement text of its suggested fix.  Of the position
computations only the fault of GenDecl.End is kept, which the declaration-level diagnostics
evaluate for the end of their text edit.
-/

namespace Goadesignupgrader

/-! ## Syntax model (the part of go/ast the analyzer looks at) -/

/-- Kinds of basic literals (token.INT, token.FLOAT, token.IMAG, token.CHAR, token.STRING). -/
inductive LitKind
  | INT | FLOAT | IMAG | CHAR | STRING
deriving DecidableEq, Repr

mutual
/-- Expressions.  The constructor other stands for every expression node the analyzer has no
case for (selector, composite literal, function type, ...); children lists its
sub-expressions in ast.Walk order. -/
inductive Expr
  | ident (name : String)
  | basicLit (kind : LitKind) (value : String)
  | callExpr (fn : Expr) (args : List Expr)
  | funcLit (typ : Expr) (body : List Stmt)
  | other (kind : String) (children : List Expr)
/-- Statements.  Only expression statements are matched by the rules; other stands for every
other statement node, children listing its sub-nodes in ast.Walk order (an expression child
e is listed as the expression statement of e, which the visitor treats alike). -/
inductive Stmt
  | exprStmt (x : Expr)
  | other (kind : String) (children : List Stmt)
end

instance : Inhabited Expr := ⟨Expr.ident ""⟩
instance : Inhabited Stmt := ⟨Stmt.exprStmt (Expr.ident "")⟩

/-- Token of a general declaration (GenDecl.Tok). -/
inductive DeclTok
  | IMPORT | CONST | TYPE | VAR
deriving DecidableEq, Repr

/-- Specs of a general declaration.  For an import spec, path is Path.Value, the literal as
written in the source, quotes included. -/
inductive Spec
  | importSpec (name : Option String) (path : String)
  | valueSpec (names : List String) (typ : Option Expr) (values : List Expr)
  | typeSpec (name : String) (typ : Expr)

/-- Top-level declarations.  For a general declaration, paren tells whether it is written
with parentheses (GenDecl.Lparen and GenDecl.Rparen are valid positions).  The body of a
function declaration is none for a declaration without body (a nil *ast.BlockStmt). -/
inductive Decl
  | genDecl (tok : DeclTok) (paren : Bool) (specs : List Spec)
  | funcDecl (name : String) (typ : Expr) (body : Option (List Stmt))
  | badDecl

/-- The NewText of a suggested fix: either the empty byte slice or the text formatNode
prints for the (mutated) declaration, which is represented by the declaration itself. -/
inductive NewText
  | empty
  | formatted (decl : Decl)

/-- What pass.Report receives, positions left out. -/
structure Diagnostic where
  message : String
  suggestedFix : Option NewText

/-- A diagnostic without suggested fix. -/
def diag (message : String) : Diagnostic := ⟨message, none⟩

/-- Run-time failures of the Go code, and the exhaustion of the recursion budget of the
model of ast.Inspect. -/
inductive Fault
  | nilPointer
  | indexOutOfRange
  | outOfFuel
deriving DecidableEq, Repr

/-- Outcome of a handler: the node (or list) after in-place mutation, the returned
changed flag and the diagnostics reported, in order. -/
structure Res (α : Type) where
  val : α
  changed : Bool
  diags : List Diagnostic

/-- The functions of the Go libraries the analyzer calls on strings: strconv.Unquote (none
when it returns an error), strconv.Quote (also what fmt.Sprintf with the verb q prints for
a string) and strcase.ToSnake. -/
structure Lib where
  unquote : String → Option String
  quote : String → String
  toSnake : String → String

/-- The node ast.FuncType with no parameters and no results, as in the literal
ast.FuncType built by the handlers. -/
def emptyFuncType : Expr := Expr.other "FuncType" []

/-- Field access FuncLit.Body.List. -/
def Expr.bodyList : Expr → List Stmt
  | Expr.funcLit _ body => body
  | _ => []

/-- Assignment to FuncLit.Body.List. -/
def Expr.setBodyList : Expr → List Stmt → Expr
  | Expr.funcLit typ _, body => Expr.funcLit typ body
  | e, _ => e

/-! ## Literal pattern rewriter -/

/-- The character class [a-zA-Z0-9_] of regexpWildcard. -/
def isWordChar (c : Char) : Bool :=
  (decide ('a' ≤ c) && decide (c ≤ 'z')) || (decide ('A' ≤ c) && decide (c ≤ 'Z')) ||
    (decide ('0' ≤ c) && decide (c ≤ '9')) || c == '_'

/-- The opening brace of the replacement template. -/
def lbrace : Char := Char.ofNat 123

/-- The closing brace of the replacement template. -/
def rbrace : Char := Char.ofNat 125

/-- Anchored match of regexpWildcard, the pattern slash, colon, then the capture group
([a-zA-Z0-9_]+), at the start of the input: the text of the greedy capture group and the
input left after the match, or none when the pattern does not match there. -/
def matchWildcard : List Char → Option (List Char × List Char)
  | '/' :: ':' :: rest =>
    if (rest.takeWhile isWordChar).isEmpty then none
    else some (rest.takeWhile isWordChar, rest.dropWhile isWordChar)
  | _ => none

/-- Expansion of the template with slash, brace, the first capture group, brace. -/
def expandTemplate (group1 : List Char) : List Char :=
  '/' :: lbrace :: (group1 ++ [rbrace])

/-- The loop of Regexp.ReplaceAllString for regexpWildcard: the leftmost match from the
current position is replaced by the expanded template and the search goes on after it;
where no match starts, the character is copied.  The first argument bounds the number of
iterations (each consumes at least one character). -/
def replaceAllFrom : Nat → List Char → List Char
  | 0, s => s
  | _ + 1, [] => []
  | n + 1, c :: cs =>
    match matchWildcard (c :: cs) with
    | some (name, rest) => expandTemplate name ++ replaceAllFrom n rest
    | none => c :: replaceAllFrom n cs

/-- The Go function replaceWildcard. -/
def replaceWildcard (s : String) : String :=
  String.mk (replaceAllFrom s.data.length s.data)

/-! ## Generic DSL scan -/

/-- The handler analyzeInteger: the new name of the identifier. -/
def analyzeInteger : Res String :=
  ⟨"Int", true, [diag "Integer should be replaced with Int"]⟩

/-- The handler analyzeNumber: the new name of the identifier. -/
def analyzeNumber : Res String :=
  ⟨"Float64", true, [diag "Number should be replaced with Float64"]⟩

/-- The handler analyzeFile: the new name of the identifier. -/
def analyzeFile : Res String :=
  ⟨"Bytes", true, [diag "File should be replaced with Bytes"]⟩

/-- The handler analyzeMetadata: the new name of the callee. -/
def analyzeMetadata : Res String :=
  ⟨"Meta", true, [diag "Metadata should be replaced with Meta"]⟩

/-- The statement Format(FormatDateTime) built by analyzeDateTime. -/
def formatDateTimeStmt : Stmt :=
  Stmt.exprStmt (Expr.callExpr (Expr.ident "Format") [Expr.ident "FormatDateTime"])

/-- The handler analyzeDateTime, on the argument list of the call and the index of the
identifier in it: the identifier is renamed String, and Format(FormatDateTime) is appended
to the block that is the last argument, a new block being appended to the arguments when
the last argument is no function literal.  Reading the last argument of an empty list is
the index fault of the Go code. -/
def analyzeDateTime (args : List Expr) (i : Nat) : Except Fault (Res (List Expr)) :=
  let args1 := args.set i (Expr.ident "String")
  match args1.getLast? with
  | none => Except.error Fault.indexOutOfRange
  | some (Expr.funcLit typ body) =>
    Except.ok ⟨args1.dropLast ++ [Expr.funcLit typ (body ++ [formatDateTimeStmt])], true,
      [diag "DateTime should be replaced with String + Format(FormatDateTime)"]⟩
  | some _ =>
    Except.ok ⟨args1 ++ [Expr.funcLit emptyFuncType [formatDateTimeStmt]], true,
      [diag "DateTime should be replaced with String + Format(FormatDateTime)"]⟩

/-- The loop of analyzeAttribute over the argument slice it ranged over (first argument,
of which only the remaining length matters, the nodes being read through the live argument
list), at index i, with the live argument list, changed flag and diagnostics in st. -/
def analyzeAttributeLoop : List Expr → Nat → Res (List Expr) → Except Fault (Res (List Expr))
  | [], _, st => Except.ok st
  | _ :: rest, i, st =>
    match st.val.get? i with
    | some (Expr.ident name) =>
      if name = "DateTime" then
        match analyzeDateTime st.val i with
        | Except.error f => Except.error f
        | Except.ok r =>
          analyzeAttributeLoop rest (i + 1) ⟨r.val, r.changed || st.changed, st.diags ++ r.diags⟩
      else analyzeAttributeLoop rest (i + 1) st
    | _ => analyzeAttributeLoop rest (i + 1) st

/-- The handler analyzeAttribute, on the argument list of the call: the argument list
after the call. -/
def analyzeAttribute (args : List Expr) : Except Fault (Res (List Expr)) :=
  analyzeAttributeLoop args 0 ⟨args, false, []⟩

/-- The local variables of analyzeHashOf. -/
structure HashOfVars where
  changed : Bool
  args : List Expr
  list : List Stmt
  diags : List Diagnostic

/-- The loop of analyzeHashOf over the arguments from index i on. -/
def analyzeHashOfLoop : List Expr → Nat → HashOfVars → HashOfVars
  | [], _, st => st
  | expr :: rest, i, st =>
    if i = 2 then
      analyzeHashOfLoop rest (i + 1)
        { st with
          diags := st.diags ++ [diag "optional DSL for key of HashOf should be set by Key"]
          list := st.list ++ [Stmt.exprStmt (Expr.callExpr (Expr.ident "Key") [expr])]
          changed := true }
    else if i = 3 then
      analyzeHashOfLoop rest (i + 1)
        { st with
          diags := st.diags ++ [diag "optional DSL for value of HashOf should be set by Elem"]
          list := st.list ++ [Stmt.exprStmt (Expr.callExpr (Expr.ident "Elem") [expr])]
          changed := true }
    else analyzeHashOfLoop rest (i + 1) { st with args := st.args ++ [expr] }

/-- The handler analyzeHashOf, on the argument list of the call: the call after the
mutation (callee renamed MapOf, arguments regrouped). -/
def analyzeHashOf (args : List Expr) : Res Expr :=
  let st := analyzeHashOfLoop args 0 ⟨false, [], [], [diag "HashOf should be replaced with MapOf"]⟩
  let args1 := if st.list.length > 0 then st.args ++ [Expr.funcLit emptyFuncType st.list] else st.args
  ⟨Expr.callExpr (Expr.ident "MapOf") (if st.changed then args1 else args), true, st.diags⟩

/-- The function literal passed to ast.Inspect by analyzeGenericDSL, applied to one
expression node: the node after the mutation.  For a call with an identifier callee, the
cases Attribute and default of the Go switch both call analyzeAttribute; they are the last
branch here. -/
def visit (e : Expr) : Except Fault (Res Expr) :=
  match e with
  | Expr.ident name =>
    if name = "Integer" then Except.ok ⟨Expr.ident analyzeInteger.val, true, analyzeInteger.diags⟩
    else if name = "Number" then Except.ok ⟨Expr.ident analyzeNumber.val, true, analyzeNumber.diags⟩
    else if name = "File" then Except.ok ⟨Expr.ident analyzeFile.val, true, analyzeFile.diags⟩
    else Except.ok ⟨e, false, []⟩
  | Expr.callExpr (Expr.ident name) args =>
    if name = "HashOf" then Except.ok (analyzeHashOf args)
    else if name = "Metadata" then
      Except.ok ⟨Expr.callExpr (Expr.ident analyzeMetadata.val) args, true, analyzeMetadata.diags⟩
    else
      match analyzeAttribute args with
      | Except.error f => Except.error f
      | Except.ok r => Except.ok ⟨Expr.callExpr (Expr.ident name) r.val, r.changed, r.diags⟩
  | _ => Except.ok ⟨e, false, []⟩

/-- The loop walkList of ast.Walk, with walk the traversal of one element. -/
def walkList {α : Type} (walk : α → Except Fault (Res α)) : List α → Except Fault (Res (List α))
  | [] => Except.ok ⟨[], false, []⟩
  | x :: xs =>
    match walk x with
    | Except.error f => Except.error f
    | Except.ok r =>
      match walkList walk xs with
      | Except.error f => Except.error f
      | Except.ok rs => Except.ok ⟨r.val :: rs.val, r.changed || rs.changed, r.diags ++ rs.diags⟩

mutual
/-- The traversal ast.Inspect of a statement, with walk the traversal of an expression:
the visitor has no case for statements, so only the children are walked. -/
def inspectStmt (walk : Expr → Except Fault (Res Expr)) : Stmt → Except Fault (Res Stmt)
  | Stmt.exprStmt x =>
    match walk x with
    | Except.error f => Except.error f
    | Except.ok r => Except.ok ⟨Stmt.exprStmt r.val, r.changed, r.diags⟩
  | Stmt.other kind children =>
    match inspectStmts walk children with
    | Except.error f => Except.error f
    | Except.ok r => Except.ok ⟨Stmt.other kind r.val, r.changed, r.diags⟩
termination_by structural s => s
/-- The traversal of a statement list (walkList on statements). -/
def inspectStmts (walk : Expr → Except Fault (Res Expr)) : List Stmt → Except Fault (Res (List Stmt))
  | [] => Except.ok ⟨[], false, []⟩
  | s :: ss =>
    match inspectStmt walk s with
    | Except.error f => Except.error f
    | Except.ok r =>
      match inspectStmts walk ss with
      | Except.error f => Except.error f
      | Except.ok rs => Except.ok ⟨r.val :: rs.val, r.changed || rs.changed, r.diags ++ rs.diags⟩
termination_by structural l => l
end

/-- The traversal ast.Inspect of an expression with the visitor of analyzeGenericDSL: the
visitor is applied to the node, then the children of the node as it stands after the visit
are walked, the callee before the arguments, the type of a function literal before its
body.  The first argument bounds the nesting depth of the traversal. -/
def inspect : Nat → Expr → Except Fault (Res Expr)
  | 0, _ => Except.error Fault.outOfFuel
  | n + 1, e =>
    match visit e with
    | Except.error f => Except.error f
    | Except.ok v =>
      match v.val with
      | Expr.callExpr fn args =>
        match inspect n fn with
        | Except.error f => Except.error f
        | Except.ok rf =>
          match walkList (inspect n) args with
          | Except.error f => Except.error f
          | Except.ok ra =>
            Except.ok ⟨Expr.callExpr rf.val ra.val, v.changed || (rf.changed || ra.changed),
              v.diags ++ (rf.diags ++ ra.diags)⟩
      | Expr.funcLit typ body =>
        match inspect n typ with
        | Except.error f => Except.error f
        | Except.ok rt =>
          match inspectStmts (inspect n) body with
          | Except.error f => Except.error f
          | Except.ok rb =>
            Except.ok ⟨Expr.funcLit rt.val rb.val, v.changed || (rt.changed || rb.changed),
              v.diags ++ (rt.diags ++ rb.diags)⟩
      | Expr.other kind children =>
        match walkList (inspect n) children with
        | Except.error f => Except.error f
        | Except.ok rc => Except.ok ⟨Expr.other kind rc.val, v.changed || rc.changed, v.diags ++ rc.diags⟩
      | _ => Except.ok v

/-- Whether the expression is the identifier DateTime. -/
def isDateTime : Expr → Bool
  | Expr.ident name => name == "DateTime"
  | _ => false

mutual
/-- A bound on the nesting depth ast.Inspect reaches below the node, the nodes created by
the visitor included: a call with a DateTime argument gains a block holding a Format call,
and a HashOf call gains a block holding the calls Key and Elem around its arguments. -/
def inspectDepth : Expr → Nat
  | Expr.ident _ => 1
  | Expr.basicLit _ _ => 1
  | Expr.callExpr fn args =>
    1 + max (inspectDepth fn) (max (inspectDepthList args)
      (match fn with
       | Expr.ident name =>
         if name = "HashOf" then inspectDepthList args + 5
         else if args.any isDateTime then 3 else 0
       | _ => 0))
  | Expr.funcLit typ body => 1 + max (inspectDepth typ) (inspectDepthStmts body)
  | Expr.other _ children => 1 + inspectDepthList children
termination_by structural e => e
/-- The largest bound among the expressions of a list. -/
def inspectDepthList : List Expr → Nat
  | [] => 0
  | e :: es => max (inspectDepth e) (inspectDepthList es)
termination_by structural l => l
/-- The bound for a statement. -/
def inspectDepthStmt : Stmt → Nat
  | Stmt.exprStmt x => inspectDepth x
  | Stmt.other _ children => inspectDepthStmts children
termination_by structural s => s
/-- The largest bound among the statements of a list. -/
def inspectDepthStmts : List Stmt → Nat
  | [] => 0
  | s :: ss => max (inspectDepthStmt s) (inspectDepthStmts ss)
termination_by structural l => l
end

/-- The Go function analyzeGenericDSL on an expression node (its callers pass function
literals): the node after the scan, whether a rule applied, and the diagnostics. -/
def analyzeGenericDSL (node : Expr) : Except Fault (Res Expr) :=
  inspect (inspectDepth node) node

/-- The Go function analyzeGenericDSL on the body of a function declaration, a
*ast.BlockStmt that is nil for a declaration without body: ast.Walk reads the statement
list of the block after visiting it, which is a nil dereference for the nil block. -/
def analyzeGenericDSLBlock (body : Option (List Stmt)) : Except Fault (Res (List Stmt)) :=
  match body with
  | none => Except.error Fault.nilPointer
  | some list => inspectStmts (inspect (inspectDepthStmts list)) list

/-! ## Statement regrouping and the per-construct handlers -/

/-- Outcome of a handler that receives a statement and the list it relocates it to: the
statement after in-place mutation, the list after the call, the returned flag and the
diagnostics. -/
structure Moved where
  stmt : Stmt
  parent : List Stmt
  changed : Bool
  diags : List Diagnostic

/-- The local variables of the statement loops of analyzeAPI, analyzeAction and
analyzeResource: the two lists being built (listAPI and listAPIHTTP, and so on), the
changed flag and the diagnostics; inPlace is the statement list that was ranged over, as
its statements stand after in-place mutation. -/
structure Regroup where
  inPlace : List Stmt
  list : List Stmt
  listHTTP : List Stmt
  changed : Bool
  diags : List Diagnostic

/-- The statement HTTP(func() ...) wrapping the relocated statements. -/
def httpWrapper (list : List Stmt) : Stmt :=
  Stmt.exprStmt (Expr.callExpr (Expr.ident "HTTP") [Expr.funcLit emptyFuncType list])

/-- What follows a statement loop: when statements were relocated, the wrapper is appended
to the kept list, which becomes the body; otherwise the body keeps its statement list. -/
def Regroup.body (st : Regroup) : List Stmt :=
  if st.listHTTP.length > 0 then st.list ++ [httpWrapper st.listHTTP] else st.inPlace

/-- The body of the loop of analyzeBasePath over the arguments, for one argument: colons
in a basic literal. -/
def analyzeBasePathArg (e : Expr) : Res Expr :=
  match e with
  | Expr.basicLit kind value =>
    if replaceWildcard value ≠ value then
      ⟨Expr.basicLit kind (replaceWildcard value), true,
        [diag "colons in BasePath should be replaced with curly braces"]⟩
    else ⟨e, false, []⟩
  | _ => ⟨e, false, []⟩

/-- The loop of analyzeBasePath over the arguments. -/
def analyzeBasePathArgs : List Expr → Res (List Expr)
  | [] => ⟨[], false, []⟩
  | e :: rest =>
    let r := analyzeBasePathArg e
    let rs := analyzeBasePathArgs rest
    ⟨r.val :: rs.val, r.changed || rs.changed, r.diags ++ rs.diags⟩

/-- The handler analyzeBasePath, on the arguments of the call. -/
def analyzeBasePath (args : List Expr) (parent : List Stmt) : Moved :=
  let r := analyzeBasePathArgs args
  let stmt := Stmt.exprStmt (Expr.callExpr (Expr.ident "Path") r.val)
  ⟨stmt, parent ++ [stmt], true,
    diag "BasePath should be replaced with Path and wrapped by HTTP" :: r.diags⟩

/-- The handler analyzeCanonicalActionName, on the arguments of the call. -/
def analyzeCanonicalActionName (args : List Expr) (parent : List Stmt) : Moved :=
  let stmt := Stmt.exprStmt (Expr.callExpr (Expr.ident "CanonicalMethod") args)
  ⟨stmt, parent ++ [stmt], true,
    [diag "CanonicalActionName should be replaced with CanonicalMethod and wrapped by HTTP"]⟩

/-- The handler analyzeConsumes. -/
def analyzeConsumes (stmt : Stmt) (parent : List Stmt) : Moved :=
  ⟨stmt, parent ++ [stmt], true, [diag "Consumes should be wrapped by HTTP"]⟩

/-- The handler analyzeHeaders. -/
def analyzeHeaders (stmt : Stmt) (parent : List Stmt) : Moved :=
  ⟨stmt, parent ++ [stmt], true, [diag "Headers should be wrapped by HTTP"]⟩

/-- The handler analyzeParams. -/
def analyzeParams (stmt : Stmt) (parent : List Stmt) : Moved :=
  ⟨stmt, parent ++ [stmt], true, [diag "Params should be wrapped by HTTP"]⟩

/-- The handler analyzeParent. -/
def analyzeParent (stmt : Stmt) (parent : List Stmt) : Moved :=
  ⟨stmt, parent ++ [stmt], true, [diag "Parent should be wrapped by HTTP"]⟩

/-- The handler analyzeProduces. -/
def analyzeProduces (stmt : Stmt) (parent : List Stmt) : Moved :=
  ⟨stmt, parent ++ [stmt], true, [diag "Produces should be wrapped by HTTP"]⟩

/-- The handler analyzeDefaultMedia: a diagnostic only. -/
def analyzeDefaultMedia : Res Unit :=
  ⟨(), true, [diag "DefaultMedia should be removed"]⟩

/-- The body of the loop of analyzeHTTPRoutingDSL over the arguments, for one argument:
colons in a basic literal. -/
def analyzeHTTPRoutingDSLArg (e : Expr) : Res Expr :=
  match e with
  | Expr.basicLit kind value =>
    if replaceWildcard value ≠ value then
      ⟨Expr.basicLit kind (replaceWildcard value), true,
        [diag "colons in HTTP routing DSLs should be replaced with curly braces"]⟩
    else ⟨e, false, []⟩
  | _ => ⟨e, false, []⟩

/-- The handler analyzeHTTPRoutingDSL, on the arguments of the call. -/
def analyzeHTTPRoutingDSL : List Expr → Res (List Expr)
  | [] => ⟨[], false, []⟩
  | e :: rest =>
    let r := analyzeHTTPRoutingDSLArg e
    let rs := analyzeHTTPRoutingDSL rest
    ⟨r.val :: rs.val, r.changed || rs.changed, r.diags ++ rs.diags⟩

/-- The handler analyzeHTTPStatusConstant: the new name of the identifier. -/
def analyzeHTTPStatusConstant (name : String) : Res String :=
  ⟨"Status" ++ name, true, [diag (name ++ " should be replaced with " ++ ("Status" ++ name))]⟩

/-- The names of the HTTP routing functions lifted out of Routing. -/
def routingNames : List String :=
  ["GET", "HEAD", "POST", "PUT", "DELETE", "CONNECT", "OPTIONS", "TRACE", "PATCH"]

/-- The status names of the first case list of analyzeResponse (error responses). -/
def errorStatusNames : List String :=
  ["BadRequest", "Unauthorized", "PaymentRequired", "Forbidden", "NotFound",
   "MethodNotAllowed", "NotAcceptable", "ProxyAuthRequired", "RequestTimeout", "Conflict",
   "Gone", "LengthRequired", "PreconditionFailed", "RequestEntityTooLarge", "RequestURITooLong",
   "UnsupportedMediaType", "RequestedRangeNotSatisfiable", "ExpectationFailed", "Teapot",
   "UnprocessableEntity",
   "InternalServerError", "NotImplemented", "BadGateway", "ServiceUnavailable", "GatewayTimeout",
   "HTTPVersionNotSupported"]

/-- The status names of the second case list of analyzeResponse. -/
def statusNames : List String :=
  ["Continue", "SwitchingProtocols",
   "OK", "Created", "Accepted", "NonAuthoritativeInfo", "NoContent", "ResetContent",
   "PartialContent",
   "MultipleChoices", "MovedPermanently", "Found", "SeeOther", "NotModified", "UseProxy",
   "TemporaryRedirect"]

/-- The loop of analyzeRouting over the arguments of Routing: the arguments after in-place
mutation, the list the routing calls are lifted to, and the diagnostics. -/
def analyzeRoutingLoop : List Expr → List Stmt → Res (List Expr × List Stmt)
  | [], parent => ⟨([], parent), false, []⟩
  | e :: rest, parent =>
    match e with
    | Expr.callExpr (Expr.ident name) args =>
      if name ∈ routingNames then
        let h := analyzeHTTPRoutingDSL args
        let r := analyzeRoutingLoop rest
          (parent ++ [Stmt.exprStmt (Expr.callExpr (Expr.ident name) h.val)])
        ⟨(Expr.callExpr (Expr.ident name) h.val :: r.val.1, r.val.2), false, h.diags ++ r.diags⟩
      else
        let r := analyzeRoutingLoop rest parent
        ⟨(e :: r.val.1, r.val.2), false, r.diags⟩
    | _ =>
      let r := analyzeRoutingLoop rest parent
      ⟨(e :: r.val.1, r.val.2), false, r.diags⟩

/-- The handler analyzeRouting, on the arguments of the call. -/
def analyzeRouting (args : List Expr) (parent : List Stmt) : Res (List Expr × List Stmt) :=
  let r := analyzeRoutingLoop args parent
  ⟨r.val, true, diag "Routing should be replaced with HTTP" :: r.diags⟩

/-- The handler analyzeStatus, on the arguments of the call. -/
def analyzeStatus (args : List Expr) (parent : List Stmt) : Moved :=
  let stmt := Stmt.exprStmt (Expr.callExpr (Expr.ident "Code") args)
  ⟨stmt, parent ++ [stmt], true, [diag "Status should be replaced with Code"]⟩

/-- The handler analyzeMedia, on the arguments of the call; parent is the list the renamed
statement is appended to. -/
def analyzeMedia (args : List Expr) (parent : List Stmt) (errorResponse : Bool) : Moved :=
  if errorResponse then
    ⟨Stmt.exprStmt (Expr.callExpr (Expr.ident "Media") args), parent, true,
      [diag "Media for an error response should be removed"]⟩
  else
    let stmt := Stmt.exprStmt (Expr.callExpr (Expr.ident "Result") args)
    ⟨stmt, parent ++ [stmt], true,
      [diag "Media for a non-error response should be replaced with Result and wrapped by HTTP in the parent"]⟩

/-- The local variables of the loop of analyzeResponse over the statements of a block
argument. -/
structure ResponseBlockVars where
  inPlace : List Stmt
  list : List Stmt
  grandparent : List Stmt
  changed : Bool
  diags : List Diagnostic

/-- One iteration of the loop of analyzeResponse over the statements of a block argument. -/
def analyzeResponseStmt (errorResponse : Bool) (st : ResponseBlockVars) (s : Stmt) :
    ResponseBlockVars :=
  match s with
  | Stmt.exprStmt (Expr.callExpr (Expr.ident name) args) =>
    if name = "Media" then
      let r := analyzeMedia args st.grandparent errorResponse
      { st with
        inPlace := st.inPlace ++ [r.stmt], grandparent := r.parent
        changed := r.changed || st.changed, diags := st.diags ++ r.diags }
    else if name = "Status" then
      let r := analyzeStatus args st.list
      { st with
        inPlace := st.inPlace ++ [r.stmt], list := r.parent
        changed := r.changed || st.changed, diags := st.diags ++ r.diags }
    else { st with inPlace := st.inPlace ++ [s], list := st.list ++ [s] }
  | _ => { st with inPlace := st.inPlace ++ [s] }

/-- The local variables of the loop of analyzeResponse over the arguments; inPlace is the
argument list ranged over, as its nodes stand after in-place mutation. -/
structure ResponseVars where
  changed : Bool
  errorResponse : Bool
  args : List Expr
  inPlace : List Expr
  grandparent : List Stmt
  diags : List Diagnostic

/-- The statement Error(name) that analyzeResponse appends to the grandparent list, name
being a string literal. -/
def errorStmt (errorName : String) : Stmt :=
  Stmt.exprStmt (Expr.callExpr (Expr.ident "Error") [Expr.basicLit LitKind.STRING errorName])

/-- One iteration of the loop of analyzeResponse over the arguments. -/
def analyzeResponseArg (lib : Lib) (st : ResponseVars) (e : Expr) : ResponseVars :=
  match e with
  | Expr.ident name =>
    if name = "ErrorMedia" then
      { st with
        diags := st.diags ++ [diag "ErrorMedia should be removed"]
        changed := true, inPlace := st.inPlace ++ [e] }
    else if name ∈ errorStatusNames then
      let errorName := lib.quote (lib.toSnake name)
      let r := analyzeHTTPStatusConstant name
      { changed := r.changed || st.changed
        errorResponse := true
        args := (st.args ++ [Expr.ident errorName]) ++ [Expr.ident r.val]
        inPlace := st.inPlace ++ [Expr.ident r.val]
        grandparent := st.grandparent ++ [errorStmt errorName]
        diags := st.diags ++ r.diags }
    else if name ∈ statusNames then
      let r := analyzeHTTPStatusConstant name
      { st with
        changed := r.changed || st.changed
        args := st.args ++ [Expr.ident r.val]
        inPlace := st.inPlace ++ [Expr.ident r.val]
        diags := st.diags ++ r.diags }
    else { st with args := st.args ++ [e], inPlace := st.inPlace ++ [e] }
  | Expr.funcLit typ body =>
    let b := body.foldl (analyzeResponseStmt st.errorResponse)
      ⟨[], [], st.grandparent, st.changed, st.diags⟩
    let t := Expr.funcLit typ (if b.list.length ≠ body.length then b.list else b.inPlace)
    { st with
      changed := b.changed
      args := if t.bodyList.length > 0 then st.args ++ [t] else st.args
      inPlace := st.inPlace ++ [t]
      grandparent := b.grandparent
      diags := b.diags }
  | _ => { st with args := st.args ++ [e], inPlace := st.inPlace ++ [e] }

/-- Outcome of analyzeResponse: the statement after in-place mutation and the two lists. -/
structure MovedResponse where
  stmt : Stmt
  parent : List Stmt
  grandparent : List Stmt
  changed : Bool
  diags : List Diagnostic

/-- The handler analyzeResponse, on the callee and arguments of the call. -/
def analyzeResponse (lib : Lib) (fn : Expr) (args : List Expr) (parent grandparent : List Stmt) :
    MovedResponse :=
  let st := args.foldl (analyzeResponseArg lib)
    ⟨false, false, [], [], grandparent, [diag "Response should be wrapped by HTTP"]⟩
  let stmt := Stmt.exprStmt (Expr.callExpr fn (if st.changed then st.args else st.inPlace))
  ⟨stmt, parent ++ [stmt], st.grandparent, true, st.diags⟩

/-- One iteration of the statement loop of analyzeAction. -/
def analyzeActionStmt (lib : Lib) (st : Regroup) (stmt : Stmt) : Regroup :=
  match stmt with
  | Stmt.exprStmt (Expr.callExpr (Expr.ident name) args) =>
    if name = "Headers" then
      let r := analyzeHeaders stmt st.listHTTP
      { st with inPlace := st.inPlace ++ [r.stmt], listHTTP := r.parent, diags := st.diags ++ r.diags }
    else if name = "Params" then
      let r := analyzeParams stmt st.listHTTP
      { st with inPlace := st.inPlace ++ [r.stmt], listHTTP := r.parent, diags := st.diags ++ r.diags }
    else if name = "Response" then
      let r := analyzeResponse lib (Expr.ident name) args st.listHTTP st.list
      { st with
        inPlace := st.inPlace ++ [r.stmt], listHTTP := r.parent, list := r.grandparent
        diags := st.diags ++ r.diags }
    else if name = "Routing" then
      let r := analyzeRouting args st.listHTTP
      { st with
        inPlace := st.inPlace ++ [Stmt.exprStmt (Expr.callExpr (Expr.ident name) r.val.1)]
        listHTTP := r.val.2, diags := st.diags ++ r.diags }
    else { st with inPlace := st.inPlace ++ [stmt], list := st.list ++ [stmt] }
  | _ => { st with inPlace := st.inPlace ++ [stmt] }

/-- The body of the loop of analyzeAction over the arguments of the call, for one
argument: a function literal has its statements regrouped. -/
def analyzeActionArg (lib : Lib) (arg : Expr) : Res Expr :=
  match arg with
  | Expr.funcLit typ body =>
    let st := body.foldl (analyzeActionStmt lib) ⟨[], [], [], false, []⟩
    ⟨Expr.funcLit typ st.body, false, st.diags⟩
  | e => ⟨e, false, []⟩

/-- The loop of analyzeAction over the arguments of the call. -/
def analyzeActionArgs (lib : Lib) : List Expr → Res (List Expr)
  | [] => ⟨[], false, []⟩
  | arg :: rest =>
    let r := analyzeActionArg lib arg
    let rs := analyzeActionArgs lib rest
    ⟨r.val :: rs.val, false, r.diags ++ rs.diags⟩

/-- The handler analyzeAction, on the arguments of the call. -/
def analyzeAction (lib : Lib) (args : List Expr) (parent : List Stmt) : Moved :=
  let r := analyzeActionArgs lib args
  let stmt := Stmt.exprStmt (Expr.callExpr (Expr.ident "Method") r.val)
  ⟨stmt, parent ++ [stmt], true, diag "Action should be replaced with Method" :: r.diags⟩

/-- One iteration of the statement loop of analyzeAPI. -/
def analyzeAPIStmt (st : Regroup) (stmt : Stmt) : Regroup :=
  match stmt with
  | Stmt.exprStmt (Expr.callExpr (Expr.ident name) args) =>
    if name = "BasePath" then
      let r := analyzeBasePath args st.listHTTP
      { st with
        inPlace := st.inPlace ++ [r.stmt], listHTTP := r.parent
        changed := r.changed || st.changed, diags := st.diags ++ r.diags }
    else if name = "Consumes" then
      let r := analyzeConsumes stmt st.listHTTP
      { st with
        inPlace := st.inPlace ++ [r.stmt], listHTTP := r.parent
        changed := r.changed || st.changed, diags := st.diags ++ r.diags }
    else if name = "Params" then
      let r := analyzeParams stmt st.listHTTP
      { st with
        inPlace := st.inPlace ++ [r.stmt], listHTTP := r.parent
        changed := r.changed || st.changed, diags := st.diags ++ r.diags }
    else if name = "Produces" then
      let r := analyzeProduces stmt st.listHTTP
      { st with
        inPlace := st.inPlace ++ [r.stmt], listHTTP := r.parent
        changed := r.changed || st.changed, diags := st.diags ++ r.diags }
    else { st with inPlace := st.inPlace ++ [stmt], list := st.list ++ [stmt] }
  | _ => { st with inPlace := st.inPlace ++ [stmt] }

/-- The body of the loop of analyzeAPI over the arguments of the call, for one argument:
a function literal is scanned by analyzeGenericDSL (whose result is dropped), then its
statements are regrouped. -/
def analyzeAPIArg (arg : Expr) : Except Fault (Res Expr) :=
  match arg with
  | Expr.funcLit typ body =>
    match analyzeGenericDSL (Expr.funcLit typ body) with
    | Except.error f => Except.error f
    | Except.ok g =>
      let st := g.val.bodyList.foldl analyzeAPIStmt ⟨[], [], [], false, []⟩
      Except.ok ⟨g.val.setBodyList st.body, st.changed, g.diags ++ st.diags⟩
  | e => Except.ok ⟨e, false, []⟩

/-- The Go function analyzeAPI, on the arguments of the call: the arguments after the
call and the returned flag. -/
def analyzeAPI (args : List Expr) : Except Fault (Res (List Expr)) :=
  walkList analyzeAPIArg args

/-- One iteration of the statement loop of analyzeResource. -/
def analyzeResourceStmt (lib : Lib) (st : Regroup) (stmt : Stmt) : Regroup :=
  match stmt with
  | Stmt.exprStmt (Expr.callExpr (Expr.ident name) args) =>
    if name = "Action" then
      let r := analyzeAction lib args st.list
      { st with inPlace := st.inPlace ++ [r.stmt], list := r.parent, diags := st.diags ++ r.diags }
    else if name = "BasePath" then
      let r := analyzeBasePath args st.listHTTP
      { st with inPlace := st.inPlace ++ [r.stmt], listHTTP := r.parent, diags := st.diags ++ r.diags }
    else if name = "CanonicalActionName" then
      let r := analyzeCanonicalActionName args st.listHTTP
      { st with inPlace := st.inPlace ++ [r.stmt], listHTTP := r.parent, diags := st.diags ++ r.diags }
    else if name = "DefaultMedia" then
      { st with inPlace := st.inPlace ++ [stmt], diags := st.diags ++ analyzeDefaultMedia.diags }
    else if name = "Headers" then
      let r := analyzeHeaders stmt st.listHTTP
      { st with inPlace := st.inPlace ++ [r.stmt], listHTTP := r.parent, diags := st.diags ++ r.diags }
    else if name = "Params" then
      let r := analyzeParams stmt st.listHTTP
      { st with inPlace := st.inPlace ++ [r.stmt], listHTTP := r.parent, diags := st.diags ++ r.diags }
    else if name = "Parent" then
      let r := analyzeParent stmt st.listHTTP
      { st with inPlace := st.inPlace ++ [r.stmt], listHTTP := r.parent, diags := st.diags ++ r.diags }
    else if name = "Response" then
      let r := analyzeResponse lib (Expr.ident name) args st.listHTTP st.list
      { st with
        inPlace := st.inPlace ++ [r.stmt], listHTTP := r.parent, list := r.grandparent
        diags := st.diags ++ r.diags }
    else { st with inPlace := st.inPlace ++ [stmt], list := st.list ++ [stmt] }
  | _ => { st with inPlace := st.inPlace ++ [stmt] }

/-- The body of the loop of analyzeResource over the arguments of the call, for one
argument. -/
def analyzeResourceArg (lib : Lib) (arg : Expr) : Except Fault (Res Expr) :=
  match arg with
  | Expr.funcLit typ body =>
    match analyzeGenericDSL (Expr.funcLit typ body) with
    | Except.error f => Except.error f
    | Except.ok g =>
      let st := g.val.bodyList.foldl (analyzeResourceStmt lib) ⟨[], [], [], false, []⟩
      Except.ok ⟨g.val.setBodyList st.body, false, g.diags ++ st.diags⟩
  | e => Except.ok ⟨e, false, []⟩

/-- The Go function analyzeResource, on the arguments of the call: the call after the
mutation (callee renamed Service) and the returned flag. -/
def analyzeResource (lib : Lib) (args : List Expr) : Except Fault (Res Expr) :=
  match walkList (analyzeResourceArg lib) args with
  | Except.error f => Except.error f
  | Except.ok r =>
    Except.ok ⟨Expr.callExpr (Expr.ident "Service") r.val, true,
      diag "Resource should be replaced with Service" :: r.diags⟩

/-- The body of the loops of analyzeMediaType and analyzeType over the arguments, for one
argument: function literals are scanned by analyzeGenericDSL. -/
def analyzeTypeArg (arg : Expr) : Except Fault (Res Expr) :=
  match arg with
  | Expr.funcLit typ body => analyzeGenericDSL (Expr.funcLit typ body)
  | e => Except.ok ⟨e, false, []⟩

/-- The Go function analyzeMediaType, on the arguments of the call: the call after the
mutation (callee renamed ResultType). -/
def analyzeMediaType (args : List Expr) : Except Fault (Res Expr) :=
  match walkList analyzeTypeArg args with
  | Except.error f => Except.error f
  | Except.ok r =>
    Except.ok ⟨Expr.callExpr (Expr.ident "ResultType") r.val, true,
      diag "MediaType should be replaced with ResultType" :: r.diags⟩

/-- The Go function analyzeType, on the arguments of the call. -/
def analyzeType (args : List Expr) : Except Fault (Res (List Expr)) :=
  walkList analyzeTypeArg args

/-! ## Declarations and the traversal engine -/

/-- The Go function analyzeImport, on Path.Value of the spec: the value after the call. -/
def analyzeImport (lib : Lib) (value : String) : Res String :=
  match lib.unquote value with
  | none => ⟨value, false, []⟩
  | some path =>
    let r : String × List Diagnostic :=
      if path = "github.com/goadesign/goa/design" then
        ("", [diag "\"github.com/goadesign/goa/design\" should be removed"])
      else if path = "github.com/goadesign/goa/design/apidsl" then
        ("goa.design/goa/v3/dsl",
          [diag "\"github.com/goadesign/goa/design/apidsl\" should be replaced with \"goa.design/goa/v3/dsl\""])
      else (path, [])
    if value ≠ lib.quote r.1 then ⟨lib.quote r.1, true, r.2⟩ else ⟨value, false, r.2⟩

/-- The local variables of the loop of analyzeAndFixImports; inPlace is decl.Specs as its
specs stand after in-place mutation. -/
structure ImportVars where
  changed : Bool
  specs : List Spec
  inPlace : List Spec
  diags : List Diagnostic

/-- One iteration of the loop of analyzeAndFixImports. -/
def analyzeAndFixImportsSpec (lib : Lib) (st : ImportVars) (spec : Spec) : ImportVars :=
  match spec with
  | Spec.importSpec name path =>
    let r := analyzeImport lib path
    { changed := r.changed || st.changed
      specs := if r.val ≠ "\"\"" then st.specs ++ [Spec.importSpec name r.val] else st.specs
      inPlace := st.inPlace ++ [Spec.importSpec name r.val]
      diags := st.diags ++ r.diags }
  | _ => { st with inPlace := st.inPlace ++ [spec] }

/-- The method GenDecl.End of go/ast, which the declaration-level diagnostics call for the
end of their text edit; only its fault is modelled: with a valid Rparen it returns the
position after it, otherwise it returns Specs[0].End(), an index fault for a declaration
without parentheses whose spec list is empty. -/
def genDeclEnd (paren : Bool) (specs : List Spec) : Except Fault Unit :=
  if paren then Except.ok ()
  else
    match specs with
    | [] => Except.error Fault.indexOutOfRange
    | _ :: _ => Except.ok ()

/-- The Go function analyzeAndFixImports, on the token, parentheses and specs of the
declaration: the declaration after the call and the diagnostics.  When a spec was changed,
decl.Specs is replaced, and building the diagnostic calls decl.End() on the declaration as
it then stands. -/
def analyzeAndFixImports (lib : Lib) (tok : DeclTok) (paren : Bool) (specs : List Spec) :
    Except Fault (Res Decl) :=
  let st := specs.foldl (analyzeAndFixImportsSpec lib) ⟨false, [], [], []⟩
  if st.changed then
    let decl := Decl.genDecl tok paren st.specs
    let b := if st.specs.length ≠ 0 then NewText.formatted decl else NewText.empty
    match genDeclEnd paren st.specs with
    | Except.error f => Except.error f
    | Except.ok _ =>
      Except.ok ⟨decl, true, st.diags ++ [⟨"import declarations should be fixed", some b⟩]⟩
  else Except.ok ⟨Decl.genDecl tok paren st.inPlace, false, st.diags⟩

/-- The body of the loop of analyzeAndFixVariables over the values of a spec, for one
value. -/
def analyzeAndFixVariablesValue (lib : Lib) (expr : Expr) : Except Fault (Res Expr) :=
  match expr with
  | Expr.callExpr (Expr.ident name) args =>
    if name = "API" then
      match analyzeAPI args with
      | Except.error f => Except.error f
      | Except.ok r => Except.ok ⟨Expr.callExpr (Expr.ident name) r.val, r.changed, r.diags⟩
    else if name = "MediaType" then analyzeMediaType args
    else if name = "Resource" then analyzeResource lib args
    else if name = "Type" then
      match analyzeType args with
      | Except.error f => Except.error f
      | Except.ok r => Except.ok ⟨Expr.callExpr (Expr.ident name) r.val, r.changed, r.diags⟩
    else Except.ok ⟨expr, false, []⟩
  | _ => Except.ok ⟨expr, false, []⟩

/-- The body of the loop of analyzeAndFixVariables over the specs, for one spec. -/
def analyzeAndFixVariablesSpec (lib : Lib) (spec : Spec) : Except Fault (Res Spec) :=
  match spec with
  | Spec.valueSpec names typ values =>
    match walkList (analyzeAndFixVariablesValue lib) values with
    | Except.error f => Except.error f
    | Except.ok r => Except.ok ⟨Spec.valueSpec names typ r.val, r.changed, r.diags⟩
  | _ => Except.ok ⟨spec, false, []⟩

/-- The Go function analyzeAndFixVariables, on the token, parentheses and specs of the
declaration; building the declaration-level diagnostic calls decl.End(). -/
def analyzeAndFixVariables (lib : Lib) (tok : DeclTok) (paren : Bool) (specs : List Spec) :
    Except Fault (Res Decl) :=
  match walkList (analyzeAndFixVariablesSpec lib) specs with
  | Except.error f => Except.error f
  | Except.ok r =>
    let decl := Decl.genDecl tok paren r.val
    if r.changed then
      match genDeclEnd paren r.val with
      | Except.error f => Except.error f
      | Except.ok _ =>
        Except.ok ⟨decl, true,
          r.diags ++ [⟨"variable declarations should be fixed", some (NewText.formatted decl)⟩]⟩
    else Except.ok ⟨decl, false, r.diags⟩

/-- The Go function analyzeAndFixFuncs, on the fields of the function declaration. -/
def analyzeAndFixFuncs (name : String) (typ : Expr) (body : Option (List Stmt)) :
    Except Fault (Res Decl) :=
  match analyzeGenericDSLBlock body with
  | Except.error f => Except.error f
  | Except.ok r =>
    let decl := Decl.funcDecl name typ (some r.val)
    if r.changed then
      Except.ok ⟨decl, true,
        r.diags ++ [⟨"function declarations should be fixed", some (NewText.formatted decl)⟩]⟩
    else Except.ok ⟨decl, false, r.diags⟩

/-- The body of the loop of run over the declarations of a file, for one declaration. -/
def runDecl (lib : Lib) (decl : Decl) : Except Fault (Res Decl) :=
  match decl with
  | Decl.genDecl DeclTok.IMPORT paren specs => analyzeAndFixImports lib DeclTok.IMPORT paren specs
  | Decl.genDecl DeclTok.VAR paren specs => analyzeAndFixVariables lib DeclTok.VAR paren specs
  | Decl.funcDecl name typ body => analyzeAndFixFuncs name typ body
  | d => Except.ok ⟨d, false, []⟩

/-- The Go function run, on pass.Files, a file being the list of its declarations: the
files after the run and the diagnostics reported. -/
def run (lib : Lib) (files : List (List Decl)) : Except Fault (Res (List (List Decl))) :=
  walkList (walkList (runDecl lib)) files

/-! ## A concrete library, for running the analyzer on examples -/

/-- The double quote character. -/
def dquote : Char := Char.ofNat 34

/-- What strconv.Quote prints for a text that needs no escape: the text between double
quotes. -/
def exampleQuote (s : String) : String := String.mk (dquote :: (s.data ++ [dquote]))

/-- What strconv.Unquote returns for a double-quoted literal without escapes: the text
between the quotes; an error for a text that is not between double quotes. -/
def exampleUnquote (v : String) : Option String :=
  match v.data with
  | c :: rest =>
    if c = dquote ∧ rest.getLast? = some dquote then some (String.mk rest.dropLast) else none
  | [] => none

/-- What strcase.ToSnake returns for a camel-case name without acronyms or digits: the
words in lower case, joined by underscores. -/
def exampleToSnake (s : String) : String :=
  match s.data with
  | c :: cs => String.mk (c.toLower :: cs.flatMap (fun d => if d.isUpper then ['_', d.toLower] else [d]))
  | [] => ""

/-- The library functions on the texts of the examples: plain names and paths, without
quotes, backslashes or control characters. -/
def exampleLib : Lib := ⟨exampleUnquote, exampleQuote, exampleToSnake⟩

/-- The back quote character. -/
def bquote : Char := Char.ofNat 96

/-- What strconv.Unquote returns for a raw string literal without back quote or carriage
return inside: the text between the back quotes; for every other text, what exampleUnquote
returns. -/
def exampleUnquoteRaw (v : String) : Option String :=
  match v.data with
  | c :: rest =>
    if c = bquote ∧ rest.getLast? = some bquote then some (String.mk rest.dropLast)
    else exampleUnquote v
  | [] => none

/-- The library functions on the texts of the examples, raw string literals included. -/
def exampleRawLib : Lib := ⟨exampleUnquoteRaw, exampleQuote, exampleToSnake⟩

/-! ## Specification-level definitions -/

/-- The name characters of the specification: an ASCII letter, a digit or an underscore. -/
def isNameChar (c : Char) : Bool := c.isAlphanum || c == '_'

/-- A path segment starts at the head of the text: a slash, a colon and a name character. -/
def SegmentAtHead (s : List Char) : Prop :=
  ∃ d t, s = '/' :: ':' :: d :: t ∧ isNameChar d = true

/-- The text contains a path segment: somewhere a slash, a colon and a name character. -/
def HasSegment (s : List Char) : Prop :=
  ∃ pre d post, s = pre ++ '/' :: ':' :: d :: post ∧ isNameChar d = true

/-- The rewriting of the specification, read from left to right: where a segment starts,
slash, colon and the maximal non-empty run of name characters are replaced by slash and the
run in braces, and the rewriting goes on after the run (occurrences do not overlap); where
none starts, the character is kept. -/
inductive Rewritten : List Char → List Char → Prop
  | done : Rewritten [] []
  | segment (name rest out : List Char) :
      name ≠ [] → (∀ c ∈ name, isNameChar c = true) →
      (∀ c ∈ rest.head?, isNameChar c = false) →
      Rewritten rest out →
      Rewritten ('/' :: ':' :: (name ++ rest)) ('/' :: lbrace :: (name ++ rbrace :: out))
  | copy (c : Char) (s out : List Char) :
      ¬ SegmentAtHead (c :: s) → Rewritten s out → Rewritten (c :: s) (c :: out)

/-- The statements Key(a2) and Elem(a3) of the block that MapOf gains, a2 and a3 being the
third and fourth arguments, when present. -/
def keyElemStmts (args : List Expr) : List Stmt :=
  ((args.drop 2).take 1).map (fun a => Stmt.exprStmt (Expr.callExpr (Expr.ident "Key") [a])) ++
    ((args.drop 3).take 1).map (fun a => Stmt.exprStmt (Expr.callExpr (Expr.ident "Elem") [a]))

/-- The argument list of MapOf according to the specification: unchanged up to two
arguments; from three on, the arguments at the positions other than 2 and 3 followed by one
new block holding Key and Elem. -/
def mapOfArgs (args : List Expr) : List Expr :=
  if args.length ≤ 2 then args
  else (args.take 2 ++ args.drop 4) ++ [Expr.funcLit emptyFuncType (keyElemStmts args)]

/-- The renaming of a direct DateTime argument to String. -/
def renameDateTime (e : Expr) : Expr := if isDateTime e then Expr.ident "String" else e

/-- Appending k Format(FormatDateTime) statements to the trailing block of an argument
list, a new block being appended when the list does not end with a block; nothing happens
for k = 0. -/
def addFormats (k : Nat) (tl : List Expr) : List Expr :=
  if k = 0 then tl
  else
    match tl.getLast? with
    | some (Expr.funcLit typ body) =>
      tl.dropLast ++ [Expr.funcLit typ (body ++ List.replicate k formatDateTimeStmt)]
    | _ => tl ++ [Expr.funcLit emptyFuncType (List.replicate k formatDateTimeStmt)]

/-- The diagnostic of analyzeDateTime. -/
def dateTimeDiag : Diagnostic :=
  diag "DateTime should be replaced with String + Format(FormatDateTime)"

/-- The optional last element of a list is no function literal. -/
def NotFuncLit (o : Option Expr) : Prop := ∀ typ body, o ≠ some (Expr.funcLit typ body)

/-- The largest bound among the children of a node, as ast.Walk visits them. -/
def childDepth : Expr → Nat
  | Expr.callExpr fn args => max (inspectDepth fn) (inspectDepthList args)
  | Expr.funcLit typ body => max (inspectDepth typ) (inspectDepthStmts body)
  | Expr.other _ children => inspectDepthList children
  | _ => 0

/-- The callee of a call after the visit of the call by the generic scan. -/
def visitCallee (name : String) : String :=
  if name = "HashOf" then "MapOf" else if name = "Metadata" then "Meta" else name

/-- The arguments of a call to the identifier name after the visit of the call by the
generic scan. -/
def visitArgs (name : String) (args : List Expr) : List Expr :=
  if name = "HashOf" then mapOfArgs args
  else if name = "Metadata" then args
  else addFormats (args.countP isDateTime) (args.map renameDateTime)

/-- The expression as the generic scan leaves it. -/
def scanExpr (e : Expr) : Expr :=
  match analyzeGenericDSL e with
  | Except.ok r => r.val
  | Except.error _ => e

/-- The statement as the generic scan leaves it. -/
def scanStmt (s : Stmt) : Stmt :=
  match inspectStmt (inspect (inspectDepthStmt s)) s with
  | Except.ok r => r.val
  | Except.error _ => s

/-- The name of the callee of a call statement after the generic scan. -/
def scanCallee (name : String) : String :=
  if name = "HashOf" then "MapOf"
  else if name = "Metadata" then "Meta"
  else if name = "Integer" then "Int"
  else if name = "Number" then "Float64"
  else if name = "File" then "Bytes"
  else name

/-- The callee name of a call statement with an identifier callee; none for every other
statement. -/
def calleeName : Stmt → Option String
  | Stmt.exprStmt (Expr.callExpr (Expr.ident name) _) => some name
  | _ => none

/-- The arguments of a call statement with an identifier callee. -/
def callArgs : Stmt → List Expr
  | Stmt.exprStmt (Expr.callExpr (Expr.ident _) args) => args
  | _ => []

/-- The statement is a call statement whose callee is an identifier. -/
def IsIdentCall (s : Stmt) : Prop := ∃ name args, s = Stmt.exprStmt (Expr.callExpr (Expr.ident name) args)

/-- The constructor of an expression. -/
def Expr.kindIndex : Expr → Nat
  | Expr.ident _ => 0
  | Expr.basicLit _ _ => 1
  | Expr.callExpr _ _ => 2
  | Expr.funcLit _ _ => 3
  | Expr.other _ _ => 4

/-- The statements analyzeAPI relocates: calls to BasePath, Consumes, Params, Produces. -/
def isRelocatedAPI (s : Stmt) : Bool :=
  match calleeName s with
  | some name => decide (name ∈ ["BasePath", "Consumes", "Params", "Produces"])
  | none => false

/-- The statements analyzeAPI keeps in place: the other call statements with an identifier
callee. -/
def isKeptAPI (s : Stmt) : Bool :=
  match calleeName s with
  | some name => !decide (name ∈ ["BasePath", "Consumes", "Params", "Produces"])
  | none => false

/-- A statement as analyzeAPI leaves it: BasePath is renamed Path and the colons in its
literals are rewritten; every other statement is as it was. -/
def rewriteAPI (s : Stmt) : Stmt :=
  match s with
  | Stmt.exprStmt (Expr.callExpr (Expr.ident name) args) =>
    if name = "BasePath" then (analyzeBasePath args []).stmt else s
  | _ => s

/-- The empty state a statement loop starts from. -/
def Regroup.empty : Regroup := ⟨[], [], [], false, []⟩

/-- The state b of a statement loop carried on from the state a. -/
def Regroup.append (a b : Regroup) : Regroup :=
  ⟨a.inPlace ++ b.inPlace, a.list ++ b.list, a.listHTTP ++ b.listHTTP, b.changed || a.changed,
    a.diags ++ b.diags⟩

/-- The Response statement as analyzeResponse leaves it. -/
def responseStmt (lib : Lib) (fn : Expr) (args : List Expr) : Stmt :=
  (analyzeResponse lib fn args [] []).stmt

/-- The statements analyzeResponse appends to the grandparent list: Error statements for
the error status names among the arguments and the Result statements lifted out of the
block arguments. -/
def responseExtras (lib : Lib) (fn : Expr) (args : List Expr) : List Stmt :=
  (analyzeResponse lib fn args [] []).grandparent

/-- The statements analyzeResource relocates into the HTTP wrapper. -/
def isRelocatedResource (s : Stmt) : Bool :=
  match calleeName s with
  | some name =>
    decide (name ∈ ["BasePath", "CanonicalActionName", "Headers", "Params", "Parent", "Response"])
  | none => false

/-- The statements analyzeResource keeps in place: Action and every call statement with an
identifier callee it has no case for. -/
def isKeptResource (s : Stmt) : Bool :=
  match calleeName s with
  | some name =>
    !decide (name ∈ ["BasePath", "CanonicalActionName", "DefaultMedia", "Headers", "Params",
      "Parent", "Response"])
  | none => false

/-- A statement as analyzeResource leaves it: Action is renamed Method and its blocks are
regrouped, BasePath is renamed Path with the colons of its literals rewritten,
CanonicalActionName is renamed CanonicalMethod, Response has its arguments rewritten; every
other statement is as it was. -/
def rewriteResource (lib : Lib) (s : Stmt) : Stmt :=
  match s with
  | Stmt.exprStmt (Expr.callExpr (Expr.ident name) args) =>
    if name = "Action" then Stmt.exprStmt (Expr.callExpr (Expr.ident "Method") (analyzeActionArgs lib args).val)
    else if name = "BasePath" then Stmt.exprStmt (Expr.callExpr (Expr.ident "Path") (analyzeBasePathArgs args).val)
    else if name = "CanonicalActionName" then Stmt.exprStmt (Expr.callExpr (Expr.ident "CanonicalMethod") args)
    else if name = "Response" then responseStmt lib (Expr.ident name) args
    else s
  | _ => s

/-- The statements a Response statement adds to the list of kept statements; none for every
other statement. -/
def keptExtras (lib : Lib) (s : Stmt) : List Stmt :=
  match s with
  | Stmt.exprStmt (Expr.callExpr (Expr.ident name) args) =>
    if name = "Response" then responseExtras lib (Expr.ident name) args else []
  | _ => []

/-- The callee name of a statement of a Resource body after analyzeResource. -/
def resourceCallee (name : String) : String :=
  if name = "Action" then "Method"
  else if name = "BasePath" then "Path"
  else if name = "CanonicalActionName" then "CanonicalMethod"
  else scanCallee name

/-- The body of a Resource block after analyzeResource, from the body before: when a
statement is relocated, the kept statements (with what Response statements add to them)
followed by the HTTP wrapper of the relocated statements, both in the original order;
otherwise the statements in place. -/
def resourceBody (lib : Lib) (body : List Stmt) : List Stmt :=
  if (body.filter isRelocatedResource).length > 0 then
    body.flatMap (fun s =>
      if isKeptResource s then [rewriteResource lib (scanStmt s)] else keptExtras lib (scanStmt s)) ++
      [httpWrapper ((body.filter isRelocatedResource).map (fun s => rewriteResource lib (scanStmt s)))]
  else body.map (fun s => rewriteResource lib (scanStmt s))

/-- An argument of Routing that analyzeRouting lifts: a call to one of the HTTP routing
functions. -/
def isRoutingCall : Expr → Bool
  | Expr.callExpr (Expr.ident name) _ => decide (name ∈ routingNames)
  | _ => false

/-- The statements of an Action body that make analyzeAction relocate something: Headers,
Params, Response, and a Routing call with a routing function among its arguments. -/
def isRelocatedAction (s : Stmt) : Bool :=
  match calleeName s with
  | some name =>
    decide (name ∈ ["Headers", "Params", "Response"]) ||
      (decide (name = "Routing") && (callArgs s).any isRoutingCall)
  | none => false

/-- The import path the analyzer maps a path to: the empty path stands for removal. -/
def importTarget (path : String) : String :=
  if path = "github.com/goadesign/goa/design" then ""
  else if path = "github.com/goadesign/goa/design/apidsl" then "goa.design/goa/v3/dsl"
  else path

/-- The import remap of the specification on one spec: the legacy core design import is
deleted, the legacy DSL import gets the v3 path, every other import keeps its path (written
as strconv.Quote prints it); a spec whose literal cannot be unquoted is left alone. -/
def remapSpec (lib : Lib) : Spec → Option Spec
  | Spec.importSpec name value =>
    match lib.unquote value with
    | some path =>
      if path = "github.com/goadesign/goa/design" then none
      else if path = "github.com/goadesign/goa/design/apidsl" then
        some (Spec.importSpec name (lib.quote "goa.design/goa/v3/dsl"))
      else some (Spec.importSpec name (lib.quote path))
    | none => some (Spec.importSpec name value)
  | spec => some spec

/-- A well-formed spec of an import declaration: an import spec whose literal unquotes to a
non-empty path. -/
def ValidImport (lib : Lib) (spec : Spec) : Prop :=
  ∃ name value path, spec = Spec.importSpec name value ∧ lib.unquote value = some path ∧ path ≠ ""

/-! ## Example inputs -/

/-- A design file holding var _ = Type("Bottle", func() { Attribute("tags", HashOf(String,
DateTime)) }). -/
def exampleHashOfFile : List (List Decl) :=
  [[Decl.genDecl DeclTok.VAR false [Spec.valueSpec ["_"] none
    [Expr.callExpr (Expr.ident "Type") [Expr.basicLit LitKind.STRING "\"Bottle\"",
      Expr.funcLit emptyFuncType [Stmt.exprStmt (Expr.callExpr (Expr.ident "Attribute")
        [Expr.basicLit LitKind.STRING "\"tags\"",
          Expr.callExpr (Expr.ident "HashOf") [Expr.ident "String", Expr.ident "DateTime"]])]]]]]]

/-- The file exampleHashOfFile after a first run: HashOf is renamed, DateTime is still
there. -/
def exampleHashOfFileOnce : List (List Decl) :=
  [[Decl.genDecl DeclTok.VAR false [Spec.valueSpec ["_"] none
    [Expr.callExpr (Expr.ident "Type") [Expr.basicLit LitKind.STRING "\"Bottle\"",
      Expr.funcLit emptyFuncType [Stmt.exprStmt (Expr.callExpr (Expr.ident "Attribute")
        [Expr.basicLit LitKind.STRING "\"tags\"",
          Expr.callExpr (Expr.ident "MapOf") [Expr.ident "String", Expr.ident "DateTime"]])]]]]]]

/-- The file exampleHashOfFile after a second run. -/
def exampleHashOfFileTwice : List (List Decl) :=
  [[Decl.genDecl DeclTok.VAR false [Spec.valueSpec ["_"] none
    [Expr.callExpr (Expr.ident "Type") [Expr.basicLit LitKind.STRING "\"Bottle\"",
      Expr.funcLit emptyFuncType [Stmt.exprStmt (Expr.callExpr (Expr.ident "Attribute")
        [Expr.basicLit LitKind.STRING "\"tags\"",
          Expr.callExpr (Expr.ident "MapOf") [Expr.ident "String", Expr.ident "String",
            Expr.funcLit emptyFuncType [formatDateTimeStmt]]])]]]]]]

/-- An API body with two kept and two relocated statements: Title, BasePath, Metadata,
Produces. -/
def exampleAPIBody : List Stmt :=
  [Stmt.exprStmt (Expr.callExpr (Expr.ident "Title") [Expr.basicLit LitKind.STRING "\"t\""]),
   Stmt.exprStmt (Expr.callExpr (Expr.ident "BasePath") [Expr.basicLit LitKind.STRING "\"/b/:id\""]),
   Stmt.exprStmt (Expr.callExpr (Expr.ident "Metadata") [Expr.basicLit LitKind.STRING "\"k\""]),
   Stmt.exprStmt (Expr.callExpr (Expr.ident "Produces") [Expr.basicLit LitKind.STRING "\"j\""])]

/-- A Resource body with kept and relocated statements mixed: Parent, Action, BasePath,
Description, CanonicalActionName, Headers, Params, Response(OK), DefaultMedia. -/
def exampleResourceBody : List Stmt :=
  [Stmt.exprStmt (Expr.callExpr (Expr.ident "Parent") [Expr.basicLit LitKind.STRING "\"account\""]),
   Stmt.exprStmt (Expr.callExpr (Expr.ident "Action") [Expr.basicLit LitKind.STRING "\"show\""]),
   Stmt.exprStmt (Expr.callExpr (Expr.ident "BasePath") [Expr.basicLit LitKind.STRING "\"/b/:id\""]),
   Stmt.exprStmt (Expr.callExpr (Expr.ident "Description") [Expr.basicLit LitKind.STRING "\"d\""]),
   Stmt.exprStmt (Expr.callExpr (Expr.ident "CanonicalActionName")
     [Expr.basicLit LitKind.STRING "\"show\""]),
   Stmt.exprStmt (Expr.callExpr (Expr.ident "Headers") []),
   Stmt.exprStmt (Expr.callExpr (Expr.ident "Params") []),
   Stmt.exprStmt (Expr.callExpr (Expr.ident "Response") [Expr.ident "OK"]),
   Stmt.exprStmt (Expr.callExpr (Expr.ident "DefaultMedia") [Expr.ident "X"])]

/-- A block in which nothing is relocated, by analyzeAPI, analyzeAction or
analyzeResource: Description("d") and a statement that is no call. -/
def examplePlainBody : List Stmt :=
  [Stmt.exprStmt (Expr.callExpr (Expr.ident "Description") [Expr.basicLit LitKind.STRING "\"d\""]),
   Stmt.other "AssignStmt" []]

/-- The specs of import ( "github.com/goadesign/goa/design"; . "github.com/goadesign/goa/design/apidsl";
"fmt" ). -/
def exampleImports : List Spec :=
  [Spec.importSpec none "\"github.com/goadesign/goa/design\"",
   Spec.importSpec (some ".") "\"github.com/goadesign/goa/design/apidsl\"",
   Spec.importSpec none "\"fmt\""]


/-! ## Specification-level definitions: Response -/

/-- What a statement of a block argument of Response leaves in the block: a Status call, renamed
Code; every other call with an identifier callee but Media, as it is; nothing for a Media call and
nothing for a statement that is no call with an identifier callee. -/
def blockKept (s : Stmt) : List Stmt :=
  match s with
  | Stmt.exprStmt (Expr.callExpr (Expr.ident name) args) =>
    if name = "Media" then []
    else if name = "Status" then [Stmt.exprStmt (Expr.callExpr (Expr.ident "Code") args)]
    else [s]
  | _ => []

/-- What a statement of a block argument of Response adds to the grandparent list: a Media
call, renamed Result, when no error status name came before the block; nothing otherwise. -/
def blockResults (errorResponse : Bool) (s : Stmt) : List Stmt :=
  match s with
  | Stmt.exprStmt (Expr.callExpr (Expr.ident name) args) =>
    if name = "Media" ∧ errorResponse = false then
      [Stmt.exprStmt (Expr.callExpr (Expr.ident "Result") args)]
    else []
  | _ => []

/-- A statement of a block argument of Response as the in-place renames leave it. -/
def blockInPlace (errorResponse : Bool) (s : Stmt) : Stmt :=
  match s with
  | Stmt.exprStmt (Expr.callExpr (Expr.ident name) args) =>
    if name = "Media" then
      if errorResponse then s else Stmt.exprStmt (Expr.callExpr (Expr.ident "Result") args)
    else if name = "Status" then Stmt.exprStmt (Expr.callExpr (Expr.ident "Code") args)
    else s
  | _ => s

/-- The statement is a call to Media or Status. -/
def blockTouched (s : Stmt) : Bool :=
  match calleeName s with
  | some name => decide (name = "Media") || decide (name = "Status")
  | none => false

/-- The diagnostics a statement of a block argument of Response gives rise to. -/
def blockDiags (errorResponse : Bool) (s : Stmt) : List Diagnostic :=
  match calleeName s with
  | some name =>
    if name = "Media" then
      if errorResponse then [diag "Media for an error response should be removed"]
      else [diag "Media for a non-error response should be replaced with Result and wrapped by HTTP in the parent"]
    else if name = "Status" then [diag "Status should be replaced with Code"]
    else []
  | none => []

/-- The name of an identifier argument of Response after analyzeResponse: the names of the
two fixed sets get the prefix Status. -/
def statusName (name : String) : String :=
  if name ∈ errorStatusNames ∨ name ∈ statusNames then "Status" ++ name else name

/-- What an argument of Response becomes in the argument list that analyzeResponse builds:
ErrorMedia is left out; an error status name X becomes an identifier named by the quoted
snake case of X followed by StatusX; a name of the non-error set gets the prefix Status;
a block keeps blockKept of its statements and is left out when nothing is kept; every other
argument is as it was. -/
def responseArgOut (lib : Lib) (e : Expr) : List Expr :=
  match e with
  | Expr.ident name =>
    if name = "ErrorMedia" then []
    else if name ∈ errorStatusNames then
      [Expr.ident (lib.quote (lib.toSnake name)), Expr.ident ("Status" ++ name)]
    else if name ∈ statusNames then [Expr.ident ("Status" ++ name)]
    else [e]
  | Expr.funcLit typ body =>
    if (body.flatMap blockKept).length > 0 then [Expr.funcLit typ (body.flatMap blockKept)] else []
  | _ => [e]

/-- An argument of Response as the in-place mutation leaves it. -/
def responseArgInPlace (e : Expr) : Expr :=
  match e with
  | Expr.ident name => Expr.ident (statusName name)
  | Expr.funcLit typ body => Expr.funcLit typ (body.flatMap blockKept)
  | _ => e

/-- The argument makes analyzeResponse set its changed flag: ErrorMedia, a name of one of the
two fixed sets, or a block with a Media or Status call. -/
def responseArgTouched (e : Expr) : Bool :=
  match e with
  | Expr.ident name =>
    decide (name = "ErrorMedia") || decide (name ∈ errorStatusNames) || decide (name ∈ statusNames)
  | Expr.funcLit _ body => body.any blockTouched
  | _ => false

/-- The argument is an identifier named by one of the error status names. -/
def isErrorStatus (e : Expr) : Bool :=
  match e with
  | Expr.ident name => decide (name ∈ errorStatusNames)
  | _ => false

/-- What an argument of Response adds to the grandparent list, errorResponse telling whether
an error status name came before it. -/
def responseArgExtras (lib : Lib) (errorResponse : Bool) (e : Expr) : List Stmt :=
  match e with
  | Expr.ident name =>
    if name ∈ errorStatusNames then [errorStmt (lib.quote (lib.toSnake name))] else []
  | Expr.funcLit _ body => body.flatMap (blockResults errorResponse)
  | _ => []

/-- The argument list of the Response call after analyzeResponse. -/
def responseArgs (lib : Lib) (args : List Expr) : List Expr :=
  if args.any responseArgTouched then args.flatMap (responseArgOut lib)
  else args.map responseArgInPlace

/-- The diagnostics an argument of Response gives rise to. -/
def responseArgDiags (errorResponse : Bool) (e : Expr) : List Diagnostic :=
  match e with
  | Expr.ident name =>
    if name = "ErrorMedia" then [diag "ErrorMedia should be removed"]
    else if name ∈ errorStatusNames ∨ name ∈ statusNames then (analyzeHTTPStatusConstant name).diags
    else []
  | Expr.funcLit _ body => body.flatMap (blockDiags errorResponse)
  | _ => []

/-- What the arguments of Response add to the grandparent list, in order, errorResponse
telling whether an error status name came before them. -/
def responseExtrasFrom (lib : Lib) : Bool → List Expr → List Stmt
  | _, [] => []
  | errorResponse, e :: rest =>
    responseArgExtras lib errorResponse e ++
      responseExtrasFrom lib (isErrorStatus e || errorResponse) rest

/-! ## Specification-level definitions: the postcondition of the generic scan -/

/-- The name is one of the identifiers the generic scan renames: Integer, Number, File. -/
def isLegacyIdent (name : String) : Bool :=
  decide (name = "Integer") || decide (name = "Number") || decide (name = "File")

/-- The callee is the identifier HashOf or Metadata. -/
def isLegacyCallee : Expr → Bool
  | Expr.ident name => decide (name = "HashOf") || decide (name = "Metadata")
  | _ => false

mutual
/-- The tree holds no identifier named Integer, Number or File and no call whose callee is
the identifier HashOf or Metadata. -/
def Expr.scanned : Expr → Bool
  | Expr.ident name => !isLegacyIdent name
  | Expr.basicLit _ _ => true
  | Expr.callExpr fn args => !isLegacyCallee fn && (Expr.scanned fn && scannedList args)
  | Expr.funcLit typ body => Expr.scanned typ && scannedStmts body
  | Expr.other _ children => scannedList children
termination_by structural e => e
/-- Every expression of the list is scanned. -/
def scannedList : List Expr → Bool
  | [] => true
  | e :: es => Expr.scanned e && scannedList es
termination_by structural l => l
/-- The statement holds no identifier named Integer, Number or File and no call whose callee
is the identifier HashOf or Metadata. -/
def Stmt.scanned : Stmt → Bool
  | Stmt.exprStmt x => Expr.scanned x
  | Stmt.other _ children => scannedStmts children
termination_by structural s => s
/-- Every statement of the list is scanned. -/
def scannedStmts : List Stmt → Bool
  | [] => true
  | s :: ss => Stmt.scanned s && scannedStmts ss
termination_by structural l => l
end

/-- The node itself is no identifier named Integer, Number or File and no call to the
identifier HashOf or Metadata. -/
def topScanned : Expr → Bool
  | Expr.ident name => !isLegacyIdent name
  | Expr.callExpr fn _ => !isLegacyCallee fn
  | _ => true

/-! ## Specification-level definitions: a second analyzeAPI -/

/-- The statement list of a block argument of API after analyzeAPI: when a statement is
relocated, the kept statements followed by the HTTP wrapper of the relocated ones; otherwise
the statements in place; each statement as the generic scan (and the BasePath rule) leaves
it. -/
def apiBody (body : List Stmt) : List Stmt :=
  if (body.filter isRelocatedAPI).length > 0 then
    (body.filter isKeptAPI).map scanStmt ++
      [httpWrapper ((body.filter isRelocatedAPI).map (fun s => rewriteAPI (scanStmt s)))]
  else body.map scanStmt

/-- An argument of API after analyzeAPI. -/
def apiArg (e : Expr) : Expr :=
  match e with
  | Expr.funcLit typ body => Expr.funcLit (scanExpr typ) (apiBody body)
  | _ => e

/-- The argument is a block with a statement that analyzeAPI relocates. -/
def apiArgChanged (e : Expr) : Bool :=
  match e with
  | Expr.funcLit _ body => body.any isRelocatedAPI
  | _ => false

/-- An argument of API as the generic scan alone leaves it: a block is scanned, with its
statements in place; every other argument is as it was. -/
def apiArgScanned (e : Expr) : Expr :=
  match e with
  | Expr.funcLit typ body => Expr.funcLit (scanExpr typ) (body.map scanStmt)
  | _ => e

/-! ## Example inputs: statements that are lost or kept -/

/-- A statement that is no call: the assignment x := 1. -/
def exampleAssign : Stmt :=
  Stmt.other "AssignStmt" [Stmt.exprStmt (Expr.ident "x"), Stmt.exprStmt (Expr.basicLit LitKind.INT "1")]

/-- A call statement whose callee is no identifier: pkg.Describe(). -/
def exampleSelectorCall : Stmt :=
  Stmt.exprStmt (Expr.callExpr (Expr.other "SelectorExpr" [Expr.ident "pkg", Expr.ident "Describe"]) [])

/-- The statement Title("t"). -/
def exampleTitle : Stmt :=
  Stmt.exprStmt (Expr.callExpr (Expr.ident "Title") [Expr.basicLit LitKind.STRING "\"t\""])

/-- A block with one relocated statement, named by callee, before an assignment, a call to a
selector and Title("t"). -/
def exampleMixedBody (callee : String) : List Stmt :=
  [Stmt.exprStmt (Expr.callExpr (Expr.ident callee) [Expr.basicLit LitKind.STRING "\"/x\""]),
   exampleAssign, exampleSelectorCall, exampleTitle]

/-- The block exampleMixedBody after the regrouping: Title("t") and the HTTP wrapper of the
relocated statement, renamed. -/
def exampleMixedBodyAfter (callee : String) : List Stmt :=
  [exampleTitle,
   httpWrapper [Stmt.exprStmt (Expr.callExpr (Expr.ident callee) [Expr.basicLit LitKind.STRING "\"/x\""])]]

/-- The specs of var _ = callee("x", func() { inner("k") }). -/
def exampleVarSpecs (callee inner : String) : List Spec :=
  [Spec.valueSpec ["_"] none
    [Expr.callExpr (Expr.ident callee) [Expr.basicLit LitKind.STRING "\"x\"",
      Expr.funcLit emptyFuncType
        [Stmt.exprStmt (Expr.callExpr (Expr.ident inner) [Expr.basicLit LitKind.STRING "\"k\""])]]]]

/-! ## Specification-level definitions: Routing and the block of an Action -/

/-- An argument of a routing function after analyzeHTTPRoutingDSL: the path segments of a
basic literal are rewritten by replaceWildcard; every other argument is as it was. -/
def rewriteRoutingArg (e : Expr) : Expr :=
  match e with
  | Expr.basicLit kind value => Expr.basicLit kind (replaceWildcard value)
  | _ => e

/-- A call to a routing function after analyzeHTTPRoutingDSL. -/
def rewriteRoutingCall (e : Expr) : Expr :=
  match e with
  | Expr.callExpr fn args => Expr.callExpr fn (args.map rewriteRoutingArg)
  | _ => e

/-- The statements analyzeRouting lifts out of the arguments of Routing: the calls to the
routing functions, in order, each with its literals rewritten. -/
def routingLifted (args : List Expr) : List Stmt :=
  (args.filter isRoutingCall).map (fun e => Stmt.exprStmt (rewriteRoutingCall e))

/-- What a statement of an Action block adds to the HTTP wrapper: Headers and Params
themselves, the Response statement with its arguments rewritten, the routing calls lifted out
of Routing; nothing for every other statement. -/
def actionMoved (lib : Lib) (s : Stmt) : List Stmt :=
  match s with
  | Stmt.exprStmt (Expr.callExpr (Expr.ident name) args) =>
    if name = "Headers" ∨ name = "Params" then [s]
    else if name = "Response" then [responseStmt lib (Expr.ident name) args]
    else if name = "Routing" then routingLifted args
    else []
  | _ => []

/-- What a statement of an Action block adds to the kept statements: nothing for Headers,
Params and Routing; for Response the Error and Result statements it gives rise to; every
other call with an identifier callee itself; nothing for every other statement. -/
def actionKept (lib : Lib) (s : Stmt) : List Stmt :=
  match s with
  | Stmt.exprStmt (Expr.callExpr (Expr.ident name) args) =>
    if name = "Headers" ∨ name = "Params" then []
    else if name = "Response" then responseExtras lib (Expr.ident name) args
    else if name = "Routing" then []
    else [s]
  | _ => []

/-! ## Specification-level definitions: the tree the generic scan is to leave -/

/-- The name of an identifier after the generic scan, as the specification has it: Integer
becomes Int, Number becomes Float64, File becomes Bytes, every other name stays. -/
def renameIdent (name : String) : String :=
  if name = "Integer" then "Int"
  else if name = "Number" then "Float64"
  else if name = "File" then "Bytes"
  else name

/-- The arguments of Key or Elem around a scanned argument of HashOf: the argument itself,
or, for DateTime, String and a block holding Format(FormatDateTime). -/
def keyElemArgs (x : Expr) : List Expr :=
  if isDateTime x then [Expr.ident "String", Expr.funcLit emptyFuncType [formatDateTimeStmt]]
  else [x]

/-- The arguments of MapOf, from the scanned arguments of HashOf: unchanged up to two
arguments; from three on, the arguments at the positions other than 2 and 3 followed by one
new block holding Key of the third argument and Elem of the fourth. -/
def mapOfScanned (l : List Expr) : List Expr :=
  if l.length ≤ 2 then l
  else (l.take 2 ++ l.drop 4) ++ [Expr.funcLit emptyFuncType
    (((l.drop 2).take 1).map
        (fun a => Stmt.exprStmt (Expr.callExpr (Expr.ident "Key") (keyElemArgs a))) ++
      ((l.drop 3).take 1).map
        (fun a => Stmt.exprStmt (Expr.callExpr (Expr.ident "Elem") (keyElemArgs a))))]

mutual
/-- The tree the generic scan is to leave, by recursion on the tree: every identifier is
renamed by renameIdent; a call to the identifier HashOf becomes a call to MapOf with its
arguments regrouped; a call to the identifier Metadata becomes a call to Meta; every
other call to an identifier has its direct DateTime arguments renamed String, with one
Format(FormatDateTime) statement for each in its trailing block; all nodes below are
rewritten alike. -/
def scanSpecExpr : Expr → Expr
  | Expr.ident name => Expr.ident (renameIdent name)
  | Expr.basicLit kind value => Expr.basicLit kind value
  | Expr.callExpr fn args =>
    match fn with
    | Expr.ident name =>
      if name = "HashOf" then Expr.callExpr (Expr.ident "MapOf") (mapOfScanned (scanSpecList args))
      else if name = "Metadata" then Expr.callExpr (Expr.ident "Meta") (scanSpecList args)
      else Expr.callExpr (Expr.ident (renameIdent name))
        (addFormats (args.countP isDateTime) (scanSpecArgs args))
    | _ => Expr.callExpr (scanSpecExpr fn) (scanSpecList args)
  | Expr.funcLit typ body => Expr.funcLit (scanSpecExpr typ) (scanSpecStmts body)
  | Expr.other kind children => Expr.other kind (scanSpecList children)
termination_by structural e => e
/-- The expressions of a list, each rewritten by scanSpecExpr. -/
def scanSpecList : List Expr → List Expr
  | [] => []
  | e :: es => scanSpecExpr e :: scanSpecList es
termination_by structural l => l
/-- The arguments of a call to which the DateTime rule applies: a direct DateTime argument
becomes String, every other argument is rewritten by scanSpecExpr. -/
def scanSpecArgs : List Expr → List Expr
  | [] => []
  | e :: es => (if isDateTime e then Expr.ident "String" else scanSpecExpr e) :: scanSpecArgs es
termination_by structural l => l
/-- The statement the generic scan is to leave. -/
def scanSpecStmt : Stmt → Stmt
  | Stmt.exprStmt x => Stmt.exprStmt (scanSpecExpr x)
  | Stmt.other kind children => Stmt.other kind (scanSpecStmts children)
termination_by structural s => s
/-- The statements of a list, each rewritten by scanSpecStmt. -/
def scanSpecStmts : List Stmt → List Stmt
  | [] => []
  | s :: ss => scanSpecStmt s :: scanSpecStmts ss
termination_by structural l => l
end

/-- A block with legacy names at several depths: Attribute("a", Integer),
Attribute("b", HashOf(String, Number)), Metadata("k", File), and a return statement
holding the identifier File. -/
def exampleLegacyBody : List Stmt :=
  [Stmt.exprStmt (Expr.callExpr (Expr.ident "Attribute")
     [Expr.basicLit LitKind.STRING "\"a\"", Expr.ident "Integer"]),
   Stmt.exprStmt (Expr.callExpr (Expr.ident "Attribute")
     [Expr.basicLit LitKind.STRING "\"b\"",
      Expr.callExpr (Expr.ident "HashOf") [Expr.ident "String", Expr.ident "Number"]]),
   Stmt.exprStmt (Expr.callExpr (Expr.ident "Metadata")
     [Expr.basicLit LitKind.STRING "\"k\"", Expr.ident "File"]),
   Stmt.other "ReturnStmt" [Stmt.exprStmt (Expr.ident "File")]]

/-- The block exampleLegacyBody with every legacy name renamed. -/
def exampleLegacyBodyRenamed : List Stmt :=
  [Stmt.exprStmt (Expr.callExpr (Expr.ident "Attribute")
     [Expr.basicLit LitKind.STRING "\"a\"", Expr.ident "Int"]),
   Stmt.exprStmt (Expr.callExpr (Expr.ident "Attribute")
     [Expr.basicLit LitKind.STRING "\"b\"",
      Expr.callExpr (Expr.ident "MapOf") [Expr.ident "String", Expr.ident "Float64"]]),
   Stmt.exprStmt (Expr.callExpr (Expr.ident "Meta")
     [Expr.basicLit LitKind.STRING "\"k\"", Expr.ident "Bytes"]),
   Stmt.other "ReturnStmt" [Stmt.exprStmt (Expr.ident "Bytes")]]
/-! ## The literal pattern rewriter -/

theorem isWordChar_eq (c : Char) : isWordChar c = isNameChar c := by
  simp only [isWordChar, isNameChar, Char.isAlphanum, Char.isAlpha, Char.isUpper, Char.isLower,
    Char.isDigit]
  have h1 : ∀ a b : Char, decide (a ≤ b) = decide (a.val ≤ b.val) := fun a b => rfl
  simp only [h1, ge_iff_le]
  have : (decide ('a'.val ≤ c.val) && decide (c.val ≤ 'z'.val)) = (decide (97 ≤ c.val) && decide (c.val ≤ 122)) := rfl
  rw [this]
  have : (decide ('A'.val ≤ c.val) && decide (c.val ≤ 'Z'.val)) = (decide (65 ≤ c.val) && decide (c.val ≤ 90)) := rfl
  rw [this]
  have : (decide ('0'.val ≤ c.val) && decide (c.val ≤ '9'.val)) = (decide (48 ≤ c.val) && decide (c.val ≤ 57)) := rfl
  rw [this]
  cases (decide (97 ≤ c.val) && decide (c.val ≤ 122)) <;> cases (decide (65 ≤ c.val) && decide (c.val ≤ 90)) <;> cases (decide (48 ≤ c.val) && decide (c.val ≤ 57)) <;> simp

theorem isWordChar_fun : isWordChar = isNameChar := funext isWordChar_eq

theorem matchWildcard_some (s name rest : List Char) (h : matchWildcard s = some (name, rest)) :
    s = '/' :: ':' :: (name ++ rest) ∧ name ≠ [] ∧ (∀ c ∈ name, isNameChar c = true) ∧
      (∀ c ∈ rest.head?, isNameChar c = false) := by
  unfold matchWildcard at h
  split at h
  · rename_i r
    split at h
    · simp at h
    · rename_i hne
      simp only [Option.some.injEq, Prod.mk.injEq] at h
      obtain ⟨h1, h2⟩ := h
      subst h1; subst h2
      rw [isWordChar_fun] at hne ⊢
      refine ⟨by rw [List.takeWhile_append_dropWhile], ?_, ?_, ?_⟩
      · intro h0; simp [h0] at hne
      · intro c hc; exact (List.mem_takeWhile_imp hc)
      · intro c hc
        have := List.head?_dropWhile_not isNameChar r
        rw [Option.mem_def] at hc
        rw [hc] at this
        exact this
  · simp at h

theorem matchWildcard_none (s : List Char) (h : matchWildcard s = none) : ¬ SegmentAtHead s := by
  rintro ⟨d, t, rfl, hd⟩
  simp [matchWildcard, List.takeWhile, isWordChar_eq, hd] at h

theorem matchWildcard_segment (name rest : List Char) (h1 : name ≠ [])
    (h2 : ∀ c ∈ name, isNameChar c = true) (h3 : ∀ c ∈ rest.head?, isNameChar c = false) :
    matchWildcard ('/' :: ':' :: (name ++ rest)) = some (name, rest) := by
  have hd : rest.dropWhile isNameChar = rest := by
    cases rest with
    | nil => rfl
    | cons c r => simp [List.dropWhile, h3 c (by simp)]
  have ht : (name ++ rest).takeWhile isNameChar = name := by
    rw [List.takeWhile_append_of_pos h2]
    cases rest with
    | nil => simp
    | cons c r => simp [List.takeWhile, h3 c (by simp)]
  have hdr : (name ++ rest).dropWhile isNameChar = rest := by
    rw [List.dropWhile_append_of_pos h2, hd]
  simp only [matchWildcard, isWordChar_fun, ht, hdr]
  cases name with
  | nil => exact absurd rfl h1
  | cons c r => simp

theorem replaceAllFrom_rewritten : ∀ (n : Nat) (s : List Char), s.length ≤ n →
    Rewritten s (replaceAllFrom n s) := by
  intro n
  induction n using Nat.strong_induction_on with
  | _ n ih =>
    intro s hs
    cases n with
    | zero =>
      have : s = [] := List.length_eq_zero.mp (Nat.le_zero.mp hs)
      subst this
      exact Rewritten.done
    | succ n =>
      cases s with
      | nil => exact Rewritten.done
      | cons c cs =>
        simp only [replaceAllFrom]
        cases hm : matchWildcard (c :: cs) with
        | none =>
          exact Rewritten.copy c cs _ (matchWildcard_none _ hm)
            (ih n (Nat.lt_succ_self n) cs (by simpa using hs))
        | some p =>
          obtain ⟨name, rest⟩ := p
          obtain ⟨he, h1, h2, h3⟩ := matchWildcard_some _ _ _ hm
          simp only [expandTemplate]
          rw [he]
          have hlen : rest.length ≤ n := by
            have := congrArg List.length he
            simp at this hs
            omega
          have := Rewritten.segment name rest _ h1 h2 h3 (ih n (Nat.lt_succ_self n) rest hlen)
          simpa using this

theorem rewritten_eq : ∀ (s out : List Char), Rewritten s out →
    ∀ n, s.length ≤ n → out = replaceAllFrom n s := by
  intro s out h
  induction h with
  | done => intro n _; cases n <;> rfl
  | segment name rest out h1 h2 h3 _ ih =>
    intro n hn
    cases n with
    | zero => simp at hn
    | succ n =>
      simp only [replaceAllFrom, matchWildcard_segment name rest h1 h2 h3, expandTemplate]
      rw [← ih n (by simp at hn; omega)]
      simp
  | copy c s out hns _ ih =>
    intro n hn
    cases n with
    | zero => simp at hn
    | succ n =>
      simp only [replaceAllFrom]
      cases hm : matchWildcard (c :: s) with
      | none => simp only []; rw [← ih n (by simpa using hn)]
      | some p =>
        obtain ⟨name, rest⟩ := p
        obtain ⟨he, h1, h2, _⟩ := matchWildcard_some _ _ _ hm
        exfalso
        apply hns
        cases name with
        | nil => exact absurd rfl h1
        | cons d t => exact ⟨d, t ++ rest, by simpa using he, h2 d (by simp)⟩

theorem hasSegment_cons (c : Char) (s : List Char) :
    HasSegment (c :: s) ↔ SegmentAtHead (c :: s) ∨ HasSegment s := by
  constructor
  · rintro ⟨pre, d, post, he, hd⟩
    cases pre with
    | nil => exact Or.inl ⟨d, post, by simpa using he, hd⟩
    | cons p pre =>
      simp only [List.cons_append, List.cons.injEq] at he
      exact Or.inr ⟨pre, d, post, he.2, hd⟩
  · rintro (⟨d, t, he, hd⟩ | ⟨pre, d, post, he, hd⟩)
    · exact ⟨[], d, t, by simpa using he, hd⟩
    · exact ⟨c :: pre, d, post, by simp [he], hd⟩

theorem replaceAllFrom_eq_self : ∀ (n : Nat) (s : List Char), s.length ≤ n →
    (replaceAllFrom n s = s ↔ ¬ HasSegment s) := by
  intro n
  induction n using Nat.strong_induction_on with
  | _ n ih =>
    intro s hs
    cases s with
    | nil =>
      have : ¬ HasSegment [] := by
        rintro ⟨pre, d, post, he, _⟩
        simp at he
      cases n <;> simp [replaceAllFrom, this]
    | cons c cs =>
      cases n with
      | zero => simp at hs
      | succ n =>
        simp only [replaceAllFrom, hasSegment_cons]
        cases hm : matchWildcard (c :: cs) with
        | none =>
          have hlen : cs.length ≤ n := by simpa using hs
          simp only [List.cons.injEq, true_and, ih n (Nat.lt_succ_self n) cs hlen]
          have := matchWildcard_none _ hm
          tauto
        | some p =>
          obtain ⟨name, rest⟩ := p
          obtain ⟨he, h1, h2, _⟩ := matchWildcard_some _ _ _ hm
          have hseg : SegmentAtHead (c :: cs) := by
            cases name with
            | nil => exact absurd rfl h1
            | cons d t => exact ⟨d, t ++ rest, by simpa using he, h2 d (by simp)⟩
          have hne : expandTemplate name ++ replaceAllFrom n rest ≠ c :: cs := by
            rw [he]
            simp only [expandTemplate, List.cons_append, ne_eq, List.cons.injEq, true_and, not_and]
            intro h
            exact absurd h (by decide)
          simp only []
          constructor
          · intro h; exact absurd h hne
          · intro h; exact absurd (Or.inl hseg) h

theorem replaceWildcard_eq_self (s : String) : replaceWildcard s = s ↔ ¬ HasSegment s.data := by
  rw [← replaceAllFrom_eq_self s.data.length s.data (Nat.le_refl _)]
  unfold replaceWildcard
  constructor
  · intro h; exact congrArg String.data h
  · intro h; rw [h]

/-! ## HashOf -/

theorem analyzeHashOfLoop_tail (rest : List Expr) : ∀ (i : Nat) (st : HashOfVars), 4 ≤ i →
    analyzeHashOfLoop rest i st = { st with args := st.args ++ rest } := by
  induction rest with
  | nil => intro i st _; simp [analyzeHashOfLoop]
  | cons e rest ih =>
    intro i st hi
    have h2 : i ≠ 2 := by omega
    have h3 : i ≠ 3 := by omega
    simp [analyzeHashOfLoop, h2, h3, ih (i + 1) _ (by omega)]

theorem analyzeHashOf_val (args : List Expr) :
    (analyzeHashOf args).val = Expr.callExpr (Expr.ident "MapOf") (mapOfArgs args) := by
  match args with
  | [] => simp [analyzeHashOf, analyzeHashOfLoop, mapOfArgs]
  | [a] => simp [analyzeHashOf, analyzeHashOfLoop, mapOfArgs]
  | [a, b] => simp [analyzeHashOf, analyzeHashOfLoop, mapOfArgs]
  | [a, b, c] => simp [analyzeHashOf, analyzeHashOfLoop, mapOfArgs, keyElemStmts]
  | a :: b :: c :: d :: rest =>
    simp [analyzeHashOf, analyzeHashOfLoop, mapOfArgs, keyElemStmts, analyzeHashOfLoop_tail]

/-! ## The DateTime rule -/

theorem last_cases (l : List Expr) :
    (∃ init typ body, l = init ++ [Expr.funcLit typ body]) ∨ NotFuncLit l.getLast? := by
  cases l using List.reverseRecOn with
  | nil => right; intro _ _; simp
  | append_singleton init x =>
    cases x with
    | funcLit typ body => left; exact ⟨init, typ, body, rfl⟩
    | _ => right; intro _ _; simp

theorem addFormats_block (k : Nat) (hk : k ≠ 0) (init : List Expr) (typ : Expr) (body : List Stmt) :
    addFormats k (init ++ [Expr.funcLit typ body]) =
      init ++ [Expr.funcLit typ (body ++ List.replicate k formatDateTimeStmt)] := by
  simp [addFormats, hk]

theorem addFormats_other (k : Nat) (hk : k ≠ 0) (tl : List Expr) (h : NotFuncLit tl.getLast?) :
    addFormats k tl = tl ++ [Expr.funcLit emptyFuncType (List.replicate k formatDateTimeStmt)] := by
  unfold addFormats
  simp only [hk, if_false]
  split
  · rename_i typ body hl
    exact absurd hl (h typ body)
  · rfl

theorem replicate_succ_front (k : Nat) (b : List Stmt) :
    b ++ [formatDateTimeStmt] ++ List.replicate k formatDateTimeStmt
      = b ++ List.replicate (k + 1) formatDateTimeStmt := by
  rw [List.append_assoc, Nat.add_comm, List.replicate_add]
  rfl

theorem addFormats_succ (k : Nat) (tl : List Expr) :
    addFormats k (addFormats 1 tl) = addFormats (k + 1) tl := by
  by_cases hk : k = 0
  · subst hk; simp [addFormats]
  · rcases last_cases tl with ⟨init, typ, body, rfl⟩ | h
    · rw [addFormats_block 1 one_ne_zero, addFormats_block k hk, addFormats_block (k + 1) (by omega)]
      rw [List.replicate_one, replicate_succ_front]
    · rw [addFormats_other 1 one_ne_zero tl h, addFormats_block k hk,
        addFormats_other (k + 1) (by omega) tl h]
      have := replicate_succ_front k []
      simp only [List.nil_append] at this
      rw [List.replicate_one, this]

theorem analyzeDateTime_block (l : List Expr) (i : Nat) (init : List Expr) (typ : Expr)
    (body : List Stmt) (h : l.set i (Expr.ident "String") = init ++ [Expr.funcLit typ body]) :
    analyzeDateTime l i =
      Except.ok ⟨init ++ [Expr.funcLit typ (body ++ [formatDateTimeStmt])], true, [dateTimeDiag]⟩ := by
  simp [analyzeDateTime, h, dateTimeDiag]

theorem analyzeDateTime_other (l : List Expr) (i : Nat) (hne : l ≠ [])
    (h : NotFuncLit (l.set i (Expr.ident "String")).getLast?) :
    analyzeDateTime l i =
      Except.ok ⟨l.set i (Expr.ident "String") ++ [Expr.funcLit emptyFuncType [formatDateTimeStmt]],
        true, [dateTimeDiag]⟩ := by
  unfold analyzeDateTime
  simp only []
  split
  · rename_i hn
    simp [List.getLast?_eq_none_iff] at hn
    exact absurd hn hne
  · rename_i typ body hl
    exact absurd hl (h typ body)
  · rfl

theorem get?_mid (pre rest : List Expr) (e : Expr) : (pre ++ e :: rest).get? pre.length = some e := by
  induction pre with
  | nil => rfl
  | cons p pre ih => simpa using ih

theorem set_mid (pre rest : List Expr) (e x : Expr) :
    (pre ++ e :: rest).set pre.length x = pre ++ x :: rest := by
  induction pre with
  | nil => rfl
  | cons p pre ih => simp

theorem notFuncLit_append (l₁ l₂ : List Expr) (hne : l₂ ≠ []) (h : NotFuncLit l₂.getLast?) :
    NotFuncLit (l₁ ++ l₂).getLast? := by
  intro typ body
  rw [List.getLast?_append_of_ne_nil _ hne]
  exact h typ body

theorem notFuncLit_tail (e : Expr) (mid : List Expr) (h : NotFuncLit (e :: mid).getLast?) :
    NotFuncLit mid.getLast? := by
  cases mid with
  | nil => intro _ _; simp
  | cons m mid => simpa [List.getLast?_cons_cons] using h

theorem addFormats_ne_nil (k : Nat) (tl : List Expr) (hk : k ≠ 0) : addFormats k tl ≠ [] := by
  rcases last_cases tl with ⟨init, typ, body, rfl⟩ | h
  · rw [addFormats_block k hk]; simp
  · rw [addFormats_other k hk tl h]; simp

theorem analyzeDateTime_at (pre mid tl : List Expr) (e : Expr)
    (h : tl = [] → NotFuncLit mid.getLast?) :
    analyzeDateTime (pre ++ e :: mid ++ tl) pre.length =
      Except.ok ⟨pre ++ Expr.ident "String" :: mid ++ addFormats 1 tl, true, [dateTimeDiag]⟩ := by
  have hset : (pre ++ e :: mid ++ tl).set pre.length (Expr.ident "String")
      = pre ++ Expr.ident "String" :: mid ++ tl := by
    simp
  rcases last_cases tl with ⟨init, typ, body, rfl⟩ | hl
  · rw [analyzeDateTime_block _ _ (pre ++ Expr.ident "String" :: mid ++ init) typ body
      (by rw [hset]; simp)]
    rw [addFormats_block 1 one_ne_zero, List.replicate_one]
    simp
  · rw [analyzeDateTime_other _ _ (by simp), hset, addFormats_other 1 one_ne_zero tl hl,
      List.replicate_one]
    · simp
    · rw [hset]
      by_cases htl : tl = []
      · subst htl
        by_cases hmid : mid = []
        · subst hmid
          intro _ _; simp
        · have : pre ++ Expr.ident "String" :: mid ++ [] = (pre ++ [Expr.ident "String"]) ++ mid := by
            simp
          rw [this]
          exact notFuncLit_append _ _ hmid (h rfl)
      · exact notFuncLit_append _ _ htl hl

theorem analyzeAttributeLoop_mid : ∀ (mid todo pre tl : List Expr) (ch : Bool) (ds : List Diagnostic),
    todo.length = mid.length → (tl = [] → NotFuncLit mid.getLast?) →
    analyzeAttributeLoop todo pre.length ⟨pre ++ mid ++ tl, ch, ds⟩ =
      Except.ok ⟨pre ++ mid.map renameDateTime ++ addFormats (mid.countP isDateTime) tl,
        decide (0 < mid.countP isDateTime) || ch,
        ds ++ List.replicate (mid.countP isDateTime) dateTimeDiag⟩ := by
  intro mid
  induction mid with
  | nil =>
    intro todo pre tl ch ds hlen _
    have : todo = [] := List.length_eq_zero.mp (by simpa using hlen)
    subst this
    simp [analyzeAttributeLoop, addFormats]
  | cons e mid ih =>
    intro todo pre tl ch ds hlen h
    cases todo with
    | nil => simp at hlen
    | cons t todo =>
      have hlen2 : todo.length = mid.length := by simpa using hlen
      have hget : (pre ++ e :: mid ++ tl).get? pre.length = some e := by
        have := get?_mid pre (mid ++ tl) e
        simpa using this
      have hmid : tl = [] → NotFuncLit mid.getLast? := fun ht => notFuncLit_tail e mid (h ht)
      rw [analyzeAttributeLoop]
      simp only [hget]
      by_cases hd : isDateTime e = true
      · cases e with
        | ident name =>
          have hn : name = "DateTime" := by simpa [isDateTime] using hd
          subst hn
          simp only [if_true]
          rw [analyzeDateTime_at pre mid tl _ hmid]
          simp only []
          have hpre2 : pre ++ Expr.ident "String" :: mid ++ addFormats 1 tl
              = (pre ++ [Expr.ident "String"]) ++ mid ++ addFormats 1 tl := by simp
          have hlen4 : pre.length + 1 = (pre ++ [Expr.ident "String"]).length := by simp
          rw [hpre2, hlen4, ih todo _ _ _ _ hlen2
            (fun h0 => absurd h0 (addFormats_ne_nil 1 tl one_ne_zero))]
          simp [renameDateTime, isDateTime, addFormats_succ, List.countP_cons, List.replicate_succ]
        | _ => simp [isDateTime] at hd
      · have hpre : pre ++ e :: mid ++ tl = (pre ++ [e]) ++ mid ++ tl := by simp
        have hlen3 : pre.length + 1 = (pre ++ [e]).length := by simp
        have hd2 : isDateTime e = false := by simpa using hd
        have hstep : (match some e with
            | some (Expr.ident name) =>
              if name = "DateTime" then
                match analyzeDateTime (pre ++ e :: mid ++ tl) pre.length with
                | Except.error f => Except.error f
                | Except.ok r =>
                  analyzeAttributeLoop todo (pre.length + 1) ⟨r.val, r.changed || ch, ds ++ r.diags⟩
              else analyzeAttributeLoop todo (pre.length + 1) ⟨pre ++ e :: mid ++ tl, ch, ds⟩
            | _ => analyzeAttributeLoop todo (pre.length + 1) ⟨pre ++ e :: mid ++ tl, ch, ds⟩)
            = analyzeAttributeLoop todo (pre.length + 1) ⟨pre ++ e :: mid ++ tl, ch, ds⟩ := by
          cases e with
          | ident name =>
            have hn : name ≠ "DateTime" := by simpa [isDateTime] using hd2
            simp only [hn, if_false]
          | _ => rfl
        rw [hstep, hpre, hlen3, ih todo _ _ _ _ hlen2 hmid]
        simp [renameDateTime, hd2, List.countP_cons]

theorem analyzeAttributeLoop_append : ∀ (t1 t2 : List Expr) (i : Nat) (st : Res (List Expr)),
    analyzeAttributeLoop (t1 ++ t2) i st =
      match analyzeAttributeLoop t1 i st with
      | Except.error f => Except.error f
      | Except.ok r => analyzeAttributeLoop t2 (i + t1.length) r := by
  intro t1
  induction t1 with
  | nil => intro t2 i st; simp [analyzeAttributeLoop]
  | cons t t1 ih =>
    intro t2 i st
    have harith : i + (t1.length + 1) = i + 1 + t1.length := by omega
    simp only [List.cons_append, analyzeAttributeLoop, List.length_cons, harith]
    split
    · split
      · split
        · rfl
        · exact ih _ _ _
      · exact ih _ _ _
    · exact ih _ _ _

theorem renameDateTime_funcLit (typ : Expr) (body : List Stmt) :
    renameDateTime (Expr.funcLit typ body) = Expr.funcLit typ body := rfl

theorem notFuncLit_map_rename (l : List Expr) (h : NotFuncLit l.getLast?) :
    NotFuncLit (l.map renameDateTime).getLast? := by
  cases l using List.reverseRecOn with
  | nil => intro _ _; simp
  | append_singleton init x =>
    intro typ body
    have hx := h typ body
    rw [List.getLast?_append_of_ne_nil _ (by simp)] at hx
    rw [List.map_append, List.getLast?_append_of_ne_nil _ (by simp)]
    simp only [List.getLast?_singleton, ne_eq, Option.some.injEq, List.map_cons, List.map_nil] at hx ⊢
    unfold renameDateTime
    split
    · simp
    · exact hx

theorem analyzeAttribute_closed (args : List Expr) :
    analyzeAttribute args = Except.ok ⟨addFormats (args.countP isDateTime) (args.map renameDateTime),
      decide (0 < args.countP isDateTime), List.replicate (args.countP isDateTime) dateTimeDiag⟩ := by
  unfold analyzeAttribute
  rcases last_cases args with ⟨init, typ, body, rfl⟩ | hl
  · have h1 := analyzeAttributeLoop_mid init init [] [Expr.funcLit typ body] false [] rfl
      (fun h0 => by simp at h0)
    simp only [List.nil_append, List.length_nil] at h1
    have hc : List.countP isDateTime (init ++ [Expr.funcLit typ body]) = List.countP isDateTime init := by
      simp [List.countP_append, isDateTime]
    rw [hc]
    rw [analyzeAttributeLoop_append, h1]
    have hval : List.map renameDateTime init ++ addFormats (List.countP isDateTime init) [Expr.funcLit typ body]
        = addFormats (List.countP isDateTime init) (List.map renameDateTime (init ++ [Expr.funcLit typ body])) := by
      by_cases hk : List.countP isDateTime init = 0
      · simp [addFormats, hk, renameDateTime_funcLit]
      · have hb := addFormats_block _ hk [] typ body
        simp only [List.nil_append] at hb
        rw [hb, List.map_append, List.map_cons, List.map_nil, renameDateTime_funcLit,
          addFormats_block _ hk]
    rw [hval]
    have hget : (addFormats (List.countP isDateTime init)
        (List.map renameDateTime (init ++ [Expr.funcLit typ body]))).get? init.length
        = some (Expr.funcLit typ (body ++ (if List.countP isDateTime init = 0 then []
            else List.replicate (List.countP isDateTime init) formatDateTimeStmt))) := by
      by_cases hk : List.countP isDateTime init = 0
      · have := get?_mid (init.map renameDateTime) [] (Expr.funcLit typ body)
        simp [addFormats, hk, renameDateTime_funcLit]
      · rw [List.map_append, List.map_cons, List.map_nil, renameDateTime_funcLit,
          addFormats_block _ hk]
        have := get?_mid (init.map renameDateTime) []
          (Expr.funcLit typ (body ++ List.replicate (List.countP isDateTime init) formatDateTimeStmt))
        simp [hk]
    simp only [analyzeAttributeLoop, Nat.zero_add, hget]
    simp
  · have h1 := analyzeAttributeLoop_mid args args [] [] false [] rfl (fun _ => hl)
    simp only [List.nil_append, List.length_nil, List.append_nil] at h1
    rw [h1]
    have hval : List.map renameDateTime args ++ addFormats (List.countP isDateTime args) []
        = addFormats (List.countP isDateTime args) (List.map renameDateTime args) := by
      by_cases hk : List.countP isDateTime args = 0
      · simp [addFormats, hk]
      · rw [addFormats_other _ hk [] (by intro _ _; simp),
          addFormats_other _ hk _ (notFuncLit_map_rename args hl)]
        simp
    rw [hval]
    simp

theorem walkList_mono {α : Type} (f g : α → Except Fault (Res α)) (l : List α)
    (h : ∀ x ∈ l, ∀ r, f x = Except.ok r → g x = Except.ok r) :
    ∀ r, walkList f l = Except.ok r → walkList g l = Except.ok r := by
  induction l with
  | nil => intro r hr; simpa [walkList] using hr
  | cons x xs ih =>
    intro r hr
    simp only [walkList] at hr ⊢
    cases hx : f x with
    | error e => simp [hx] at hr
    | ok rx =>
      rw [hx] at hr
      rw [h x (by simp) rx hx]
      cases hxs : walkList f xs with
      | error e => simp [hxs] at hr
      | ok rxs =>
        rw [hxs] at hr
        rw [ih (fun y hy => h y (by simp [hy])) rxs hxs]
        exact hr

mutual
theorem inspectStmt_mono (f g : Expr → Except Fault (Res Expr))
    (h : ∀ x r, f x = Except.ok r → g x = Except.ok r) :
    ∀ (s : Stmt) (r : Res Stmt), inspectStmt f s = Except.ok r → inspectStmt g s = Except.ok r
  | Stmt.exprStmt x, r, hr => by
    simp only [inspectStmt] at hr ⊢
    cases hx : f x with
    | error e => simp [hx] at hr
    | ok rx =>
      rw [hx] at hr
      rw [h x rx hx]
      exact hr
  | Stmt.other kind children, r, hr => by
    simp only [inspectStmt] at hr ⊢
    cases hx : inspectStmts f children with
    | error e => simp [hx] at hr
    | ok rx =>
      rw [hx] at hr
      rw [inspectStmts_mono f g h children rx hx]
      exact hr
theorem inspectStmts_mono (f g : Expr → Except Fault (Res Expr))
    (h : ∀ x r, f x = Except.ok r → g x = Except.ok r) :
    ∀ (l : List Stmt) (r : Res (List Stmt)), inspectStmts f l = Except.ok r →
      inspectStmts g l = Except.ok r
  | [], r, hr => by simpa [inspectStmts] using hr
  | s :: ss, r, hr => by
    simp only [inspectStmts] at hr ⊢
    cases hx : inspectStmt f s with
    | error e => simp [hx] at hr
    | ok rx =>
      rw [hx] at hr
      rw [inspectStmt_mono f g h s rx hx]
      cases hxs : inspectStmts f ss with
      | error e => simp [hxs] at hr
      | ok rxs =>
        rw [hxs] at hr
        rw [inspectStmts_mono f g h ss rxs hxs]
        exact hr
end

theorem inspect_mono : ∀ (n : Nat) (e : Expr) (r : Res Expr),
    inspect n e = Except.ok r → inspect (n + 1) e = Except.ok r := by
  intro n
  induction n with
  | zero => intro e r h; simp [inspect] at h
  | succ n ih =>
    intro e r h
    rw [inspect] at h ⊢
    cases hv : visit e with
    | error f => simp [hv] at h
    | ok v =>
      rw [hv] at h
      simp only [] at h ⊢
      split at h
      · rename_i fn args _
        cases hf : inspect n fn with
        | error f => simp [hf] at h
        | ok rf =>
          rw [hf] at h
          rw [ih fn rf hf]
          cases ha : walkList (inspect n) args with
          | error f => simp [ha] at h
          | ok ra =>
            rw [ha] at h
            rw [walkList_mono _ _ args (fun x _ r hr => ih x r hr) ra ha]
            exact h
      · rename_i typ body _
        cases hf : inspect n typ with
        | error f => simp [hf] at h
        | ok rf =>
          rw [hf] at h
          rw [ih typ rf hf]
          cases ha : inspectStmts (inspect n) body with
          | error f => simp [ha] at h
          | ok ra =>
            rw [ha] at h
            rw [inspectStmts_mono _ _ (fun x r hr => ih x r hr) body ra ha]
            exact h
      · rename_i kind children _
        cases ha : walkList (inspect n) children with
        | error f => simp [ha] at h
        | ok ra =>
          rw [ha] at h
          rw [walkList_mono _ _ children (fun x _ r hr => ih x r hr) ra ha]
          exact h
      · exact h

theorem inspect_mono_le (n m : Nat) (hnm : n ≤ m) (e : Expr) (r : Res Expr)
    (h : inspect n e = Except.ok r) : inspect m e = Except.ok r := by
  induction hnm with
  | refl => exact h
  | step _ ih => exact inspect_mono _ e r ih

theorem depth_mem (l : List Expr) : ∀ x ∈ l, inspectDepth x ≤ inspectDepthList l := by
  induction l with
  | nil => intro x hx; simp at hx
  | cons y ys ih =>
    intro x hx
    simp only [inspectDepthList]
    rcases List.mem_cons.mp hx with rfl | h
    · exact Nat.le_max_left _ _
    · exact Nat.le_trans (ih x h) (Nat.le_max_right _ _)

theorem depthStmt_mem (l : List Stmt) : ∀ x ∈ l, inspectDepthStmt x ≤ inspectDepthStmts l := by
  induction l with
  | nil => intro x hx; simp at hx
  | cons y ys ih =>
    intro x hx
    simp only [inspectDepthStmts]
    rcases List.mem_cons.mp hx with rfl | h
    · exact Nat.le_max_left _ _
    · exact Nat.le_trans (ih x h) (Nat.le_max_right _ _)

theorem depthList_le (l : List Expr) (m : Nat) (h : ∀ x ∈ l, inspectDepth x ≤ m) :
    inspectDepthList l ≤ m := by
  induction l with
  | nil => simp [inspectDepthList]
  | cons y ys ih =>
    simp only [inspectDepthList]
    exact Nat.max_le.mpr ⟨h y (by simp), ih (fun x hx => h x (by simp [hx]))⟩

theorem depthStmts_le (l : List Stmt) (m : Nat) (h : ∀ x ∈ l, inspectDepthStmt x ≤ m) :
    inspectDepthStmts l ≤ m := by
  induction l with
  | nil => simp [inspectDepthStmts]
  | cons y ys ih =>
    simp only [inspectDepthStmts]
    exact Nat.max_le.mpr ⟨h y (by simp), ih (fun x hx => h x (by simp [hx]))⟩

theorem depth_renameDateTime (e : Expr) : inspectDepth (renameDateTime e) ≤ inspectDepth e := by
  unfold renameDateTime
  split
  · rename_i h
    cases e with
    | ident name => simp [inspectDepth]
    | _ => simp [isDateTime] at h
  · exact Nat.le_refl _

theorem depth_formatDateTimeStmt : inspectDepthStmt formatDateTimeStmt = 2 := by
  simp [formatDateTimeStmt, inspectDepthStmt, inspectDepth, inspectDepthList, isDateTime]

theorem depthList_addFormats (k : Nat) (l : List Expr) :
    inspectDepthList (addFormats k l) ≤ max (inspectDepthList l) 3 := by
  by_cases hk : k = 0
  · simp [addFormats, hk]
  · have hrep : inspectDepthStmts (List.replicate k formatDateTimeStmt) ≤ 2 := by
      apply depthStmts_le
      intro x hx
      rw [(List.mem_replicate.mp hx).2, depth_formatDateTimeStmt]
    apply depthList_le
    intro x hx
    rcases last_cases l with ⟨init, typ, body, rfl⟩ | h
    · rw [addFormats_block k hk] at hx
      rcases List.mem_append.mp hx with h1 | h1
      · exact Nat.le_trans (depth_mem _ x (List.mem_append_left _ h1)) (Nat.le_max_left _ _)
      · have hx2 : x = Expr.funcLit typ (body ++ List.replicate k formatDateTimeStmt) := by
          simpa using h1
        subst hx2
        have hf := depth_mem (init ++ [Expr.funcLit typ body]) (Expr.funcLit typ body) (by simp)
        simp only [inspectDepth] at hf ⊢
        have hb : inspectDepthStmts (body ++ List.replicate k formatDateTimeStmt)
            ≤ max (inspectDepthStmts body) 2 := by
          apply depthStmts_le
          intro y hy
          rcases List.mem_append.mp hy with h2 | h2
          · exact Nat.le_trans (depthStmt_mem _ y h2) (Nat.le_max_left _ _)
          · exact Nat.le_trans (Nat.le_trans (depthStmt_mem _ y h2) hrep) (Nat.le_max_right _ _)
        omega
    · rw [addFormats_other k hk l h] at hx
      rcases List.mem_append.mp hx with h1 | h1
      · exact Nat.le_trans (depth_mem _ x h1) (Nat.le_max_left _ _)
      · have hx2 : x = Expr.funcLit emptyFuncType (List.replicate k formatDateTimeStmt) := by
          simpa using h1
        subst hx2
        simp only [inspectDepth, emptyFuncType, inspectDepthList]
        omega

theorem depthList_map_rename (l : List Expr) :
    inspectDepthList (l.map renameDateTime) ≤ inspectDepthList l := by
  apply depthList_le
  intro x hx
  obtain ⟨y, hy, rfl⟩ := List.mem_map.mp hx
  exact Nat.le_trans (depth_renameDateTime y) (depth_mem l y hy)

theorem depth_keyElem (name : String) (hn : name ≠ "HashOf") (a : Expr) :
    inspectDepth (Expr.callExpr (Expr.ident name) [a]) ≤ inspectDepth a + 4 := by
  simp only [inspectDepth, inspectDepthList, hn, if_false]
  have : 1 ≤ inspectDepth a := by cases a <;> simp [inspectDepth]
  split <;> omega

theorem depthList_mapOfArgs (args : List Expr) :
    inspectDepthList (mapOfArgs args) ≤ inspectDepthList args + 5 := by
  unfold mapOfArgs
  split
  · omega
  · apply depthList_le
    intro x hx
    rcases List.mem_append.mp hx with h1 | h1
    · have : x ∈ args := by
        rcases List.mem_append.mp h1 with h2 | h2
        · exact List.mem_of_mem_take h2
        · exact List.mem_of_mem_drop h2
      have := depth_mem args x this
      omega
    · have hx2 : x = Expr.funcLit emptyFuncType (keyElemStmts args) := by simpa using h1
      subst hx2
      simp only [inspectDepth, emptyFuncType, inspectDepthList]
      have : inspectDepthStmts (keyElemStmts args) ≤ inspectDepthList args + 4 := by
        apply depthStmts_le
        intro s hs
        unfold keyElemStmts at hs
        rcases List.mem_append.mp hs with h2 | h2
        · obtain ⟨a, ha, rfl⟩ := List.mem_map.mp h2
          have hmem : a ∈ args := List.mem_of_mem_drop (List.mem_of_mem_take ha)
          have h3 := depth_keyElem "Key" (by decide) a
          have h4 := depth_mem args a hmem
          simp only [inspectDepthStmt]
          omega
        · obtain ⟨a, ha, rfl⟩ := List.mem_map.mp h2
          have hmem : a ∈ args := List.mem_of_mem_drop (List.mem_of_mem_take ha)
          have h3 := depth_keyElem "Elem" (by decide) a
          have h4 := depth_mem args a hmem
          simp only [inspectDepthStmt]
          omega
      omega

theorem visit_call (name : String) (args : List Expr) :
    ∃ ch ds, visit (Expr.callExpr (Expr.ident name) args) =
      Except.ok ⟨Expr.callExpr (Expr.ident (visitCallee name)) (visitArgs name args), ch, ds⟩ := by
  unfold visit visitCallee visitArgs
  by_cases h1 : name = "HashOf"
  · simp only [h1, if_true]
    exact ⟨_, _, by rw [← analyzeHashOf_val]⟩
  · by_cases h2 : name = "Metadata"
    · simp only [h1, h2, if_true, if_false]
      exact ⟨_, _, rfl⟩
    · simp only [h1, h2, if_false, analyzeAttribute_closed]
      exact ⟨_, _, rfl⟩

theorem any_isDateTime (args : List Expr) :
    args.any isDateTime = decide (0 < args.countP isDateTime) := by
  induction args with
  | nil => rfl
  | cons a as ih =>
    simp only [List.any_cons, ih, List.countP_cons]
    cases isDateTime a <;> simp

theorem visit_ok (e : Expr) : ∃ v, visit e = Except.ok v ∧ childDepth v.val + 1 ≤ inspectDepth e := by
  cases e with
  | ident name =>
    simp only [visit]
    split_ifs <;> exact ⟨_, rfl, by simp [childDepth, inspectDepth]⟩
  | basicLit kind value => exact ⟨_, rfl, by simp [childDepth, inspectDepth]⟩
  | funcLit typ body => exact ⟨_, rfl, by simp [childDepth, inspectDepth]; omega⟩
  | other kind children => exact ⟨_, rfl, by simp [childDepth, inspectDepth]; omega⟩
  | callExpr fn args =>
    cases fn with
    | ident name =>
      obtain ⟨ch, ds, hv⟩ := visit_call name args
      refine ⟨_, hv, ?_⟩
      simp only [childDepth, inspectDepth, visitArgs]
      by_cases h1 : name = "HashOf"
      · simp only [h1, if_true]
        have := depthList_mapOfArgs args
        omega
      · by_cases h2 : name = "Metadata"
        · subst h2
          have hne : "Metadata" ≠ "HashOf" := by decide
          simp only [hne, if_true, if_false]
          omega
        · simp only [h1, h2, if_false]
          have h3 := depthList_addFormats (args.countP isDateTime) (args.map renameDateTime)
          have h4 := depthList_map_rename args
          rw [any_isDateTime]
          by_cases hk : args.countP isDateTime = 0
          · simp only [hk, addFormats, if_true] at h3 ⊢
            simp
            omega
          · have : decide (0 < args.countP isDateTime) = true := by
              simpa using Nat.pos_of_ne_zero hk
            simp only [this, if_true]
            omega
    | basicLit kind value => exact ⟨_, rfl, by simp [childDepth, inspectDepth]; omega⟩
    | callExpr f a => exact ⟨_, rfl, by simp only [childDepth, inspectDepth]; omega⟩
    | funcLit typ body => exact ⟨_, rfl, by simp only [childDepth, inspectDepth]; omega⟩
    | other kind children => exact ⟨_, rfl, by simp only [childDepth, inspectDepth]; omega⟩

theorem walkList_total {α : Type} (f : α → Except Fault (Res α)) (l : List α)
    (h : ∀ x ∈ l, ∃ r, f x = Except.ok r) : ∃ r, walkList f l = Except.ok r := by
  induction l with
  | nil => exact ⟨_, rfl⟩
  | cons x xs ih =>
    obtain ⟨rx, hx⟩ := h x (by simp)
    obtain ⟨rxs, hxs⟩ := ih (fun y hy => h y (by simp [hy]))
    exact ⟨_, by rw [walkList, hx, hxs]⟩

mutual
theorem inspectStmt_total (f : Expr → Except Fault (Res Expr)) (m : Nat)
    (h : ∀ e, inspectDepth e ≤ m → ∃ r, f e = Except.ok r) :
    ∀ (s : Stmt), inspectDepthStmt s ≤ m → ∃ r, inspectStmt f s = Except.ok r
  | Stmt.exprStmt x, hs => by
    obtain ⟨r, hr⟩ := h x (by simpa [inspectDepthStmt] using hs)
    exact ⟨_, by rw [inspectStmt, hr]⟩
  | Stmt.other kind children, hs => by
    obtain ⟨r, hr⟩ := inspectStmts_total f m h children (by simpa [inspectDepthStmt] using hs)
    exact ⟨_, by rw [inspectStmt, hr]⟩
theorem inspectStmts_total (f : Expr → Except Fault (Res Expr)) (m : Nat)
    (h : ∀ e, inspectDepth e ≤ m → ∃ r, f e = Except.ok r) :
    ∀ (l : List Stmt), inspectDepthStmts l ≤ m → ∃ r, inspectStmts f l = Except.ok r
  | [], _ => ⟨_, rfl⟩
  | s :: ss, hs => by
    simp only [inspectDepthStmts] at hs
    obtain ⟨r, hr⟩ := inspectStmt_total f m h s (by omega)
    obtain ⟨rs, hrs⟩ := inspectStmts_total f m h ss (by omega)
    exact ⟨_, by rw [inspectStmts, hr, hrs]⟩
end

theorem inspect_total : ∀ (n : Nat) (e : Expr), inspectDepth e ≤ n → ∃ r, inspect n e = Except.ok r := by
  intro n
  induction n with
  | zero =>
    intro e h
    have : 1 ≤ inspectDepth e := by cases e <;> simp [inspectDepth]
    omega
  | succ n ih =>
    intro e h
    obtain ⟨v, hv, hd⟩ := visit_ok e
    rw [inspect, hv]
    simp only []
    split
    · rename_i fn args heq
      rw [heq] at hd
      simp only [childDepth] at hd
      obtain ⟨rf, hf⟩ := ih fn (by omega)
      obtain ⟨ra, ha⟩ := walkList_total (inspect n) args
        (fun x hx => ih x (by have := depth_mem args x hx; omega))
      exact ⟨_, by rw [hf, ha]⟩
    · rename_i typ body heq
      rw [heq] at hd
      simp only [childDepth] at hd
      obtain ⟨rf, hf⟩ := ih typ (by omega)
      obtain ⟨ra, ha⟩ := inspectStmts_total (inspect n) n ih body (by omega)
      exact ⟨_, by rw [hf, ha]⟩
    · rename_i kind children heq
      rw [heq] at hd
      simp only [childDepth] at hd
      obtain ⟨ra, ha⟩ := walkList_total (inspect n) children
        (fun x hx => ih x (by have := depth_mem children x hx; omega))
      exact ⟨_, by rw [ha]⟩
    · exact ⟨_, rfl⟩

theorem analyzeGenericDSL_total (node : Expr) : ∃ r, analyzeGenericDSL node = Except.ok r :=
  inspect_total _ node (Nat.le_refl _)

/-! ## The generic scan: what it leaves of a block -/

theorem inspect_scanExpr (e : Expr) (n : Nat) (h : inspectDepth e ≤ n) :
    ∃ ch ds, inspect n e = Except.ok ⟨scanExpr e, ch, ds⟩ := by
  obtain ⟨r, hr⟩ := inspect_total _ e (Nat.le_refl _)
  have h2 := inspect_mono_le _ n h e r hr
  refine ⟨r.changed, r.diags, ?_⟩
  rw [h2]
  simp only [scanExpr, analyzeGenericDSL, hr]

theorem inspectStmt_scanStmt (s : Stmt) (n : Nat) (h : inspectDepthStmt s ≤ n) :
    ∃ ch ds, inspectStmt (inspect n) s = Except.ok ⟨scanStmt s, ch, ds⟩ := by
  obtain ⟨r, hr⟩ := inspectStmt_total (inspect (inspectDepthStmt s)) (inspectDepthStmt s)
    (fun e he => inspect_total _ e he) s (Nat.le_refl _)
  have h2 := inspectStmt_mono _ (inspect n) (fun x r hx => inspect_mono_le _ n h x r hx) s r hr
  refine ⟨r.changed, r.diags, ?_⟩
  rw [h2]
  simp only [scanStmt, hr]

theorem inspectStmts_scanStmt (l : List Stmt) (n : Nat) (h : inspectDepthStmts l ≤ n) :
    ∃ ch ds, inspectStmts (inspect n) l = Except.ok ⟨l.map scanStmt, ch, ds⟩ := by
  induction l with
  | nil => exact ⟨_, _, rfl⟩
  | cons s ss ih =>
    simp only [inspectDepthStmts] at h
    obtain ⟨c1, d1, h1⟩ := inspectStmt_scanStmt s n (by omega)
    obtain ⟨c2, d2, h2⟩ := ih (by omega)
    exact ⟨_, _, by rw [inspectStmts, h1, h2]; rfl⟩

theorem walkList_scanExpr (l : List Expr) (n : Nat) (h : inspectDepthList l ≤ n) :
    ∃ ch ds, walkList (inspect n) l = Except.ok ⟨l.map scanExpr, ch, ds⟩ := by
  induction l with
  | nil => exact ⟨_, _, rfl⟩
  | cons s ss ih =>
    simp only [inspectDepthList] at h
    obtain ⟨c1, d1, h1⟩ := inspect_scanExpr s n (by omega)
    obtain ⟨c2, d2, h2⟩ := ih (by omega)
    exact ⟨_, _, by rw [walkList, h1, h2]; rfl⟩

theorem analyzeGenericDSL_funcLit (typ : Expr) (body : List Stmt) :
    ∃ ch ds, analyzeGenericDSL (Expr.funcLit typ body) =
      Except.ok ⟨Expr.funcLit (scanExpr typ) (body.map scanStmt), ch, ds⟩ := by
  unfold analyzeGenericDSL
  simp only [inspectDepth]
  rw [Nat.add_comm, inspect]
  simp only [visit]
  obtain ⟨c1, d1, h1⟩ := inspect_scanExpr typ (max (inspectDepth typ) (inspectDepthStmts body))
    (Nat.le_max_left _ _)
  obtain ⟨c2, d2, h2⟩ := inspectStmts_scanStmt body (max (inspectDepth typ) (inspectDepthStmts body))
    (Nat.le_max_right _ _)
  rw [h1, h2]
  exact ⟨_, _, rfl⟩

theorem scanExpr_ident (name : String) :
    scanExpr (Expr.ident name) = Expr.ident
      (if name = "Integer" then "Int" else if name = "Number" then "Float64"
        else if name = "File" then "Bytes" else name) := by
  simp only [scanExpr, analyzeGenericDSL, inspectDepth, inspect, visit]
  split_ifs <;> rfl

theorem scanCallee_eq (name : String) :
    (if visitCallee name = "Integer" then "Int" else if visitCallee name = "Number" then "Float64"
        else if visitCallee name = "File" then "Bytes" else visitCallee name) = scanCallee name := by
  unfold visitCallee scanCallee
  by_cases h1 : name = "HashOf"
  · subst h1; decide
  · by_cases h2 : name = "Metadata"
    · subst h2; decide
    · simp only [h1, h2, if_false]

theorem scanStmt_call (name : String) (args : List Expr) :
    scanStmt (Stmt.exprStmt (Expr.callExpr (Expr.ident name) args)) =
      Stmt.exprStmt (Expr.callExpr (Expr.ident (scanCallee name))
        ((visitArgs name args).map scanExpr)) := by
  obtain ⟨r, hr⟩ := inspectStmt_total
    (inspect (inspectDepthStmt (Stmt.exprStmt (Expr.callExpr (Expr.ident name) args))))
    (inspectDepthStmt (Stmt.exprStmt (Expr.callExpr (Expr.ident name) args)))
    (fun e he => inspect_total _ e he) _ (Nat.le_refl _)
  have hs : scanStmt (Stmt.exprStmt (Expr.callExpr (Expr.ident name) args)) = r.val := by
    simp only [scanStmt, hr]
  rw [hs]
  obtain ⟨v, hv, hd⟩ := visit_ok (Expr.callExpr (Expr.ident name) args)
  obtain ⟨ch, ds, hv2⟩ := visit_call name args
  rw [hv2] at hv
  simp only [Except.ok.injEq] at hv
  subst hv
  simp only [childDepth] at hd
  simp only [inspectStmt, inspectDepthStmt] at hr
  generalize hD : inspectDepth (Expr.callExpr (Expr.ident name) args) = D at hr hd
  cases D with
  | zero => omega
  | succ n =>
    rw [inspect, hv2] at hr
    simp only [] at hr
    obtain ⟨c1, d1, h1⟩ := inspect_scanExpr (Expr.ident (visitCallee name)) n (by omega)
    obtain ⟨c2, d2, h2⟩ := walkList_scanExpr (visitArgs name args) n (by omega)
    rw [h1, h2] at hr
    simp only [Except.ok.injEq] at hr
    rw [← hr]
    simp only [scanExpr_ident, scanCallee_eq]

/-! ## Statement regrouping in analyzeAPI -/

theorem stmt_cases (s : Stmt) :
    (∃ name args, s = Stmt.exprStmt (Expr.callExpr (Expr.ident name) args)) ∨ calleeName s = none := by
  cases s with
  | other kind children => right; rfl
  | exprStmt x =>
    cases x with
    | callExpr fn args =>
      cases fn with
      | ident name => left; exact ⟨name, args, rfl⟩
      | _ => right; rfl
    | _ => right; rfl

theorem analyzeAPIStmt_none (st : Regroup) (s : Stmt) (h : calleeName s = none) :
    analyzeAPIStmt st s = { st with inPlace := st.inPlace ++ [s] } := by
  cases s with
  | other kind children => rfl
  | exprStmt x =>
    cases x with
    | callExpr fn args =>
      cases fn with
      | ident name => simp [calleeName] at h
      | _ => rfl
    | _ => rfl

theorem analyzeAPIStmt_fields (st : Regroup) (s : Stmt) :
    (analyzeAPIStmt st s).inPlace = st.inPlace ++ [rewriteAPI s] ∧
    (analyzeAPIStmt st s).list = st.list ++ (if isKeptAPI s then [s] else []) ∧
    (analyzeAPIStmt st s).listHTTP = st.listHTTP ++ (if isRelocatedAPI s then [rewriteAPI s] else []) := by
  rcases stmt_cases s with ⟨name, args, rfl⟩ | h
  · simp only [analyzeAPIStmt, isKeptAPI, isRelocatedAPI, calleeName, rewriteAPI]
    by_cases h1 : name = "BasePath"
    · subst h1; simp [analyzeBasePath]
    · by_cases h2 : name = "Consumes"
      · subst h2; simp [analyzeConsumes]
      · by_cases h3 : name = "Params"
        · subst h3; simp [analyzeParams]
        · by_cases h4 : name = "Produces"
          · subst h4; simp [analyzeProduces]
          · simp [h1, h2, h3, h4]
  · rw [analyzeAPIStmt_none st s h]
    cases s with
    | other kind children => simp [isKeptAPI, isRelocatedAPI, calleeName, rewriteAPI]
    | exprStmt x =>
      cases x with
      | callExpr fn args =>
        cases fn with
        | ident name => simp [calleeName] at h
        | _ => simp [isKeptAPI, isRelocatedAPI, calleeName, rewriteAPI]
      | _ => simp [isKeptAPI, isRelocatedAPI, calleeName, rewriteAPI]

theorem analyzeAPI_foldl (l : List Stmt) : ∀ (st : Regroup),
    (l.foldl analyzeAPIStmt st).inPlace = st.inPlace ++ l.map rewriteAPI ∧
    (l.foldl analyzeAPIStmt st).list = st.list ++ l.filter isKeptAPI ∧
    (l.foldl analyzeAPIStmt st).listHTTP = st.listHTTP ++ (l.filter isRelocatedAPI).map rewriteAPI := by
  induction l with
  | nil => intro st; simp
  | cons s l ih =>
    intro st
    obtain ⟨h1, h2, h3⟩ := analyzeAPIStmt_fields st s
    obtain ⟨i1, i2, i3⟩ := ih (analyzeAPIStmt st s)
    simp only [List.foldl_cons, i1, i2, i3, h1, h2, h3, List.map_cons, List.filter_cons]
    refine ⟨by simp, ?_, ?_⟩
    · cases isKeptAPI s <;> simp
    · cases isRelocatedAPI s <;> simp

theorem scanExpr_step (e : Expr) (v : Res Expr) (hv : visit e = Except.ok v) :
    scanExpr e =
      match v.val with
      | Expr.callExpr fn args => Expr.callExpr (scanExpr fn) (args.map scanExpr)
      | Expr.funcLit typ body => Expr.funcLit (scanExpr typ) (body.map scanStmt)
      | Expr.other kind children => Expr.other kind (children.map scanExpr)
      | x => x := by
  obtain ⟨v2, hv2, hd⟩ := visit_ok e
  rw [hv] at hv2
  simp only [Except.ok.injEq] at hv2
  subst hv2
  obtain ⟨r, hr⟩ := inspect_total _ e (Nat.le_refl _)
  have hs : scanExpr e = r.val := by simp only [scanExpr, analyzeGenericDSL, hr]
  rw [hs]
  generalize hD : inspectDepth e = D at hr hd
  cases D with
  | zero => omega
  | succ n =>
    rw [inspect, hv] at hr
    simp only [] at hr
    split at hr
    · rename_i fn args heq
      rw [heq] at hd
      simp only [childDepth] at hd
      obtain ⟨c1, d1, h1⟩ := inspect_scanExpr fn n (by omega)
      obtain ⟨c2, d2, h2⟩ := walkList_scanExpr args n (by omega)
      rw [h1, h2] at hr
      simp only [Except.ok.injEq] at hr
      rw [← hr]
    · rename_i typ body heq
      rw [heq] at hd
      simp only [childDepth] at hd
      obtain ⟨c1, d1, h1⟩ := inspect_scanExpr typ n (by omega)
      obtain ⟨c2, d2, h2⟩ := inspectStmts_scanStmt body n (by omega)
      rw [h1, h2] at hr
      simp only [Except.ok.injEq] at hr
      rw [← hr]
    · rename_i kind children heq
      rw [heq] at hd
      simp only [childDepth] at hd
      obtain ⟨c2, d2, h2⟩ := walkList_scanExpr children n (by omega)
      rw [h2] at hr
      simp only [Except.ok.injEq] at hr
      rw [← hr]
    · rename_i h1 h2 h3
      simp only [Except.ok.injEq] at hr
      rw [← hr]

theorem scanExpr_kindIndex (e : Expr) : (scanExpr e).kindIndex = e.kindIndex := by
  cases e with
  | ident name => rw [scanExpr_ident]; rfl
  | basicLit kind value => rw [scanExpr_step _ _ (rfl : visit (Expr.basicLit kind value) = _)]
  | funcLit typ body =>
    rw [scanExpr_step _ _ (rfl : visit (Expr.funcLit typ body) = _)]; rfl
  | other kind children =>
    rw [scanExpr_step _ _ (rfl : visit (Expr.other kind children) = _)]; rfl
  | callExpr fn args =>
    cases fn with
    | ident name =>
      obtain ⟨ch, ds, hv⟩ := visit_call name args
      rw [scanExpr_step _ _ hv]; rfl
    | basicLit k v => rw [scanExpr_step _ _ (rfl : visit (Expr.callExpr (Expr.basicLit k v) args) = _)]; rfl
    | callExpr f a => rw [scanExpr_step _ _ (rfl : visit (Expr.callExpr (Expr.callExpr f a) args) = _)]; rfl
    | funcLit t b => rw [scanExpr_step _ _ (rfl : visit (Expr.callExpr (Expr.funcLit t b) args) = _)]; rfl
    | other k c => rw [scanExpr_step _ _ (rfl : visit (Expr.callExpr (Expr.other k c) args) = _)]; rfl

theorem scanStmt_exprStmt (x : Expr) : scanStmt (Stmt.exprStmt x) = Stmt.exprStmt (scanExpr x) := by
  obtain ⟨ch, ds, h⟩ := inspect_scanExpr x (inspectDepth x) (Nat.le_refl _)
  simp only [scanStmt, inspectStmt, inspectDepthStmt, h]

theorem scanStmt_other (kind : String) (children : List Stmt) :
    scanStmt (Stmt.other kind children) = Stmt.other kind (children.map scanStmt) := by
  obtain ⟨ch, ds, h⟩ := inspectStmts_scanStmt children (inspectDepthStmts children) (Nat.le_refl _)
  simp only [scanStmt, inspectStmt, inspectDepthStmt, h]

theorem scanStmt_callee (s : Stmt) : calleeName (scanStmt s) = (calleeName s).map scanCallee := by
  cases s with
  | other kind children => rw [scanStmt_other]; rfl
  | exprStmt x =>
    cases x with
    | callExpr fn args =>
      cases fn with
      | ident name => rw [scanStmt_call]; rfl
      | basicLit k v =>
        rw [scanStmt_exprStmt, scanExpr_step _ _ (rfl : visit (Expr.callExpr (Expr.basicLit k v) args) = _)]
        have := scanExpr_kindIndex (Expr.basicLit k v)
        simp only []
        generalize scanExpr (Expr.basicLit k v) = f at this
        cases f <;> first | rfl | simp [Expr.kindIndex] at this
      | callExpr f0 a =>
        rw [scanStmt_exprStmt, scanExpr_step _ _ (rfl : visit (Expr.callExpr (Expr.callExpr f0 a) args) = _)]
        have := scanExpr_kindIndex (Expr.callExpr f0 a)
        simp only []
        generalize scanExpr (Expr.callExpr f0 a) = f at this
        cases f <;> first | rfl | simp [Expr.kindIndex] at this
      | funcLit t b =>
        rw [scanStmt_exprStmt, scanExpr_step _ _ (rfl : visit (Expr.callExpr (Expr.funcLit t b) args) = _)]
        have := scanExpr_kindIndex (Expr.funcLit t b)
        simp only []
        generalize scanExpr (Expr.funcLit t b) = f at this
        cases f <;> first | rfl | simp [Expr.kindIndex] at this
      | other k c =>
        rw [scanStmt_exprStmt, scanExpr_step _ _ (rfl : visit (Expr.callExpr (Expr.other k c) args) = _)]
        have := scanExpr_kindIndex (Expr.other k c)
        simp only []
        generalize scanExpr (Expr.other k c) = f at this
        cases f <;> first | rfl | simp [Expr.kindIndex] at this
    | ident name => rw [scanStmt_exprStmt, scanExpr_ident]; rfl
    | basicLit kind value =>
      rw [scanStmt_exprStmt, scanExpr_step _ _ (rfl : visit (Expr.basicLit kind value) = _)]; rfl
    | funcLit typ body =>
      rw [scanStmt_exprStmt, scanExpr_step _ _ (rfl : visit (Expr.funcLit typ body) = _)]; rfl
    | other kind children =>
      rw [scanStmt_exprStmt, scanExpr_step _ _ (rfl : visit (Expr.other kind children) = _)]; rfl

theorem scanCallee_eq_iff (name c : String)
    (hc : c ∉ ["HashOf", "Metadata", "Integer", "Number", "File", "MapOf", "Meta", "Int", "Float64",
      "Bytes"]) : scanCallee name = c ↔ name = c := by
  simp only [List.mem_cons, List.mem_singleton, not_or, List.not_mem_nil, not_false_eq_true,
    and_true] at hc
  obtain ⟨h1, h2, h3, h4, h5, h6, h7, h8, h9, h10⟩ := hc
  unfold scanCallee
  split_ifs with g1 g2 g3 g4 g5
  · subst g1; exact ⟨fun h => absurd h.symm h6, fun h => absurd h.symm h1⟩
  · subst g2; exact ⟨fun h => absurd h.symm h7, fun h => absurd h.symm h2⟩
  · subst g3; exact ⟨fun h => absurd h.symm h8, fun h => absurd h.symm h3⟩
  · subst g4; exact ⟨fun h => absurd h.symm h9, fun h => absurd h.symm h4⟩
  · subst g5; exact ⟨fun h => absurd h.symm h10, fun h => absurd h.symm h5⟩
  · rfl

theorem isRelocatedAPI_scan (s : Stmt) : isRelocatedAPI (scanStmt s) = isRelocatedAPI s := by
  unfold isRelocatedAPI
  rw [scanStmt_callee]
  cases calleeName s with
  | none => rfl
  | some name =>
    simp only [Option.map_some', List.mem_cons, List.mem_singleton, List.not_mem_nil, or_false]
    have h : (scanCallee name = "BasePath" ∨ scanCallee name = "Consumes" ∨
        scanCallee name = "Params" ∨ scanCallee name = "Produces") ↔
        (name = "BasePath" ∨ name = "Consumes" ∨ name = "Params" ∨ name = "Produces") := by
      rw [scanCallee_eq_iff name "BasePath" (by decide), scanCallee_eq_iff name "Consumes" (by decide),
        scanCallee_eq_iff name "Params" (by decide), scanCallee_eq_iff name "Produces" (by decide)]
    rw [decide_eq_decide.mpr h]

theorem isKeptAPI_scan (s : Stmt) : isKeptAPI (scanStmt s) = isKeptAPI s := by
  unfold isKeptAPI
  rw [scanStmt_callee]
  cases calleeName s with
  | none => rfl
  | some name =>
    simp only [Option.map_some', List.mem_cons, List.mem_singleton, List.not_mem_nil, or_false]
    have h : (scanCallee name = "BasePath" ∨ scanCallee name = "Consumes" ∨
        scanCallee name = "Params" ∨ scanCallee name = "Produces") ↔
        (name = "BasePath" ∨ name = "Consumes" ∨ name = "Params" ∨ name = "Produces") := by
      rw [scanCallee_eq_iff name "BasePath" (by decide), scanCallee_eq_iff name "Consumes" (by decide),
        scanCallee_eq_iff name "Params" (by decide), scanCallee_eq_iff name "Produces" (by decide)]
    rw [decide_eq_decide.mpr h]

theorem walkList_get {α : Type} (f : α → Except Fault (Res α)) (l : List α) :
    ∀ (r : Res (List α)), walkList f l = Except.ok r →
      ∀ (i : Nat) (x : α), l[i]? = some x → ∃ rx, f x = Except.ok rx ∧ r.val[i]? = some rx.val := by
  induction l with
  | nil => intro r _ i x hx; simp at hx
  | cons y ys ih =>
    intro r hr i x hx
    simp only [walkList] at hr
    cases hy : f y with
    | error e => simp [hy] at hr
    | ok ry =>
      rw [hy] at hr
      cases hys : walkList f ys with
      | error e => simp [hys] at hr
      | ok rys =>
        rw [hys] at hr
        simp only [Except.ok.injEq] at hr
        subst hr
        cases i with
        | zero =>
          simp only [List.getElem?_cons_zero, Option.some.injEq] at hx
          subst hx
          exact ⟨ry, hy, by simp⟩
        | succ i =>
          simp only [List.getElem?_cons_succ] at hx
          obtain ⟨rx, h1, h2⟩ := ih rys hys i x hx
          exact ⟨rx, h1, by simpa using h2⟩

theorem rewriteAPI_of_not_relocated (s : Stmt) (h : isRelocatedAPI s = false) : rewriteAPI s = s := by
  rcases stmt_cases s with ⟨name, args, rfl⟩ | h2
  · simp only [isRelocatedAPI, calleeName] at h
    simp only [rewriteAPI]
    have : name ≠ "BasePath" := by
      intro h3; subst h3; simp at h
    simp [this]
  · cases s with
    | other kind children => rfl
    | exprStmt x =>
      cases x with
      | callExpr fn args =>
        cases fn with
        | ident name => simp [calleeName] at h2
        | _ => rfl
      | _ => rfl

theorem analyzeAPIArg_funcLit (typ : Expr) (body : List Stmt) :
    ∃ ch ds, analyzeAPIArg (Expr.funcLit typ body) = Except.ok
      ⟨Expr.funcLit (scanExpr typ)
        (if (body.filter isRelocatedAPI).length > 0 then
          (body.filter isKeptAPI).map scanStmt ++
            [httpWrapper ((body.filter isRelocatedAPI).map (fun s => rewriteAPI (scanStmt s)))]
         else body.map scanStmt), ch, ds⟩ := by
  obtain ⟨c, d, hg⟩ := analyzeGenericDSL_funcLit typ body
  simp only [analyzeAPIArg, hg, Expr.bodyList, Expr.setBodyList, Regroup.body]
  obtain ⟨h1, h2, h3⟩ := analyzeAPI_foldl (body.map scanStmt) ⟨[], [], [], false, []⟩
  simp only [List.nil_append] at h1 h2 h3
  rw [h1, h2, h3]
  have hf1 : List.filter isRelocatedAPI (List.map scanStmt body)
      = (body.filter isRelocatedAPI).map scanStmt := by
    rw [List.filter_map]
    congr 1
    apply List.filter_congr
    intro x _
    exact isRelocatedAPI_scan x
  have hf2 : List.filter isKeptAPI (List.map scanStmt body)
      = (body.filter isKeptAPI).map scanStmt := by
    rw [List.filter_map]
    congr 1
    apply List.filter_congr
    intro x _
    exact isKeptAPI_scan x
  rw [hf1, hf2]
  have hval : (if (List.map rewriteAPI (List.map scanStmt (List.filter isRelocatedAPI body))).length > 0 then
        List.map scanStmt (List.filter isKeptAPI body) ++
          [httpWrapper (List.map rewriteAPI (List.map scanStmt (List.filter isRelocatedAPI body)))]
      else List.map rewriteAPI (List.map scanStmt body))
      = (if (body.filter isRelocatedAPI).length > 0 then
          (body.filter isKeptAPI).map scanStmt ++
            [httpWrapper ((body.filter isRelocatedAPI).map (fun s => rewriteAPI (scanStmt s)))]
         else body.map scanStmt) := by
    simp only [List.length_map, List.map_map]
    split
    · rfl
    · rename_i hlen
      have hnil : body.filter isRelocatedAPI = [] := by
        cases hfl : body.filter isRelocatedAPI with
        | nil => rfl
        | cons a as => simp [hfl] at hlen
      apply List.map_congr_left
      intro s hs
      have : isRelocatedAPI s = false := by
        cases hr : isRelocatedAPI s with
        | false => rfl
        | true =>
          have : s ∈ body.filter isRelocatedAPI := List.mem_filter.mpr ⟨hs, hr⟩
          rw [hnil] at this
          simp at this
      simp only [Function.comp]
      exact rewriteAPI_of_not_relocated _ (by rw [isRelocatedAPI_scan]; exact this)
  rw [hval]
  exact ⟨_, _, rfl⟩

theorem analyzeAPIArg_total (arg : Expr) : ∃ r, analyzeAPIArg arg = Except.ok r := by
  cases arg with
  | funcLit typ body =>
    obtain ⟨ch, ds, h⟩ := analyzeAPIArg_funcLit typ body
    exact ⟨_, h⟩
  | _ => exact ⟨_, rfl⟩

theorem isKeptAPI_of_identCall (s : Stmt) (h : IsIdentCall s) : isKeptAPI s = !isRelocatedAPI s := by
  obtain ⟨name, args, rfl⟩ := h
  rfl

/-! ## Response, Routing, Action and Resource -/

theorem analyzeResponseStmt_prepend (er : Bool) (g : List Stmt) (st : ResponseBlockVars) (s : Stmt) :
    analyzeResponseStmt er { st with grandparent := g ++ st.grandparent } s =
      { analyzeResponseStmt er st s with
        grandparent := g ++ (analyzeResponseStmt er st s).grandparent } := by
  rcases stmt_cases s with ⟨name, args, rfl⟩ | h
  · simp only [analyzeResponseStmt]
    by_cases h1 : name = "Media"
    · subst h1
      cases er <;> simp [analyzeMedia]
    · by_cases h2 : name = "Status"
      · subst h2; simp [analyzeStatus]
      · simp [h1, h2]
  · cases s with
    | other kind children => rfl
    | exprStmt x =>
      cases x with
      | callExpr fn args =>
        cases fn with
        | ident name => simp [calleeName] at h
        | _ => rfl
      | _ => rfl

theorem analyzeResponseStmt_foldl_prepend (er : Bool) (g : List Stmt) (l : List Stmt) :
    ∀ (st : ResponseBlockVars),
      l.foldl (analyzeResponseStmt er) { st with grandparent := g ++ st.grandparent } =
        { l.foldl (analyzeResponseStmt er) st with
          grandparent := g ++ (l.foldl (analyzeResponseStmt er) st).grandparent } := by
  induction l with
  | nil => intro st; rfl
  | cons s l ih =>
    intro st
    simp only [List.foldl_cons]
    rw [analyzeResponseStmt_prepend]
    exact ih (analyzeResponseStmt er st s)

theorem analyzeResponseArg_prepend (lib : Lib) (g : List Stmt) (st : ResponseVars) (e : Expr) :
    analyzeResponseArg lib { st with grandparent := g ++ st.grandparent } e =
      { analyzeResponseArg lib st e with
        grandparent := g ++ (analyzeResponseArg lib st e).grandparent } := by
  cases e with
  | ident name =>
    simp only [analyzeResponseArg]
    split_ifs <;> simp
  | funcLit typ body =>
    simp only [analyzeResponseArg]
    have := analyzeResponseStmt_foldl_prepend st.errorResponse g body
      ⟨[], [], st.grandparent, st.changed, st.diags⟩
    simp only [] at this
    rw [this]
  | basicLit kind value => rfl
  | callExpr fn args => rfl
  | other kind children => rfl

theorem analyzeResponseArg_foldl_prepend (lib : Lib) (g : List Stmt) (l : List Expr) :
    ∀ (st : ResponseVars),
      l.foldl (analyzeResponseArg lib) { st with grandparent := g ++ st.grandparent } =
        { l.foldl (analyzeResponseArg lib) st with
          grandparent := g ++ (l.foldl (analyzeResponseArg lib) st).grandparent } := by
  induction l with
  | nil => intro st; rfl
  | cons s l ih =>
    intro st
    simp only [List.foldl_cons]
    rw [analyzeResponseArg_prepend]
    exact ih (analyzeResponseArg lib st s)

theorem analyzeResponse_lists (lib : Lib) (fn : Expr) (args : List Expr) (p g : List Stmt) :
    analyzeResponse lib fn args p g =
      ⟨responseStmt lib fn args, p ++ [responseStmt lib fn args], g ++ responseExtras lib fn args,
        true, (analyzeResponse lib fn args [] []).diags⟩ := by
  have := analyzeResponseArg_foldl_prepend lib g args
    ⟨false, false, [], [], [], [diag "Response should be wrapped by HTTP"]⟩
  simp only [List.append_nil] at this
  simp only [analyzeResponse, responseStmt, responseExtras, this, List.nil_append]

theorem analyzeRoutingLoop_prepend (args : List Expr) : ∀ (p : List Stmt),
    analyzeRoutingLoop args p =
      ⟨((analyzeRoutingLoop args []).val.1, p ++ (analyzeRoutingLoop args []).val.2), false,
        (analyzeRoutingLoop args []).diags⟩ := by
  induction args with
  | nil => intro p; simp [analyzeRoutingLoop]
  | cons e rest ih =>
    intro p
    cases e with
    | callExpr fn a =>
      cases fn with
      | ident name =>
        simp only [analyzeRoutingLoop]
        split_ifs
        · rw [ih (p ++ _), ih ([] ++ _)]
          simp
        · rw [ih p]
      | _ => simp only [analyzeRoutingLoop]; rw [ih p]
    | _ => simp only [analyzeRoutingLoop]; rw [ih p]

theorem Regroup.append_empty (a : Regroup) : a.append Regroup.empty = a := by
  cases a; simp [Regroup.append, Regroup.empty]

theorem foldl_regroup (step : Regroup → Stmt → Regroup)
    (h : ∀ st s, step st s = st.append (step Regroup.empty s)) (l : List Stmt) :
    ∀ (st : Regroup),
      (l.foldl step st).inPlace = st.inPlace ++ l.flatMap (fun s => (step Regroup.empty s).inPlace) ∧
      (l.foldl step st).list = st.list ++ l.flatMap (fun s => (step Regroup.empty s).list) ∧
      (l.foldl step st).listHTTP =
        st.listHTTP ++ l.flatMap (fun s => (step Regroup.empty s).listHTTP) := by
  induction l with
  | nil => intro st; simp
  | cons s l ih =>
    intro st
    obtain ⟨i1, i2, i3⟩ := ih (step st s)
    simp only [List.foldl_cons, i1, i2, i3, List.flatMap_cons]
    rw [h st s]
    simp [Regroup.append]

theorem analyzeActionStmt_none (lib : Lib) (st : Regroup) (s : Stmt) (h : calleeName s = none) :
    analyzeActionStmt lib st s = { st with inPlace := st.inPlace ++ [s] } := by
  cases s with
  | other kind children => rfl
  | exprStmt x =>
    cases x with
    | callExpr fn args =>
      cases fn with
      | ident name => simp [calleeName] at h
      | _ => rfl
    | _ => rfl

theorem analyzeActionStmt_append (lib : Lib) (st : Regroup) (s : Stmt) :
    analyzeActionStmt lib st s = st.append (analyzeActionStmt lib Regroup.empty s) := by
  rcases stmt_cases s with ⟨name, args, rfl⟩ | h
  · simp only [analyzeActionStmt]
    by_cases h1 : name = "Headers"
    · subst h1; simp [analyzeHeaders, Regroup.append, Regroup.empty]
    · by_cases h2 : name = "Params"
      · subst h2; simp [analyzeParams, Regroup.append, Regroup.empty]
      · by_cases h3 : name = "Response"
        · subst h3
          simp only [h1, h2, if_false, if_true]
          rw [analyzeResponse_lists lib _ _ st.listHTTP st.list,
            analyzeResponse_lists lib _ _ Regroup.empty.listHTTP Regroup.empty.list]
          simp [Regroup.append, Regroup.empty]
        · by_cases h4 : name = "Routing"
          · subst h4
            simp only [h1, h2, h3, if_false, if_true, analyzeRouting]
            rw [analyzeRoutingLoop_prepend args st.listHTTP,
              analyzeRoutingLoop_prepend args Regroup.empty.listHTTP]
            simp [Regroup.append, Regroup.empty]
          · simp [h1, h2, h3, h4, Regroup.append, Regroup.empty]
  · rw [analyzeActionStmt_none lib st s h, analyzeActionStmt_none lib _ s h]
    simp [Regroup.append, Regroup.empty]

theorem analyzeResourceStmt_none (lib : Lib) (st : Regroup) (s : Stmt) (h : calleeName s = none) :
    analyzeResourceStmt lib st s = { st with inPlace := st.inPlace ++ [s] } := by
  cases s with
  | other kind children => rfl
  | exprStmt x =>
    cases x with
    | callExpr fn args =>
      cases fn with
      | ident name => simp [calleeName] at h
      | _ => rfl
    | _ => rfl

theorem analyzeResourceStmt_append (lib : Lib) (st : Regroup) (s : Stmt) :
    analyzeResourceStmt lib st s = st.append (analyzeResourceStmt lib Regroup.empty s) := by
  rcases stmt_cases s with ⟨name, args, rfl⟩ | h
  · simp only [analyzeResourceStmt]
    by_cases h0 : name = "Action"
    · subst h0; simp [analyzeAction, Regroup.append, Regroup.empty]
    by_cases h1 : name = "BasePath"
    · subst h1; simp [analyzeBasePath, Regroup.append, Regroup.empty]
    by_cases h2 : name = "CanonicalActionName"
    · subst h2; simp [analyzeCanonicalActionName, Regroup.append, Regroup.empty]
    by_cases h3 : name = "DefaultMedia"
    · subst h3; simp [Regroup.append, Regroup.empty]
    by_cases h4 : name = "Headers"
    · subst h4; simp [analyzeHeaders, Regroup.append, Regroup.empty]
    by_cases h5 : name = "Params"
    · subst h5; simp [analyzeParams, Regroup.append, Regroup.empty]
    by_cases h6 : name = "Parent"
    · subst h6; simp [analyzeParent, Regroup.append, Regroup.empty]
    by_cases h7 : name = "Response"
    · subst h7
      simp only [h0, h1, h2, h3, h4, h5, h6, if_false, if_true]
      rw [analyzeResponse_lists lib _ _ st.listHTTP st.list,
        analyzeResponse_lists lib _ _ Regroup.empty.listHTTP Regroup.empty.list]
      simp [Regroup.append, Regroup.empty]
    simp [h0, h1, h2, h3, h4, h5, h6, h7, Regroup.append, Regroup.empty]
  · rw [analyzeResourceStmt_none lib st s h, analyzeResourceStmt_none lib _ s h]
    simp [Regroup.append, Regroup.empty]

theorem analyzeResourceStmt_fields (lib : Lib) (s : Stmt) :
    (analyzeResourceStmt lib Regroup.empty s).inPlace = [rewriteResource lib s] ∧
    (analyzeResourceStmt lib Regroup.empty s).list =
      (if isKeptResource s then [rewriteResource lib s] else keptExtras lib s) ∧
    (analyzeResourceStmt lib Regroup.empty s).listHTTP =
      (if isRelocatedResource s then [rewriteResource lib s] else []) := by
  rcases stmt_cases s with ⟨name, args, rfl⟩ | h
  · simp only [analyzeResourceStmt, isKeptResource, isRelocatedResource, calleeName,
      rewriteResource, keptExtras, Regroup.empty]
    by_cases h0 : name = "Action"
    · subst h0; simp [analyzeAction]
    by_cases h1 : name = "BasePath"
    · subst h1; simp [analyzeBasePath]
    by_cases h2 : name = "CanonicalActionName"
    · subst h2; simp [analyzeCanonicalActionName]
    by_cases h3 : name = "DefaultMedia"
    · subst h3; simp
    by_cases h4 : name = "Headers"
    · subst h4; simp [analyzeHeaders]
    by_cases h5 : name = "Params"
    · subst h5; simp [analyzeParams]
    by_cases h6 : name = "Parent"
    · subst h6; simp [analyzeParent]
    by_cases h7 : name = "Response"
    · subst h7
      simp only [h0, h1, h2, h3, h4, h5, h6, if_false, if_true]
      rw [analyzeResponse_lists]
      simp
    simp [h0, h1, h2, h3, h4, h5, h6, h7]
  · rw [analyzeResourceStmt_none lib _ s h]
    cases s with
    | other kind children =>
      simp [isKeptResource, isRelocatedResource, calleeName, rewriteResource, keptExtras, Regroup.empty]
    | exprStmt x =>
      cases x with
      | callExpr fn args =>
        cases fn with
        | ident name => simp [calleeName] at h
        | _ => simp [isKeptResource, isRelocatedResource, calleeName, rewriteResource, keptExtras, Regroup.empty]
      | _ => simp [isKeptResource, isRelocatedResource, calleeName, rewriteResource, keptExtras, Regroup.empty]

theorem mem_names_scan (name : String) (names : List String)
    (h : ∀ c ∈ names, c ∉ ["HashOf", "Metadata", "Integer", "Number", "File", "MapOf", "Meta",
      "Int", "Float64", "Bytes"]) : scanCallee name ∈ names ↔ name ∈ names := by
  induction names with
  | nil => simp
  | cons c cs ih =>
    simp only [List.mem_cons]
    rw [scanCallee_eq_iff name c (h c (by simp)), ih (fun d hd => h d (by simp [hd]))]

theorem isRelocatedResource_scan (s : Stmt) :
    isRelocatedResource (scanStmt s) = isRelocatedResource s := by
  unfold isRelocatedResource
  rw [scanStmt_callee]
  cases calleeName s with
  | none => rfl
  | some name =>
    simp only [Option.map_some']
    exact decide_eq_decide.mpr (mem_names_scan name _ (by decide))

theorem isKeptResource_scan (s : Stmt) : isKeptResource (scanStmt s) = isKeptResource s := by
  unfold isKeptResource
  rw [scanStmt_callee]
  cases calleeName s with
  | none => rfl
  | some name =>
    simp only [Option.map_some']
    rw [decide_eq_decide.mpr (mem_names_scan name _ (by decide))]

theorem flatMap_singleton_if (l : List Stmt) (p : Stmt → Bool) (f : Stmt → Stmt) :
    l.flatMap (fun s => if p s then [f s] else []) = (l.filter p).map f := by
  induction l with
  | nil => rfl
  | cons s l ih =>
    simp only [List.flatMap_cons, ih, List.filter_cons]
    cases p s <;> simp

theorem flatMap_singleton_map (l : List Stmt) (f : Stmt → Stmt) :
    l.flatMap (fun s => [f s]) = l.map f := by
  induction l with
  | nil => rfl
  | cons s l ih => simp only [List.flatMap_cons, ih, List.map_cons, List.singleton_append]

theorem analyzeResourceArg_funcLit (lib : Lib) (typ : Expr) (body : List Stmt) :
    ∃ ch ds, analyzeResourceArg lib (Expr.funcLit typ body) = Except.ok
      ⟨Expr.funcLit (scanExpr typ) (resourceBody lib body), ch, ds⟩ := by
  obtain ⟨c, d, hg⟩ := analyzeGenericDSL_funcLit typ body
  simp only [analyzeResourceArg, hg, Expr.bodyList, Expr.setBodyList, Regroup.body]
  obtain ⟨h1, h2, h3⟩ := foldl_regroup (analyzeResourceStmt lib) (analyzeResourceStmt_append lib)
    (body.map scanStmt) Regroup.empty
  have e1 : (fun s => (analyzeResourceStmt lib Regroup.empty s).inPlace)
      = fun s => [rewriteResource lib s] := funext fun s => (analyzeResourceStmt_fields lib s).1
  have e2 : (fun s => (analyzeResourceStmt lib Regroup.empty s).list)
      = fun s => (if isKeptResource s then [rewriteResource lib s] else keptExtras lib s) :=
    funext fun s => (analyzeResourceStmt_fields lib s).2.1
  have e3 : (fun s => (analyzeResourceStmt lib Regroup.empty s).listHTTP)
      = fun s => (if isRelocatedResource s then [rewriteResource lib s] else []) :=
    funext fun s => (analyzeResourceStmt_fields lib s).2.2
  rw [e1] at h1
  rw [e2] at h2
  rw [e3, flatMap_singleton_if] at h3
  have hE : (⟨[], [], [], false, []⟩ : Regroup) = Regroup.empty := rfl
  rw [hE, h1, h2, h3]
  have hf1 : List.filter isRelocatedResource (List.map scanStmt body)
      = (body.filter isRelocatedResource).map scanStmt := by
    rw [List.filter_map]
    congr 1
    apply List.filter_congr
    intro x _
    exact isRelocatedResource_scan x
  have hval : (if (Regroup.empty.listHTTP ++ List.map (rewriteResource lib)
          (List.filter isRelocatedResource (List.map scanStmt body))).length > 0 then
        Regroup.empty.list ++ (List.map scanStmt body).flatMap (fun s =>
          if isKeptResource s = true then [rewriteResource lib s] else keptExtras lib s) ++
          [httpWrapper (Regroup.empty.listHTTP ++ List.map (rewriteResource lib)
            (List.filter isRelocatedResource (List.map scanStmt body)))]
      else Regroup.empty.inPlace ++ (List.map scanStmt body).flatMap
        (fun s => [rewriteResource lib s])) = resourceBody lib body := by
    unfold resourceBody
    simp only [Regroup.empty, List.nil_append, hf1, List.length_map, List.map_map,
      List.flatMap_map, isKeptResource_scan]
    split
    · rfl
    · exact flatMap_singleton_map body _
  rw [hval]
  exact ⟨_, _, rfl⟩

theorem analyzeResourceArg_total (lib : Lib) (arg : Expr) :
    ∃ r, analyzeResourceArg lib arg = Except.ok r := by
  cases arg with
  | funcLit typ body =>
    obtain ⟨ch, ds, h⟩ := analyzeResourceArg_funcLit lib typ body
    exact ⟨_, h⟩
  | _ => exact ⟨_, rfl⟩

theorem responseStmt_callee (lib : Lib) (name : String) (args : List Expr) :
    calleeName (responseStmt lib (Expr.ident name) args) = some name := rfl

theorem rewriteResource_callee (lib : Lib) (s : Stmt) :
    calleeName (rewriteResource lib (scanStmt s)) = (calleeName s).map resourceCallee := by
  rw [show (calleeName s).map resourceCallee
    = ((calleeName s).map scanCallee).map (fun n => if n = "Action" then "Method"
        else if n = "BasePath" then "Path"
        else if n = "CanonicalActionName" then "CanonicalMethod" else n) from ?_]
  · rw [← scanStmt_callee]
    generalize scanStmt s = t
    rcases stmt_cases t with ⟨name, args, rfl⟩ | h
    · simp only [rewriteResource, calleeName, Option.map_some']
      split_ifs <;> rfl
    · rw [h]
      cases t with
      | other kind children => rfl
      | exprStmt x =>
        cases x with
        | callExpr fn args =>
          cases fn with
          | ident name => simp [calleeName] at h
          | _ => rfl
        | _ => rfl
  · cases calleeName s with
    | none => rfl
    | some name =>
      simp only [Option.map_some', Option.some.injEq, resourceCallee]
      simp only [scanCallee_eq_iff name "Action" (by decide),
        scanCallee_eq_iff name "BasePath" (by decide),
        scanCallee_eq_iff name "CanonicalActionName" (by decide)]

theorem kept_sublist (l : List Stmt) (p : Stmt → Bool) (f : Stmt → Stmt) (g : Stmt → List Stmt) :
    ((l.filter p).map f).Sublist (l.flatMap (fun s => if p s then [f s] else g s)) := by
  induction l with
  | nil => simp
  | cons s l ih =>
    simp only [List.filter_cons, List.flatMap_cons]
    cases hp : p s with
    | true =>
      simp only [if_true, List.map_cons, List.singleton_append]
      exact List.Sublist.cons₂ _ ih
    | false =>
      simp only [Bool.false_eq_true, if_false]
      exact List.sublist_append_of_sublist_right ih

theorem analyzeRoutingLoop_noop (args : List Expr) (h : args.any isRoutingCall = false) :
    ∀ (p : List Stmt), analyzeRoutingLoop args p = ⟨(args, p), false, []⟩ := by
  induction args with
  | nil => intro p; rfl
  | cons e rest ih =>
    intro p
    simp only [List.any_cons, Bool.or_eq_false_iff] at h
    obtain ⟨h1, h2⟩ := h
    cases e with
    | callExpr fn a =>
      cases fn with
      | ident name =>
        have hn : name ∉ routingNames := by simpa [isRoutingCall] using h1
        simp only [analyzeRoutingLoop, hn, if_false, ih h2 p]
      | _ => simp only [analyzeRoutingLoop, ih h2 p]
    | _ => simp only [analyzeRoutingLoop, ih h2 p]

theorem analyzeActionStmt_not_relocated (lib : Lib) (s : Stmt) (h : isRelocatedAction s = false) :
    (analyzeActionStmt lib Regroup.empty s).inPlace = [s] ∧
    (analyzeActionStmt lib Regroup.empty s).listHTTP = [] := by
  rcases stmt_cases s with ⟨name, args, rfl⟩ | h2
  · simp only [isRelocatedAction, calleeName, callArgs, List.mem_cons, List.mem_singleton,
      List.not_mem_nil, or_false, Bool.or_eq_false_iff, decide_eq_false_iff_not, not_or,
      Bool.and_eq_false_imp, decide_eq_true_eq] at h
    obtain ⟨⟨h1, h2, h3⟩, h4⟩ := h
    simp only [analyzeActionStmt, h1, h2, h3, if_false]
    by_cases h5 : name = "Routing"
    · subst h5
      simp only [if_true, analyzeRouting, analyzeRoutingLoop_noop args (h4 rfl), Regroup.empty]
      simp
    · simp [h5, Regroup.empty]
  · rw [analyzeActionStmt_none lib _ s h2]
    simp [Regroup.empty]

theorem analyzeActionArg_not_relocated (lib : Lib) (typ : Expr) (body : List Stmt)
    (h : ∀ s ∈ body, isRelocatedAction s = false) :
    (analyzeActionArg lib (Expr.funcLit typ body)).val = Expr.funcLit typ body := by
  obtain ⟨h1, _, h3⟩ := foldl_regroup (analyzeActionStmt lib) (analyzeActionStmt_append lib)
    body Regroup.empty
  have e1 : body.flatMap (fun s => (analyzeActionStmt lib Regroup.empty s).inPlace) = body := by
    have : ∀ l : List Stmt, (∀ s ∈ l, isRelocatedAction s = false) →
        l.flatMap (fun s => (analyzeActionStmt lib Regroup.empty s).inPlace) = l := by
      intro l
      induction l with
      | nil => intro _; rfl
      | cons s l ih =>
        intro hl
        simp only [List.flatMap_cons, (analyzeActionStmt_not_relocated lib s (hl s (by simp))).1,
          ih (fun t ht => hl t (by simp [ht]))]
        rfl
    exact this body h
  have e3 : body.flatMap (fun s => (analyzeActionStmt lib Regroup.empty s).listHTTP) = [] := by
    have : ∀ l : List Stmt, (∀ s ∈ l, isRelocatedAction s = false) →
        l.flatMap (fun s => (analyzeActionStmt lib Regroup.empty s).listHTTP) = [] := by
      intro l
      induction l with
      | nil => intro _; rfl
      | cons s l ih =>
        intro hl
        simp only [List.flatMap_cons, (analyzeActionStmt_not_relocated lib s (hl s (by simp))).2,
          ih (fun t ht => hl t (by simp [ht]))]
        rfl
    exact this body h
  rw [e1] at h1
  rw [e3] at h3
  have hb : (body.foldl (analyzeActionStmt lib) Regroup.empty).body = body := by
    simp only [Regroup.body, h1, h3]
    simp [Regroup.empty]
  show Expr.funcLit typ (body.foldl (analyzeActionStmt lib) Regroup.empty).body = _
  rw [hb]

theorem filter_eq_nil_of_forall (l : List Stmt) (p : Stmt → Bool) (h : ∀ s ∈ l, p s = false) :
    l.filter p = [] := by
  apply List.filter_eq_nil_iff.mpr
  intro s hs
  simp [h s hs]

theorem scanExpr_funcLit (typ : Expr) (body : List Stmt) :
    scanExpr (Expr.funcLit typ body) = Expr.funcLit (scanExpr typ) (body.map scanStmt) :=
  scanExpr_step _ _ (rfl : visit (Expr.funcLit typ body) = _)

theorem rewriteResource_of_plain (lib : Lib) (s : Stmt) (h : isRelocatedResource s = false)
    (ha : calleeName s ≠ some "Action") : rewriteResource lib s = s := by
  rcases stmt_cases s with ⟨name, args, rfl⟩ | h2
  · simp only [isRelocatedResource, calleeName, List.mem_cons, List.mem_singleton,
      List.not_mem_nil, or_false, decide_eq_false_iff_not, not_or] at h
    obtain ⟨h1, h2, _, _, _, h6⟩ := h
    have h0 : name ≠ "Action" := by
      intro he
      exact ha (by rw [he]; rfl)
    simp only [rewriteResource, h0, h1, h2, h6, if_false]
  · cases s with
    | other kind children => rfl
    | exprStmt x =>
      cases x with
      | callExpr fn args =>
        cases fn with
        | ident name => simp [calleeName] at h2
        | _ => rfl
      | _ => rfl

theorem analyzeAPI_loop_not_relocated (l : List Stmt) (h : ∀ s ∈ l, isRelocatedAPI s = false) :
    (l.foldl analyzeAPIStmt Regroup.empty).body = l := by
  obtain ⟨h1, _, h3⟩ := analyzeAPI_foldl l Regroup.empty
  have e1 : l.map rewriteAPI = l := by
    conv_rhs => rw [← List.map_id l]
    exact List.map_congr_left (fun s hs => rewriteAPI_of_not_relocated s (h s hs))
  simp only [Regroup.body, h1, h3, filter_eq_nil_of_forall l _ h, e1]
  simp [Regroup.empty]

theorem analyzeResource_loop_not_relocated (lib : Lib) (l : List Stmt)
    (h : ∀ s ∈ l, isRelocatedResource s = false) :
    (l.foldl (analyzeResourceStmt lib) Regroup.empty).body = l.map (rewriteResource lib) := by
  obtain ⟨h1, _, h3⟩ := foldl_regroup (analyzeResourceStmt lib) (analyzeResourceStmt_append lib)
    l Regroup.empty
  have e1 : (fun s => (analyzeResourceStmt lib Regroup.empty s).inPlace)
      = fun s => [rewriteResource lib s] := funext fun s => (analyzeResourceStmt_fields lib s).1
  have e3 : (fun s => (analyzeResourceStmt lib Regroup.empty s).listHTTP)
      = fun s => (if isRelocatedResource s then [rewriteResource lib s] else []) :=
    funext fun s => (analyzeResourceStmt_fields lib s).2.2
  rw [e1, flatMap_singleton_map] at h1
  rw [e3, flatMap_singleton_if, filter_eq_nil_of_forall l _ h] at h3
  simp only [Regroup.body, h1, h3]
  simp [Regroup.empty]

/-! ## Imports -/

theorem analyzeImport_val (lib : Lib) (value path : String) (h : lib.unquote value = some path) :
    (analyzeImport lib value).val = lib.quote (importTarget path) := by
  simp only [analyzeImport, h, importTarget]
  split_ifs <;> simp_all

theorem analyzeImport_unchanged (lib : Lib) (value : String)
    (h : (analyzeImport lib value).changed = false) : (analyzeImport lib value).val = value := by
  unfold analyzeImport at h ⊢
  split
  · rfl
  · rename_i path hp
    simp only [hp] at h
    split_ifs at h ⊢ <;> simp_all

theorem analyzeImport_changed_of_legacy (lib : Lib) (hq : ∀ s, lib.unquote (lib.quote s) = some s)
    (value path : String) (h : lib.unquote value = some path) (hne : importTarget path ≠ path) :
    (analyzeImport lib value).changed = true := by
  have hv : value ≠ lib.quote (importTarget path) := by
    intro he
    rw [he, hq] at h
    exact hne (Option.some.inj h)
  simp only [analyzeImport, h]
  unfold importTarget at hv
  split_ifs at hv ⊢ <;> simp_all

theorem analyzeAndFixImports_foldl (lib : Lib) (l : List Spec) : ∀ (st : ImportVars),
    (l.foldl (analyzeAndFixImportsSpec lib) st).specs =
      st.specs ++ l.flatMap (fun s => (analyzeAndFixImportsSpec lib ⟨false, [], [], []⟩ s).specs) ∧
    (l.foldl (analyzeAndFixImportsSpec lib) st).inPlace =
      st.inPlace ++ l.flatMap (fun s => (analyzeAndFixImportsSpec lib ⟨false, [], [], []⟩ s).inPlace) ∧
    (l.foldl (analyzeAndFixImportsSpec lib) st).changed =
      (st.changed || l.any (fun s => (analyzeAndFixImportsSpec lib ⟨false, [], [], []⟩ s).changed)) ∧
    (l.foldl (analyzeAndFixImportsSpec lib) st).diags =
      st.diags ++ l.flatMap (fun s => (analyzeAndFixImportsSpec lib ⟨false, [], [], []⟩ s).diags) := by
  induction l with
  | nil => intro st; simp
  | cons s l ih =>
    intro st
    obtain ⟨i1, i2, i3, i4⟩ := ih (analyzeAndFixImportsSpec lib st s)
    simp only [List.foldl_cons, i1, i2, i3, i4, List.flatMap_cons, List.any_cons]
    cases s with
    | importSpec name value =>
      simp only [analyzeAndFixImportsSpec]
      refine ⟨?_, by simp, ?_, by simp⟩
      · split_ifs <;> simp
      · cases (analyzeImport lib value).changed <;> cases st.changed <;> simp
    | valueSpec names typ values => simp [analyzeAndFixImportsSpec]
    | typeSpec name typ => simp [analyzeAndFixImportsSpec]

theorem importTarget_ne_empty (path : String) (h1 : path ≠ "")
    (h2 : path ≠ "github.com/goadesign/goa/design") : importTarget path ≠ "" := by
  unfold importTarget
  split_ifs with g1 g2
  · exact absurd g1 h2
  · decide
  · exact h1

theorem analyzeAndFixImportsSpec_valid (lib : Lib) (hq : ∀ s, lib.unquote (lib.quote s) = some s)
    (h0 : lib.quote "" = "\"\"") (spec : Spec) (hv : ValidImport lib spec) :
    (analyzeAndFixImportsSpec lib ⟨false, [], [], []⟩ spec).specs = (remapSpec lib spec).toList ∧
    ((analyzeAndFixImportsSpec lib ⟨false, [], [], []⟩ spec).changed = false →
      (analyzeAndFixImportsSpec lib ⟨false, [], [], []⟩ spec).inPlace = (remapSpec lib spec).toList) := by
  obtain ⟨name, value, path, rfl, hp, hne⟩ := hv
  have hval := analyzeImport_val lib value path hp
  have hinj : ∀ a b, lib.quote a = lib.quote b → a = b := by
    intro a b hab
    have := hq a
    rw [hab, hq] at this
    exact (Option.some.inj this).symm
  simp only [analyzeAndFixImportsSpec, remapSpec, hp, hval, List.nil_append, Bool.or_false]
  by_cases h1 : path = "github.com/goadesign/goa/design"
  · subst h1
    have ht : importTarget "github.com/goadesign/goa/design" = "" := by decide
    refine ⟨by simp [ht, h0], ?_⟩
    intro hch
    have := analyzeImport_changed_of_legacy lib hq value _ hp (by rw [ht]; decide)
    rw [this] at hch
    exact absurd hch (by decide)
  · have hk : lib.quote (importTarget path) ≠ "\"\"" := by
      rw [← h0]
      intro he
      exact importTarget_ne_empty path hne h1 (hinj _ _ he)
    have hr : (if path = "github.com/goadesign/goa/design" then none
        else if path = "github.com/goadesign/goa/design/apidsl" then
          some (Spec.importSpec name (lib.quote "goa.design/goa/v3/dsl"))
        else some (Spec.importSpec name (lib.quote path)))
        = some (Spec.importSpec name (lib.quote (importTarget path))) := by
      simp only [h1, if_false, importTarget]
      split_ifs <;> rfl
    rw [hr]
    simp [hk]

theorem flatMap_toList_eq_filterMap {α β : Type} (l : List α) (f : α → Option β) :
    l.flatMap (fun s => (f s).toList) = l.filterMap f := by
  induction l with
  | nil => rfl
  | cons s l ih =>
    simp only [List.flatMap_cons, ih, List.filterMap_cons]
    cases f s <;> rfl

theorem analyzeAndFixImports_fold_valid (lib : Lib) (hq : ∀ s, lib.unquote (lib.quote s) = some s)
    (h0 : lib.quote "" = "\"\"") (specs : List Spec) (hv : ∀ spec ∈ specs, ValidImport lib spec) :
    (specs.foldl (analyzeAndFixImportsSpec lib) ⟨false, [], [], []⟩).specs =
      specs.filterMap (remapSpec lib) ∧
    ((specs.foldl (analyzeAndFixImportsSpec lib) ⟨false, [], [], []⟩).changed = false →
      (specs.foldl (analyzeAndFixImportsSpec lib) ⟨false, [], [], []⟩).inPlace =
        specs.filterMap (remapSpec lib)) := by
  obtain ⟨f1, f2, f3, _⟩ := analyzeAndFixImports_foldl lib specs ⟨false, [], [], []⟩
  have e1 : specs.flatMap (fun s => (analyzeAndFixImportsSpec lib ⟨false, [], [], []⟩ s).specs)
      = specs.filterMap (remapSpec lib) := by
    rw [← flatMap_toList_eq_filterMap]
    apply List.flatMap_congr
    intro s hs
    exact (analyzeAndFixImportsSpec_valid lib hq h0 s (hv s hs)).1
  refine ⟨by simp only [f1, e1, List.nil_append], ?_⟩
  intro hch2
  rw [f3] at hch2
  simp only [Bool.false_or, List.any_eq_false] at hch2
  have e2 : specs.flatMap (fun s => (analyzeAndFixImportsSpec lib ⟨false, [], [], []⟩ s).inPlace)
      = specs.filterMap (remapSpec lib) := by
    rw [← flatMap_toList_eq_filterMap]
    apply List.flatMap_congr
    intro s hs
    exact (analyzeAndFixImportsSpec_valid lib hq h0 s (hv s hs)).2 (by simpa using hch2 s hs)
  simp only [f2, e2, List.nil_append]

theorem genDeclEnd_ok (paren : Bool) (specs : List Spec) (h : paren = true ∨ specs ≠ []) :
    genDeclEnd paren specs = Except.ok () := by
  unfold genDeclEnd
  rcases h with h | h
  · simp [h]
  · cases specs with
    | nil => exact absurd rfl h
    | cons a l => cases paren <;> rfl

theorem analyzeAndFixImports_val (lib : Lib) (hq : ∀ s, lib.unquote (lib.quote s) = some s)
    (h0 : lib.quote "" = "\"\"") (tok : DeclTok) (paren : Bool) (specs : List Spec)
    (hv : ∀ spec ∈ specs, ValidImport lib spec)
    (hp : paren = true ∨ specs.filterMap (remapSpec lib) ≠ []) :
    ∃ r, analyzeAndFixImports lib tok paren specs = Except.ok r ∧
      r.val = Decl.genDecl tok paren (specs.filterMap (remapSpec lib)) := by
  obtain ⟨e1, e2⟩ := analyzeAndFixImports_fold_valid lib hq h0 specs hv
  unfold analyzeAndFixImports
  simp only []
  split
  · rw [e1, genDeclEnd_ok paren _ hp]
    exact ⟨_, rfl, rfl⟩
  · rename_i hch
    refine ⟨_, rfl, ?_⟩
    simp only [e2 (by simpa using hch)]

theorem analyzeAndFixImports_fault (lib : Lib) (hq : ∀ s, lib.unquote (lib.quote s) = some s)
    (h0 : lib.quote "" = "\"\"") (tok : DeclTok) (specs : List Spec)
    (hv : ∀ spec ∈ specs, ValidImport lib spec) (hne : specs ≠ [])
    (hnil : specs.filterMap (remapSpec lib) = []) :
    analyzeAndFixImports lib tok false specs = Except.error Fault.indexOutOfRange := by
  obtain ⟨e1, e2⟩ := analyzeAndFixImports_fold_valid lib hq h0 specs hv
  have hch : (specs.foldl (analyzeAndFixImportsSpec lib) ⟨false, [], [], []⟩).changed = true := by
    by_contra hc
    have hin := e2 (by simpa using hc)
    have hlen : (specs.foldl (analyzeAndFixImportsSpec lib) ⟨false, [], [], []⟩).inPlace.length =
        specs.length := by
      rw [(analyzeAndFixImports_foldl lib specs ⟨false, [], [], []⟩).2.1]
      simp only [List.nil_append]
      clear hin hc e1 e2 hnil hne hv
      induction specs with
      | nil => rfl
      | cons s l ih =>
        simp only [List.flatMap_cons, List.length_append, List.length_cons, ih]
        cases s <;> simp [analyzeAndFixImportsSpec] <;> omega
    rw [hin, hnil] at hlen
    exact hne (List.length_eq_zero.mp hlen.symm)
  unfold analyzeAndFixImports
  simp only [hch, if_true, e1, hnil]
  rfl
/-! ## The example library -/

theorem exampleLib_roundtrip (s : String) : exampleLib.unquote (exampleLib.quote s) = some s := by
  show exampleUnquote (exampleQuote s) = some s
  simp [exampleUnquote, exampleQuote]

theorem exampleLib_quote_empty : exampleLib.quote "" = "\"\"" := by decide

theorem exampleImports_valid : ∀ spec ∈ exampleImports, ValidImport exampleLib spec := by
  intro spec hs
  simp only [exampleImports, List.mem_cons, List.mem_singleton, List.not_mem_nil, or_false] at hs
  rcases hs with rfl | rfl | rfl
  · exact ⟨_, _, "github.com/goadesign/goa/design", rfl, by decide, by decide⟩
  · exact ⟨_, _, "github.com/goadesign/goa/design/apidsl", rfl, by decide, by decide⟩
  · exact ⟨_, _, "fmt", rfl, by decide, by decide⟩


/-! ## Closed form of analyzeResponse -/

theorem blockKept_length_le (s : Stmt) : (blockKept s).length ≤ 1 := by
  unfold blockKept
  split
  · split_ifs <;> simp
  · simp

theorem flatMap_blockKept_length_le (body : List Stmt) :
    (body.flatMap blockKept).length ≤ body.length := by
  induction body with
  | nil => simp
  | cons s l ih =>
    have := blockKept_length_le s
    simp only [List.flatMap_cons, List.length_append, List.length_cons]
    omega

theorem blockKept_eq_inPlace (er : Bool) (s : Stmt) (h : (blockKept s).length = 1) :
    blockKept s = [blockInPlace er s] := by
  rcases stmt_cases s with ⟨name, args, rfl⟩ | hn
  · simp only [blockKept, blockInPlace] at h ⊢
    by_cases h1 : name = "Media"
    · simp [h1] at h
    · by_cases h2 : name = "Status"
      · simp [h1, h2]
      · simp [h1, h2]
  · exfalso
    cases s with
    | other kind children => simp [blockKept] at h
    | exprStmt x =>
      cases x with
      | callExpr fn args =>
        cases fn with
        | ident name => simp [calleeName] at hn
        | _ => simp [blockKept] at h
      | _ => simp [blockKept] at h

theorem flatMap_blockKept_eq_map (er : Bool) (body : List Stmt)
    (h : (body.flatMap blockKept).length = body.length) :
    body.map (blockInPlace er) = body.flatMap blockKept := by
  induction body with
  | nil => rfl
  | cons s l ih =>
    have h1 := blockKept_length_le s
    have h2 := flatMap_blockKept_length_le l
    simp only [List.flatMap_cons, List.length_append, List.length_cons] at h
    have h3 : (blockKept s).length = 1 := by omega
    have h4 : (l.flatMap blockKept).length = l.length := by omega
    simp only [List.map_cons, List.flatMap_cons, ih h4, blockKept_eq_inPlace er s h3,
      List.singleton_append]

theorem analyzeResponseStmt_step (er : Bool) (st : ResponseBlockVars) (s : Stmt) :
    analyzeResponseStmt er st s =
      ⟨st.inPlace ++ [blockInPlace er s], st.list ++ blockKept s,
        st.grandparent ++ blockResults er s, blockTouched s || st.changed,
        st.diags ++ blockDiags er s⟩ := by
  rcases stmt_cases s with ⟨name, args, rfl⟩ | hn
  · simp only [analyzeResponseStmt, blockInPlace, blockKept, blockResults, blockTouched,
      blockDiags, calleeName]
    by_cases h1 : name = "Media"
    · subst h1
      cases er <;> simp [analyzeMedia]
    · by_cases h2 : name = "Status"
      · subst h2
        simp [analyzeStatus]
      · simp [h1, h2]
  · cases s with
    | other kind children =>
      simp [analyzeResponseStmt, blockInPlace, blockKept, blockResults, blockTouched,
        blockDiags, calleeName]
    | exprStmt x =>
      cases x with
      | callExpr fn args =>
        cases fn with
        | ident name => simp [calleeName] at hn
        | _ =>
          simp [analyzeResponseStmt, blockInPlace, blockKept, blockResults, blockTouched,
            blockDiags, calleeName]
      | _ =>
        simp [analyzeResponseStmt, blockInPlace, blockKept, blockResults, blockTouched,
          blockDiags, calleeName]

theorem analyzeResponseStmt_foldl (er : Bool) (body : List Stmt) : ∀ (st : ResponseBlockVars),
    body.foldl (analyzeResponseStmt er) st =
      ⟨st.inPlace ++ body.map (blockInPlace er), st.list ++ body.flatMap blockKept,
        st.grandparent ++ body.flatMap (blockResults er), body.any blockTouched || st.changed,
        st.diags ++ body.flatMap (blockDiags er)⟩ := by
  induction body with
  | nil => intro st; simp
  | cons s l ih =>
    intro st
    simp only [List.foldl_cons, ih, analyzeResponseStmt_step, List.map_cons, List.flatMap_cons,
      List.any_cons, List.append_assoc, List.singleton_append]
    congr 1
    cases blockTouched s <;> cases l.any blockTouched <;> simp

theorem notMem_errorMedia : "ErrorMedia" ∉ errorStatusNames ∧ "ErrorMedia" ∉ statusNames := by
  decide

theorem analyzeResponseArg_step (lib : Lib) (st : ResponseVars) (e : Expr) :
    analyzeResponseArg lib st e =
      ⟨responseArgTouched e || st.changed, isErrorStatus e || st.errorResponse,
        st.args ++ responseArgOut lib e, st.inPlace ++ [responseArgInPlace e],
        st.grandparent ++ responseArgExtras lib st.errorResponse e,
        st.diags ++ responseArgDiags st.errorResponse e⟩ := by
  cases e with
  | ident name =>
    simp only [analyzeResponseArg, responseArgTouched, isErrorStatus, responseArgOut,
      responseArgInPlace, responseArgExtras, responseArgDiags, statusName]
    by_cases h1 : name = "ErrorMedia"
    · subst h1
      simp [notMem_errorMedia.1, notMem_errorMedia.2]
    · by_cases h2 : name ∈ errorStatusNames
      · simp [h1, h2, analyzeHTTPStatusConstant]
      · by_cases h3 : name ∈ statusNames
        · simp [h1, h2, h3, analyzeHTTPStatusConstant]
        · simp [h1, h2, h3]
  | funcLit typ body =>
    simp only [analyzeResponseArg, responseArgTouched, isErrorStatus, responseArgOut,
      responseArgInPlace, responseArgExtras, responseArgDiags, analyzeResponseStmt_foldl,
      List.nil_append, Bool.false_or, Expr.bodyList]
    have hb : (if (body.flatMap blockKept).length ≠ body.length then body.flatMap blockKept
        else body.map (blockInPlace st.errorResponse)) = body.flatMap blockKept := by
      split_ifs with h
      · rfl
      · exact flatMap_blockKept_eq_map _ _ (not_not.mp h)
    rw [hb]
    split_ifs <;> simp
  | basicLit kind value =>
    simp [analyzeResponseArg, responseArgTouched, isErrorStatus, responseArgOut,
      responseArgInPlace, responseArgExtras, responseArgDiags]
  | callExpr fn args =>
    simp [analyzeResponseArg, responseArgTouched, isErrorStatus, responseArgOut,
      responseArgInPlace, responseArgExtras, responseArgDiags]
  | other kind children =>
    simp [analyzeResponseArg, responseArgTouched, isErrorStatus, responseArgOut,
      responseArgInPlace, responseArgExtras, responseArgDiags]

theorem or_any_step (a b c : Bool) : (b || (a || c)) = ((a || b) || c) := by
  cases a <;> cases b <;> cases c <;> rfl

theorem analyzeResponseArg_foldl (lib : Lib) (args : List Expr) : ∀ (st : ResponseVars),
    (args.foldl (analyzeResponseArg lib) st).changed = (args.any responseArgTouched || st.changed) ∧
    (args.foldl (analyzeResponseArg lib) st).errorResponse =
      (args.any isErrorStatus || st.errorResponse) ∧
    (args.foldl (analyzeResponseArg lib) st).args = st.args ++ args.flatMap (responseArgOut lib) ∧
    (args.foldl (analyzeResponseArg lib) st).inPlace = st.inPlace ++ args.map responseArgInPlace ∧
    (args.foldl (analyzeResponseArg lib) st).grandparent =
      st.grandparent ++ responseExtrasFrom lib st.errorResponse args := by
  induction args with
  | nil => intro st; simp [responseExtrasFrom]
  | cons e l ih =>
    intro st
    obtain ⟨i1, i2, i3, i4, i5⟩ := ih (analyzeResponseArg lib st e)
    simp only [List.foldl_cons]
    rw [i1, i2, i3, i4, i5, analyzeResponseArg_step]
    simp only [List.any_cons, List.flatMap_cons, List.map_cons, List.append_assoc,
      List.singleton_append, responseExtrasFrom, or_any_step, and_self]

theorem responseExtrasFrom_append (lib : Lib) (pre post : List Expr) : ∀ (er : Bool),
    responseExtrasFrom lib er (pre ++ post) =
      responseExtrasFrom lib er pre ++ responseExtrasFrom lib (pre.any isErrorStatus || er) post := by
  induction pre with
  | nil => intro er; simp [responseExtrasFrom]
  | cons e l ih =>
    intro er
    show responseArgExtras lib er e ++ responseExtrasFrom lib (isErrorStatus e || er) (l ++ post) = _
    rw [ih]
    simp only [responseExtrasFrom, List.any_cons, List.append_assoc, or_any_step]

theorem analyzeResponse_closed (lib : Lib) (fn : Expr) (args : List Expr) (p g : List Stmt) :
    (analyzeResponse lib fn args p g).stmt = Stmt.exprStmt (Expr.callExpr fn (responseArgs lib args)) ∧
    (analyzeResponse lib fn args p g).parent =
      p ++ [Stmt.exprStmt (Expr.callExpr fn (responseArgs lib args))] ∧
    (analyzeResponse lib fn args p g).grandparent = g ++ responseExtrasFrom lib false args := by
  obtain ⟨i1, _, i3, i4, i5⟩ := analyzeResponseArg_foldl lib args
    ⟨false, false, [], [], g, [diag "Response should be wrapped by HTTP"]⟩
  simp only [analyzeResponse, i1, i3, i4, i5, responseArgs, List.nil_append, Bool.or_false,
    and_self]

/-! ## Status names -/

theorem status_sets_no_St : ∀ x ∈ errorStatusNames ++ statusNames, x.data.take 2 ≠ ['S', 't'] := by
  decide

theorem status_prepend_not_mem (name : String) :
    "Status" ++ name ∉ errorStatusNames ∧ "Status" ++ name ∉ statusNames ∧
      "Status" ++ name ≠ "ErrorMedia" := by
  have hd : ("Status" ++ name).data.take 2 = ['S', 't'] := by
    rw [String.data_append]
    rfl
  refine ⟨fun h => ?_, fun h => ?_, fun h => ?_⟩
  · exact status_sets_no_St _ (List.mem_append_left _ h) hd
  · exact status_sets_no_St _ (List.mem_append_right _ h) hd
  · rw [h] at hd
    exact absurd hd (by decide)

theorem responseArgs_idents (lib : Lib) (names : List String) :
    responseArgs lib (names.map Expr.ident) =
      names.flatMap (fun name => responseArgOut lib (Expr.ident name)) := by
  unfold responseArgs
  split_ifs with h
  · rw [List.flatMap_map]
  · rw [List.map_map]
    have hall : ∀ name ∈ names, responseArgOut lib (Expr.ident name) =
        [responseArgInPlace (Expr.ident name)] := by
      intro name hn
      have ht : responseArgTouched (Expr.ident name) = false := by
        by_contra hc
        exact h (List.any_eq_true.mpr ⟨_, List.mem_map.mpr ⟨name, hn, rfl⟩, by simpa using hc⟩)
      simp only [responseArgTouched, Bool.or_eq_false_iff, decide_eq_false_iff_not] at ht
      simp [responseArgOut, responseArgInPlace, statusName, ht.1.1, ht.1.2, ht.2]
    clear h
    induction names with
    | nil => rfl
    | cons n l ih =>
      simp only [List.map_cons, List.flatMap_cons, Function.comp]
      rw [hall n (List.mem_cons_self _ _), ← ih (fun x hx => hall x (List.mem_cons_of_mem _ hx))]
      simp [Function.comp]

theorem statusNames_disjoint : ∀ x ∈ statusNames, x ∉ errorStatusNames ∧ x ≠ "ErrorMedia" := by
  decide

theorem responseArgs_block (lib : Lib) (pre post : List Expr) (typ : Expr) (body : List Stmt)
    (h : body.flatMap blockKept ≠ []) :
    ∃ l1 l2, responseArgs lib (pre ++ Expr.funcLit typ body :: post) =
      l1 ++ Expr.funcLit typ (body.flatMap blockKept) :: l2 := by
  have hlen : (body.flatMap blockKept).length > 0 := List.length_pos.mpr h
  unfold responseArgs
  split_ifs
  · refine ⟨pre.flatMap (responseArgOut lib), post.flatMap (responseArgOut lib), ?_⟩
    simp only [List.flatMap_append, List.flatMap_cons, responseArgOut, hlen, if_true,
      List.singleton_append]
  · exact ⟨pre.map responseArgInPlace, post.map responseArgInPlace, by simp [responseArgInPlace]⟩

/-! ## The postcondition of the generic scan -/

theorem analyzeHashOfLoop_diags (args : List Expr) : ∀ (i : Nat) (st : HashOfVars),
    st.diags ≠ [] → (analyzeHashOfLoop args i st).diags ≠ [] := by
  induction args with
  | nil => intro i st h; simpa [analyzeHashOfLoop] using h
  | cons e rest ih =>
    intro i st h
    rw [analyzeHashOfLoop]
    split_ifs
    · exact ih _ _ (by simp)
    · exact ih _ _ (by simp)
    · exact ih _ _ h

theorem flag_or (a b : Bool) (da db : List Diagnostic) (ha : a = !da.isEmpty)
    (hb : b = !db.isEmpty) : (a || b) = !(da ++ db).isEmpty := by
  subst ha hb
  cases da <;> cases db <;> rfl

theorem visit_inv (e : Expr) (v : Res Expr) (h : visit e = Except.ok v) :
    v.changed = !v.diags.isEmpty ∧ topScanned v.val = true := by
  cases e with
  | ident name =>
    simp only [visit] at h
    by_cases h1 : name = "Integer"
    · simp only [h1, if_true, Except.ok.injEq] at h
      subst h; exact ⟨rfl, by decide⟩
    · by_cases h2 : name = "Number"
      · subst h2
        simp only [if_true, if_neg h1, Except.ok.injEq] at h
        subst h; exact ⟨rfl, by decide⟩
      · by_cases h3 : name = "File"
        · subst h3
          simp only [if_true, if_neg h1, if_neg h2, Except.ok.injEq] at h
          subst h; exact ⟨rfl, by decide⟩
        · simp only [if_neg h1, if_neg h2, if_neg h3, Except.ok.injEq] at h
          subst h
          exact ⟨rfl, by simp [topScanned, isLegacyIdent, h1, h2, h3]⟩
  | basicLit kind value =>
    simp only [visit, Except.ok.injEq] at h
    subst h; exact ⟨rfl, rfl⟩
  | funcLit typ body =>
    simp only [visit, Except.ok.injEq] at h
    subst h; exact ⟨rfl, rfl⟩
  | other kind children =>
    simp only [visit, Except.ok.injEq] at h
    subst h; exact ⟨rfl, rfl⟩
  | callExpr fn args =>
    cases fn with
    | ident name =>
      simp only [visit] at h
      by_cases h1 : name = "HashOf"
      · simp only [h1, if_true, Except.ok.injEq] at h
        subst h
        refine ⟨?_, by rw [analyzeHashOf_val]; rfl⟩
        have hd : (analyzeHashOf args).diags ≠ [] :=
          analyzeHashOfLoop_diags args 0 _ (by simp)
        have hc : (analyzeHashOf args).changed = true := rfl
        rw [hc]
        cases hx : (analyzeHashOf args).diags with
        | nil => exact absurd hx hd
        | cons a l => rfl
      · by_cases h2 : name = "Metadata"
        · subst h2
          simp only [if_true, if_neg h1, Except.ok.injEq] at h
          subst h; exact ⟨rfl, rfl⟩
        · simp only [if_neg h1, if_neg h2, analyzeAttribute_closed, Except.ok.injEq] at h
          subst h
          refine ⟨?_, by simp [topScanned, isLegacyCallee, h1, h2]⟩
          cases args.countP isDateTime <;> simp [List.replicate]
    | basicLit kind value =>
      simp only [visit, Except.ok.injEq] at h
      subst h; exact ⟨rfl, rfl⟩
    | callExpr f a =>
      simp only [visit, Except.ok.injEq] at h
      subst h; exact ⟨rfl, rfl⟩
    | funcLit typ body =>
      simp only [visit, Except.ok.injEq] at h
      subst h; exact ⟨rfl, rfl⟩
    | other kind children =>
      simp only [visit, Except.ok.injEq] at h
      subst h; exact ⟨rfl, rfl⟩

theorem visit_callee (fn : Expr) (v : Res Expr) (h : visit fn = Except.ok v)
    (hl : isLegacyCallee fn = false) : isLegacyCallee v.val = false := by
  cases fn with
  | ident name =>
    simp only [visit] at h
    split_ifs at h <;> simp only [Except.ok.injEq] at h <;> subst h
    · rfl
    · rfl
    · rfl
    · exact hl
  | basicLit kind value =>
    simp only [visit, Except.ok.injEq] at h
    subst h; rfl
  | funcLit typ body =>
    simp only [visit, Except.ok.injEq] at h
    subst h; rfl
  | other kind children =>
    simp only [visit, Except.ok.injEq] at h
    subst h; rfl
  | callExpr f a =>
    cases f with
    | ident name =>
      obtain ⟨ch, ds, hv⟩ := visit_call name a
      rw [hv] at h
      simp only [Except.ok.injEq] at h
      subst h; rfl
    | basicLit kind value =>
      simp only [visit, Except.ok.injEq] at h
      subst h; rfl
    | callExpr f2 a2 =>
      simp only [visit, Except.ok.injEq] at h
      subst h; rfl
    | funcLit typ body =>
      simp only [visit, Except.ok.injEq] at h
      subst h; rfl
    | other kind children =>
      simp only [visit, Except.ok.injEq] at h
      subst h; rfl

theorem inspect_callee (n : Nat) (fn : Expr) (rf : Res Expr) (h : inspect n fn = Except.ok rf)
    (hl : isLegacyCallee fn = false) : isLegacyCallee rf.val = false := by
  cases n with
  | zero => simp [inspect] at h
  | succ n =>
    rw [inspect] at h
    split at h
    · exact absurd h (by simp)
    · rename_i v hv
      have hc := visit_callee fn v hv hl
      split at h
      · split at h
        · exact absurd h (by simp)
        · split at h
          · exact absurd h (by simp)
          · simp only [Except.ok.injEq] at h
            subst h; rfl
      · split at h
        · exact absurd h (by simp)
        · split at h
          · exact absurd h (by simp)
          · simp only [Except.ok.injEq] at h
            subst h; rfl
      · split at h
        · exact absurd h (by simp)
        · simp only [Except.ok.injEq] at h
          subst h; rfl
      · simp only [Except.ok.injEq] at h
        subst h; exact hc

theorem walkList_inv (f : Expr → Except Fault (Res Expr))
    (hf : ∀ x r, f x = Except.ok r → Expr.scanned r.val = true ∧ r.changed = !r.diags.isEmpty) :
    ∀ (l : List Expr) (r : Res (List Expr)), walkList f l = Except.ok r →
      scannedList r.val = true ∧ r.changed = !r.diags.isEmpty
  | [], r, h => by
    simp only [walkList, Except.ok.injEq] at h
    subst h; exact ⟨rfl, rfl⟩
  | x :: xs, r, h => by
    rw [walkList] at h
    split at h
    · exact absurd h (by simp)
    · rename_i rx hx
      split at h
      · exact absurd h (by simp)
      · rename_i rxs hxs
        simp only [Except.ok.injEq] at h
        subst h
        obtain ⟨a1, a2⟩ := hf x rx hx
        obtain ⟨b1, b2⟩ := walkList_inv f hf xs rxs hxs
        exact ⟨by simp [scannedList, a1, b1], flag_or _ _ _ _ a2 b2⟩

mutual
theorem inspectStmt_inv (f : Expr → Except Fault (Res Expr))
    (hf : ∀ x r, f x = Except.ok r → Expr.scanned r.val = true ∧ r.changed = !r.diags.isEmpty) :
    ∀ (s : Stmt) (r : Res Stmt), inspectStmt f s = Except.ok r →
      Stmt.scanned r.val = true ∧ r.changed = !r.diags.isEmpty
  | Stmt.exprStmt x, r, h => by
    rw [inspectStmt] at h
    split at h
    · exact absurd h (by simp)
    · rename_i rx hx
      simp only [Except.ok.injEq] at h
      subst h
      obtain ⟨a1, a2⟩ := hf x rx hx
      exact ⟨by simp [Stmt.scanned, a1], a2⟩
  | Stmt.other kind children, r, h => by
    rw [inspectStmt] at h
    split at h
    · exact absurd h (by simp)
    · rename_i rx hx
      simp only [Except.ok.injEq] at h
      subst h
      obtain ⟨a1, a2⟩ := inspectStmts_inv f hf children rx hx
      exact ⟨by simp [Stmt.scanned, a1], a2⟩
theorem inspectStmts_inv (f : Expr → Except Fault (Res Expr))
    (hf : ∀ x r, f x = Except.ok r → Expr.scanned r.val = true ∧ r.changed = !r.diags.isEmpty) :
    ∀ (l : List Stmt) (r : Res (List Stmt)), inspectStmts f l = Except.ok r →
      scannedStmts r.val = true ∧ r.changed = !r.diags.isEmpty
  | [], r, h => by
    simp only [inspectStmts, Except.ok.injEq] at h
    subst h; exact ⟨rfl, rfl⟩
  | s :: ss, r, h => by
    rw [inspectStmts] at h
    split at h
    · exact absurd h (by simp)
    · rename_i rx hx
      split at h
      · exact absurd h (by simp)
      · rename_i rxs hxs
        simp only [Except.ok.injEq] at h
        subst h
        obtain ⟨a1, a2⟩ := inspectStmt_inv f hf s rx hx
        obtain ⟨b1, b2⟩ := inspectStmts_inv f hf ss rxs hxs
        exact ⟨by simp [scannedStmts, a1, b1], flag_or _ _ _ _ a2 b2⟩
end

theorem inspect_inv : ∀ (n : Nat) (e : Expr) (r : Res Expr), inspect n e = Except.ok r →
    Expr.scanned r.val = true ∧ r.changed = !r.diags.isEmpty := by
  intro n
  induction n with
  | zero => intro e r h; simp [inspect] at h
  | succ n ih =>
    intro e r h
    rw [inspect] at h
    split at h
    · exact absurd h (by simp)
    · rename_i v hv
      obtain ⟨hflag, htop⟩ := visit_inv e v hv
      split at h
      · rename_i fn args heq
        rw [heq] at htop
        split at h
        · exact absurd h (by simp)
        · rename_i rf hrf
          split at h
          · exact absurd h (by simp)
          · rename_i ra hra
            simp only [Except.ok.injEq] at h
            subst h
            obtain ⟨a1, a2⟩ := ih fn rf hrf
            obtain ⟨b1, b2⟩ := walkList_inv (inspect n) ih args ra hra
            have hc : isLegacyCallee rf.val = false :=
              inspect_callee n fn rf hrf (by simpa [topScanned] using htop)
            exact ⟨by simp [Expr.scanned, a1, b1, hc],
              flag_or _ _ _ _ hflag (flag_or _ _ _ _ a2 b2)⟩
      · rename_i typ body heq
        split at h
        · exact absurd h (by simp)
        · rename_i rt hrt
          split at h
          · exact absurd h (by simp)
          · rename_i rb hrb
            simp only [Except.ok.injEq] at h
            subst h
            obtain ⟨a1, a2⟩ := ih typ rt hrt
            obtain ⟨b1, b2⟩ := inspectStmts_inv (inspect n) ih body rb hrb
            exact ⟨by simp [Expr.scanned, a1, b1],
              flag_or _ _ _ _ hflag (flag_or _ _ _ _ a2 b2)⟩
      · rename_i kind children heq
        split at h
        · exact absurd h (by simp)
        · rename_i rc hrc
          simp only [Except.ok.injEq] at h
          subst h
          obtain ⟨b1, b2⟩ := walkList_inv (inspect n) ih children rc hrc
          exact ⟨by simp [Expr.scanned, b1], flag_or _ _ _ _ hflag b2⟩
      · rename_i hne1 hne2 hne3
        simp only [Except.ok.injEq] at h
        subst h
        refine ⟨?_, hflag⟩
        cases hval : v.val with
        | ident name => rw [hval] at htop; simpa [Expr.scanned, topScanned] using htop
        | basicLit kind value => rfl
        | callExpr fn args => exact absurd hval (hne1 fn args)
        | funcLit typ body => exact absurd hval (hne2 typ body)
        | other kind children => exact absurd hval (hne3 kind children)

theorem flag_iff (c : Bool) (ds : List Diagnostic) (h : c = !ds.isEmpty) : c = true ↔ ds ≠ [] := by
  subst h
  cases ds <;> simp

theorem scanExpr_call (name : String) (args : List Expr) :
    scanExpr (Expr.callExpr (Expr.ident name) args) =
      Expr.callExpr (Expr.ident (scanCallee name)) ((visitArgs name args).map scanExpr) := by
  obtain ⟨ch, ds, hv⟩ := visit_call name args
  rw [scanExpr_step _ _ hv]
  simp only [scanExpr_ident, scanCallee_eq]

theorem analyzeGenericDSL_scanExpr (e : Expr) :
    ∃ r, analyzeGenericDSL e = Except.ok r ∧ r.val = scanExpr e := by
  obtain ⟨r, hr⟩ := analyzeGenericDSL_total e
  exact ⟨r, hr, by simp only [scanExpr, hr]⟩

/-! ## A second analyzeAPI -/

theorem analyzeAPIStmt_changed (st : Regroup) (s : Stmt) :
    (analyzeAPIStmt st s).changed = (isRelocatedAPI s || st.changed) := by
  rcases stmt_cases s with ⟨name, args, rfl⟩ | h
  · simp only [analyzeAPIStmt, isRelocatedAPI, calleeName]
    by_cases h1 : name = "BasePath"
    · subst h1; simp [analyzeBasePath]
    · by_cases h2 : name = "Consumes"
      · subst h2; simp [analyzeConsumes]
      · by_cases h3 : name = "Params"
        · subst h3; simp [analyzeParams]
        · by_cases h4 : name = "Produces"
          · subst h4; simp [analyzeProduces]
          · simp [h1, h2, h3, h4]
  · rw [analyzeAPIStmt_none st s h]
    simp [isRelocatedAPI, h]

theorem analyzeAPI_foldl_changed (l : List Stmt) : ∀ (st : Regroup),
    (l.foldl analyzeAPIStmt st).changed = (l.any isRelocatedAPI || st.changed) := by
  induction l with
  | nil => intro st; simp
  | cons s l ih =>
    intro st
    simp only [List.foldl_cons, ih, analyzeAPIStmt_changed, List.any_cons, or_any_step]

theorem any_isRelocatedAPI_scan (body : List Stmt) :
    (body.map scanStmt).any isRelocatedAPI = body.any isRelocatedAPI := by
  induction body with
  | nil => rfl
  | cons s l ih => simp only [List.map_cons, List.any_cons, ih, isRelocatedAPI_scan]

theorem analyzeAPIArg_closed (e : Expr) :
    ∃ ds, analyzeAPIArg e = Except.ok ⟨apiArg e, apiArgChanged e, ds⟩ := by
  cases e with
  | funcLit typ body =>
    obtain ⟨ch, ds, h⟩ := analyzeAPIArg_funcLit typ body
    refine ⟨ds, ?_⟩
    rw [h]
    have hch : ch = body.any isRelocatedAPI := by
      obtain ⟨c, d, hg⟩ := analyzeGenericDSL_funcLit typ body
      simp only [analyzeAPIArg, hg, Expr.bodyList, Except.ok.injEq, Res.mk.injEq] at h
      rw [← h.2.1, analyzeAPI_foldl_changed, any_isRelocatedAPI_scan]
      simp
    rw [hch]
    rfl
  | ident name => exact ⟨_, rfl⟩
  | basicLit kind value => exact ⟨_, rfl⟩
  | callExpr fn args => exact ⟨_, rfl⟩
  | other kind children => exact ⟨_, rfl⟩

theorem analyzeAPI_closed (args : List Expr) :
    ∃ ds, analyzeAPI args = Except.ok ⟨args.map apiArg, args.any apiArgChanged, ds⟩ := by
  induction args with
  | nil => exact ⟨_, rfl⟩
  | cons e l ih =>
    obtain ⟨d1, h1⟩ := analyzeAPIArg_closed e
    obtain ⟨d2, h2⟩ := ih
    unfold analyzeAPI at h2 ⊢
    exact ⟨_, by rw [walkList, h1, h2]; rfl⟩

theorem isRelocatedAPI_of_kept (s : Stmt) (h : isKeptAPI s = true) : isRelocatedAPI s = false := by
  unfold isKeptAPI at h
  unfold isRelocatedAPI
  cases hc : calleeName s with
  | none => rfl
  | some name =>
    rw [hc] at h
    simpa using h

theorem apiBody_not_relocated (body : List Stmt) : ∀ s ∈ apiBody body, isRelocatedAPI s = false := by
  intro s hs
  unfold apiBody at hs
  split at hs
  · rcases List.mem_append.mp hs with h | h
    · obtain ⟨x, hx, rfl⟩ := List.mem_map.mp h
      rw [isRelocatedAPI_scan]
      exact isRelocatedAPI_of_kept x (List.mem_filter.mp hx).2
    · have hw : s = httpWrapper ((body.filter isRelocatedAPI).map (fun s => rewriteAPI (scanStmt s))) := by
        simpa using h
      rw [hw]
      rfl
  · rename_i hlen
    obtain ⟨x, hx, rfl⟩ := List.mem_map.mp hs
    rw [isRelocatedAPI_scan]
    by_contra hc
    exact hlen (List.length_pos_of_mem (List.mem_filter.mpr ⟨hx, by simpa using hc⟩))

theorem apiArg_of_not_relocated (e : Expr)
    (h : ∀ typ body, e = Expr.funcLit typ body → ∀ s ∈ body, isRelocatedAPI s = false) :
    apiArg e = apiArgScanned e ∧ apiArgChanged e = false := by
  cases e with
  | funcLit typ body =>
    have hb := h typ body rfl
    simp only [apiArg, apiArgScanned, apiBody, apiArgChanged, filter_eq_nil_of_forall body _ hb]
    refine ⟨by simp, ?_⟩
    rw [List.any_eq_false]
    intro x hx
    simp [hb x hx]
  | ident name => exact ⟨rfl, rfl⟩
  | basicLit kind value => exact ⟨rfl, rfl⟩
  | callExpr fn args => exact ⟨rfl, rfl⟩
  | other kind children => exact ⟨rfl, rfl⟩

theorem apiArg_funcLit_mem (args : List Expr) (typ : Expr) (body : List Stmt)
    (h : Expr.funcLit typ body ∈ args.map apiArg) : ∀ s ∈ body, isRelocatedAPI s = false := by
  obtain ⟨e, _, he⟩ := List.mem_map.mp h
  cases e with
  | funcLit t b =>
    simp only [apiArg, Expr.funcLit.injEq] at he
    rw [← he.2]
    exact apiBody_not_relocated b
  | ident name => simp [apiArg] at he
  | basicLit kind value => simp [apiArg] at he
  | callExpr fn a => simp [apiArg] at he
  | other kind children => simp [apiArg] at he

/-! ## Direct DateTime arguments after the generic scan -/

theorem isDateTime_of_kind (e : Expr) (h : e.kindIndex ≠ 0) : isDateTime e = false := by
  cases e with
  | ident name => exact absurd rfl h
  | _ => rfl

theorem isDateTime_scanExpr (e : Expr) : isDateTime (scanExpr e) = isDateTime e := by
  cases e with
  | ident name =>
    rw [scanExpr_ident]
    by_cases h1 : name = "Integer"
    · subst h1; rfl
    · by_cases h2 : name = "Number"
      · subst h2; rfl
      · by_cases h3 : name = "File"
        · subst h3; rfl
        · simp only [if_neg h1, if_neg h2, if_neg h3]
  | basicLit kind value =>
    rw [isDateTime_of_kind _ (by rw [scanExpr_kindIndex]; simp [Expr.kindIndex])]; rfl
  | callExpr fn args =>
    rw [isDateTime_of_kind _ (by rw [scanExpr_kindIndex]; simp [Expr.kindIndex])]; rfl
  | funcLit typ body =>
    rw [isDateTime_of_kind _ (by rw [scanExpr_kindIndex]; simp [Expr.kindIndex])]; rfl
  | other kind children =>
    rw [isDateTime_of_kind _ (by rw [scanExpr_kindIndex]; simp [Expr.kindIndex])]; rfl

theorem isDateTime_rename (e : Expr) : isDateTime (renameDateTime e) = false := by
  unfold renameDateTime
  split
  · rfl
  · rename_i h
    simpa using h

theorem isDateTime_addFormats (k : Nat) (tl : List Expr) (h : ∀ a ∈ tl, isDateTime a = false) :
    ∀ a ∈ addFormats k tl, isDateTime a = false := by
  intro a ha
  by_cases hk : k = 0
  · simp only [addFormats, hk, if_true] at ha
    exact h a ha
  · rcases last_cases tl with ⟨init, typ, body, rfl⟩ | hl
    · rw [addFormats_block k hk] at ha
      rcases List.mem_append.mp ha with h1 | h1
      · exact h a (List.mem_append_left _ h1)
      · simp only [List.mem_singleton] at h1
        rw [h1]; rfl
    · rw [addFormats_other k hk tl hl] at ha
      rcases List.mem_append.mp ha with h1 | h1
      · exact h a h1
      · simp only [List.mem_singleton] at h1
        rw [h1]; rfl

theorem visitArgs_no_dateTime (name : String) (args : List Expr) (h1 : name ≠ "HashOf")
    (h2 : name ≠ "Metadata") : ∀ a ∈ (visitArgs name args).map scanExpr, isDateTime a = false := by
  intro a ha
  obtain ⟨x, hx, rfl⟩ := List.mem_map.mp ha
  rw [isDateTime_scanExpr]
  simp only [visitArgs, if_neg h1, if_neg h2] at hx
  refine isDateTime_addFormats _ _ ?_ x hx
  intro y hy
  obtain ⟨z, _, rfl⟩ := List.mem_map.mp hy
  exact isDateTime_rename z

/-! ## Routing and the block of an Action -/

theorem analyzeHTTPRoutingDSL_val (args : List Expr) :
    (analyzeHTTPRoutingDSL args).val = args.map rewriteRoutingArg := by
  induction args with
  | nil => rfl
  | cons e rest ih =>
    simp only [analyzeHTTPRoutingDSL, ih, List.map_cons, List.cons.injEq, and_true]
    cases e with
    | basicLit kind value =>
      simp only [analyzeHTTPRoutingDSLArg, rewriteRoutingArg]
      split_ifs with h
      · rfl
      · rw [not_not.mp h]
    | _ => rfl

theorem analyzeRoutingLoop_lifted (args : List Expr) : ∀ (p : List Stmt),
    (analyzeRoutingLoop args p).val.2 = p ++ routingLifted args := by
  induction args with
  | nil => intro p; simp [analyzeRoutingLoop, routingLifted]
  | cons e rest ih =>
    intro p
    cases e with
    | callExpr fn a =>
      cases fn with
      | ident name =>
        simp only [analyzeRoutingLoop]
        by_cases h : name ∈ routingNames
        · have hf : (Expr.callExpr (Expr.ident name) a :: rest).filter isRoutingCall =
              Expr.callExpr (Expr.ident name) a :: rest.filter isRoutingCall := by
            simp [List.filter_cons, isRoutingCall, h]
          simp only [if_pos h, ih, routingLifted, hf, List.map_cons, rewriteRoutingCall,
            analyzeHTTPRoutingDSL_val, List.append_assoc, List.singleton_append]
        · have hf : (Expr.callExpr (Expr.ident name) a :: rest).filter isRoutingCall =
              rest.filter isRoutingCall := by
            simp [List.filter_cons, isRoutingCall, h]
          simp only [if_neg h, ih, routingLifted, hf]
      | _ => simp only [analyzeRoutingLoop, ih, routingLifted, List.filter_cons, isRoutingCall]; rfl
    | _ => simp only [analyzeRoutingLoop, ih, routingLifted, List.filter_cons, isRoutingCall]; rfl

theorem analyzeActionStmt_fields (lib : Lib) (s : Stmt) :
    (analyzeActionStmt lib Regroup.empty s).list = actionKept lib s ∧
    (analyzeActionStmt lib Regroup.empty s).listHTTP = actionMoved lib s := by
  rcases stmt_cases s with ⟨name, args, rfl⟩ | h
  · simp only [analyzeActionStmt, actionKept, actionMoved, Regroup.empty]
    by_cases h1 : name = "Headers"
    · subst h1; simp [analyzeHeaders]
    · by_cases h2 : name = "Params"
      · subst h2; simp [analyzeParams]
      · by_cases h3 : name = "Response"
        · subst h3
          simp only [h1, h2, if_false, if_true, or_self]
          rw [analyzeResponse_lists]
          simp
        · by_cases h4 : name = "Routing"
          · subst h4
            simp only [h1, h2, h3, if_false, if_true, or_self, analyzeRouting,
              analyzeRoutingLoop_lifted, List.nil_append, and_self]
          · simp [h1, h2, h3, h4]
  · rw [analyzeActionStmt_none lib _ s h]
    cases s with
    | other kind children => exact ⟨rfl, rfl⟩
    | exprStmt x =>
      cases x with
      | callExpr fn args =>
        cases fn with
        | ident name => simp [calleeName] at h
        | _ => exact ⟨rfl, rfl⟩
      | _ => exact ⟨rfl, rfl⟩

theorem analyzeActionArg_closed (lib : Lib) (typ : Expr) (body : List Stmt)
    (h : (body.flatMap (actionMoved lib)).length > 0) :
    (analyzeActionArg lib (Expr.funcLit typ body)).val =
      Expr.funcLit typ (body.flatMap (actionKept lib) ++
        [httpWrapper (body.flatMap (actionMoved lib))]) := by
  obtain ⟨_, h2, h3⟩ := foldl_regroup (analyzeActionStmt lib) (analyzeActionStmt_append lib)
    body Regroup.empty
  have e2 : (fun s => (analyzeActionStmt lib Regroup.empty s).list) = actionKept lib :=
    funext fun s => (analyzeActionStmt_fields lib s).1
  have e3 : (fun s => (analyzeActionStmt lib Regroup.empty s).listHTTP) = actionMoved lib :=
    funext fun s => (analyzeActionStmt_fields lib s).2
  rw [e2] at h2
  rw [e3] at h3
  have h2b : (body.foldl (analyzeActionStmt lib) Regroup.empty).list =
      body.flatMap (actionKept lib) := by rw [h2]; rfl
  have h3b : (body.foldl (analyzeActionStmt lib) Regroup.empty).listHTTP =
      body.flatMap (actionMoved lib) := by rw [h3]; rfl
  show Expr.funcLit typ (body.foldl (analyzeActionStmt lib) Regroup.empty).body = _
  simp only [Regroup.body, h2b, h3b, h, if_true]

theorem actionMoved_of_relocated (lib : Lib) (body : List Stmt)
    (h : ∃ s ∈ body, isRelocatedAction s = true) :
    (body.flatMap (actionMoved lib)).length > 0 := by
  obtain ⟨s, hs, hr⟩ := h
  have hne : actionMoved lib s ≠ [] := by
    rcases stmt_cases s with ⟨name, args, rfl⟩ | hn
    · simp only [isRelocatedAction, calleeName, callArgs, List.mem_cons, List.mem_singleton,
        List.not_mem_nil, or_false, Bool.or_eq_true, decide_eq_true_eq, Bool.and_eq_true] at hr
      simp only [actionMoved]
      rcases hr with (h1 | h1 | h1) | ⟨h1, h2⟩
      · simp [h1]
      · simp [h1]
      · subst h1; simp
      · subst h1
        obtain ⟨e, he, hre⟩ := List.any_eq_true.mp h2
        have : Stmt.exprStmt (rewriteRoutingCall e) ∈ routingLifted args :=
          List.mem_map.mpr ⟨e, List.mem_filter.mpr ⟨he, hre⟩, rfl⟩
        simp only [show ¬ ("Routing" = "Headers" ∨ "Routing" = "Params") by decide,
          show ¬ ("Routing" = "Response") by decide, if_false, if_true]
        exact List.ne_nil_of_mem this
    · simp [isRelocatedAction, hn] at hr
  have hmem : ∀ x ∈ actionMoved lib s, x ∈ body.flatMap (actionMoved lib) :=
    fun x hx => List.mem_flatMap.mpr ⟨s, hs, hx⟩
  cases hm : actionMoved lib s with
  | nil => exact absurd hm hne
  | cons x l => exact List.length_pos_of_mem (hmem x (by rw [hm]; exact List.mem_cons_self _ _))

theorem blockResults_callee (er : Bool) (s x : Stmt) (h : x ∈ blockResults er s) :
    calleeName x = some "Result" := by
  unfold blockResults at h
  split at h
  · split_ifs at h
    · simp only [List.mem_singleton] at h
      rw [h]; rfl
    · simp at h
  · simp at h

theorem responseExtrasFrom_callee (lib : Lib) (args : List Expr) : ∀ (er : Bool),
    ∀ x ∈ responseExtrasFrom lib er args, calleeName x = some "Error" ∨ calleeName x = some "Result" := by
  induction args with
  | nil => intro er x hx; simp [responseExtrasFrom] at hx
  | cons e rest ih =>
    intro er x hx
    simp only [responseExtrasFrom, List.mem_append] at hx
    rcases hx with h | h
    · cases e with
      | ident name =>
        simp only [responseArgExtras] at h
        split_ifs at h
        · simp only [List.mem_singleton] at h
          rw [h]; left; rfl
        · simp at h
      | funcLit typ body =>
        simp only [responseArgExtras, List.mem_flatMap] at h
        obtain ⟨s, _, hs⟩ := h
        right
        exact blockResults_callee er s x hs
      | basicLit kind value => simp [responseArgExtras] at h
      | callExpr fn a => simp [responseArgExtras] at h
      | other kind children => simp [responseArgExtras] at h
    · exact ih _ x h

theorem responseExtras_callee (lib : Lib) (fn : Expr) (args : List Expr) :
    ∀ x ∈ responseExtras lib fn args, calleeName x = some "Error" ∨ calleeName x = some "Result" := by
  intro x hx
  have h := (analyzeResponse_closed lib fn args [] []).2.2
  simp only [List.nil_append] at h
  unfold responseExtras at hx
  rw [h] at hx
  exact responseExtrasFrom_callee lib args false x hx

theorem actionKept_callee (lib : Lib) (body : List Stmt) :
    ∀ x ∈ body.flatMap (actionKept lib), calleeName x ≠ some "Routing" := by
  intro x hx
  obtain ⟨s, _, hs⟩ := List.mem_flatMap.mp hx
  rcases stmt_cases s with ⟨name, args, rfl⟩ | hn
  · simp only [actionKept] at hs
    split_ifs at hs with h1 h2 h3
    · simp at hs
    · rcases responseExtras_callee lib _ args x hs with h | h <;> rw [h] <;> decide
    · simp at hs
    · simp only [List.mem_singleton] at hs
      rw [hs]
      simpa [calleeName] using h3
  · cases s with
    | other kind children => simp [actionKept] at hs
    | exprStmt e =>
      cases e with
      | callExpr fn args =>
        cases fn with
        | ident name => simp [calleeName] at hn
        | _ => simp [actionKept] at hs
      | _ => simp [actionKept] at hs

theorem sublist_flatMap_of_mem {α β : Type} (f : α → List β) (l : List α) (a : α) (h : a ∈ l) :
    (f a).Sublist (l.flatMap f) := by
  induction l with
  | nil => simp at h
  | cons x xs ih =>
    simp only [List.flatMap_cons]
    rcases List.mem_cons.mp h with rfl | h2
    · exact List.sublist_append_left _ _
    · exact (ih h2).trans (List.sublist_append_right _ _)

/-! ## DefaultMedia in the block of a Resource -/

theorem analyzeResource_single (lib : Lib) (typ : Expr) (body : List Stmt) :
    ∃ ds, analyzeResource lib [Expr.funcLit typ body] =
      Except.ok ⟨Expr.callExpr (Expr.ident "Service")
        [Expr.funcLit (scanExpr typ) (resourceBody lib body)], true, ds⟩ := by
  obtain ⟨ch, ds, h⟩ := analyzeResourceArg_funcLit lib typ body
  exact ⟨diag "Resource should be replaced with Service" :: (ds ++ []),
    by simp only [analyzeResource, walkList, h]⟩

theorem resourceCallee_defaultMedia (name : String) (h : resourceCallee name = "DefaultMedia") :
    name = "DefaultMedia" := by
  unfold resourceCallee at h
  split_ifs at h
  · exact absurd h (by decide)
  · exact absurd h (by decide)
  · exact absurd h (by decide)
  · exact (scanCallee_eq_iff name "DefaultMedia" (by decide)).mp h

theorem keptExtras_callee (lib : Lib) (s : Stmt) :
    ∀ x ∈ keptExtras lib s, calleeName x = some "Error" ∨ calleeName x = some "Result" := by
  intro x hx
  unfold keptExtras at hx
  split at hx
  · split_ifs at hx
    · exact responseExtras_callee lib _ _ x hx
    · simp at hx
  · simp at hx

theorem resourceBody_no_defaultMedia (lib : Lib) (body : List Stmt)
    (h : ∃ s ∈ body, isRelocatedResource s = true) :
    ∀ x ∈ resourceBody lib body, calleeName x ≠ some "DefaultMedia" := by
  have hlen : (body.filter isRelocatedResource).length > 0 := by
    obtain ⟨s, hs, hr⟩ := h
    exact List.length_pos_of_mem (List.mem_filter.mpr ⟨hs, hr⟩)
  intro x hx
  simp only [resourceBody, hlen, if_true] at hx
  rcases List.mem_append.mp hx with h1 | h1
  · obtain ⟨s, _, hs⟩ := List.mem_flatMap.mp h1
    by_cases hk : isKeptResource s = true
    · simp only [hk, if_true, List.mem_singleton] at hs
      rw [hs, rewriteResource_callee]
      unfold isKeptResource at hk
      cases hc : calleeName s with
      | none => simp
      | some name =>
        rw [hc] at hk
        simp only [Option.map_some', ne_eq, Option.some.injEq]
        intro hd
        have := resourceCallee_defaultMedia name hd
        subst this
        simp at hk
    · simp only [hk, if_false] at hs
      rcases keptExtras_callee lib _ x hs with h2 | h2 <;> rw [h2] <;> decide
  · simp only [List.mem_singleton] at h1
    rw [h1]
    simp [httpWrapper, calleeName]

theorem resourceBody_keeps_defaultMedia (lib : Lib) (body : List Stmt)
    (h : ∀ s ∈ body, isRelocatedResource s = false) (args : List Expr)
    (hm : Stmt.exprStmt (Expr.callExpr (Expr.ident "DefaultMedia") args) ∈ body) :
    ∃ args1, Stmt.exprStmt (Expr.callExpr (Expr.ident "DefaultMedia") args1) ∈
      resourceBody lib body := by
  simp only [resourceBody, filter_eq_nil_of_forall body _ h, List.length_nil, gt_iff_lt,
    Nat.lt_irrefl, if_false]
  refine ⟨(visitArgs "DefaultMedia" args).map scanExpr, List.mem_map.mpr ⟨_, hm, ?_⟩⟩
  rw [scanStmt_call]
  rfl

/-! ## What is left of a regrouped block -/

theorem isIdentCall_of_callee (s : Stmt) (h : calleeName s ≠ none) : IsIdentCall s := by
  rcases stmt_cases s with hc | hn
  · exact hc
  · exact absurd hn h

theorem actionKept_identCall (lib : Lib) (body : List Stmt) :
    ∀ x ∈ body.flatMap (actionKept lib), IsIdentCall x := by
  intro x hx
  obtain ⟨s, _, hs⟩ := List.mem_flatMap.mp hx
  rcases stmt_cases s with ⟨name, args, rfl⟩ | hn
  · simp only [actionKept] at hs
    split_ifs at hs
    · simp at hs
    · apply isIdentCall_of_callee
      rcases responseExtras_callee lib _ args x hs with h | h <;> rw [h] <;> simp
    · simp at hs
    · simp only [List.mem_singleton] at hs
      rw [hs]
      exact ⟨_, _, rfl⟩
  · cases s with
    | other kind children => simp [actionKept] at hs
    | exprStmt e =>
      cases e with
      | callExpr fn args =>
        cases fn with
        | ident name => simp [calleeName] at hn
        | _ => simp [actionKept] at hs
      | _ => simp [actionKept] at hs

theorem resourceBody_identCall (lib : Lib) (body : List Stmt)
    (h : ∃ s ∈ body, isRelocatedResource s = true) :
    ∀ x ∈ resourceBody lib body, IsIdentCall x := by
  have hlen : (body.filter isRelocatedResource).length > 0 := by
    obtain ⟨s, hs, hr⟩ := h
    exact List.length_pos_of_mem (List.mem_filter.mpr ⟨hs, hr⟩)
  intro x hx
  simp only [resourceBody, hlen, if_true] at hx
  rcases List.mem_append.mp hx with h1 | h1
  · obtain ⟨s, _, hs⟩ := List.mem_flatMap.mp h1
    apply isIdentCall_of_callee
    by_cases hk : isKeptResource s = true
    · simp only [hk, if_true, List.mem_singleton] at hs
      rw [hs, rewriteResource_callee]
      unfold isKeptResource at hk
      cases hc : calleeName s with
      | none => rw [hc] at hk; simp at hk
      | some name => simp
    · simp only [hk, if_false] at hs
      rcases keptExtras_callee lib _ x hs with h2 | h2 <;> rw [h2] <;> simp
  · simp only [List.mem_singleton] at h1
    rw [h1]
    exact ⟨_, _, rfl⟩

/-! ## Index safety of the DateTime rule -/

theorem analyzeDateTime_fault (args : List Expr) (i : Nat) (f : Fault)
    (h : analyzeDateTime args i = Except.error f) : f = Fault.indexOutOfRange ∧ args = [] := by
  unfold analyzeDateTime at h
  simp only [] at h
  split at h
  · rename_i hn
    simp only [Except.error.injEq] at h
    refine ⟨h.symm, ?_⟩
    have hs : args.set i (Expr.ident "String") = [] := List.getLast?_eq_none_iff.mp hn
    have hl := congrArg List.length hs
    simp only [List.length_set, List.length_nil] at hl
    exact List.length_eq_zero.mp hl
  · exact absurd h (by simp)
  · exact absurd h (by simp)

theorem analyzeDateTime_nil (i : Nat) : analyzeDateTime [] i = Except.error Fault.indexOutOfRange :=
  rfl

theorem analyzeDateTime_guarded (args : List Expr) (i : Nat) (e : Expr) (h : args.get? i = some e) :
    ∃ r, analyzeDateTime args i = Except.ok r := by
  cases hd : analyzeDateTime args i with
  | ok r => exact ⟨r, rfl⟩
  | error f =>
    have hnil := (analyzeDateTime_fault args i f hd).2
    subst hnil
    simp at h

theorem analyzeAttributeLoop_total (rest : List Expr) : ∀ (i : Nat) (st : Res (List Expr)),
    ∃ r, analyzeAttributeLoop rest i st = Except.ok r := by
  induction rest with
  | nil => intro i st; exact ⟨st, rfl⟩
  | cons x rest ih =>
    intro i st
    rw [analyzeAttributeLoop]
    split
    · rename_i name hget
      split_ifs
      · obtain ⟨r, hr⟩ := analyzeDateTime_guarded st.val i _ hget
        rw [hr]
        exact ih _ _
      · exact ih _ _
    · exact ih _ _

theorem walkList_fault {α : Type} (g : α → Except Fault (Res α))
    (hg : ∀ x f, g x = Except.error f → f = Fault.outOfFuel) :
    ∀ (l : List α) (f : Fault), walkList g l = Except.error f → f = Fault.outOfFuel
  | [], f, h => by simp [walkList] at h
  | x :: xs, f, h => by
    rw [walkList] at h
    split at h
    · rename_i f1 hx
      simp only [Except.error.injEq] at h
      exact h ▸ hg x f1 hx
    · split at h
      · rename_i f2 hxs
        simp only [Except.error.injEq] at h
        exact h ▸ walkList_fault g hg xs f2 hxs
      · exact absurd h (by simp)

mutual
theorem inspectStmt_fault (g : Expr → Except Fault (Res Expr))
    (hg : ∀ x f, g x = Except.error f → f = Fault.outOfFuel) :
    ∀ (s : Stmt) (f : Fault), inspectStmt g s = Except.error f → f = Fault.outOfFuel
  | Stmt.exprStmt x, f, h => by
    rw [inspectStmt] at h
    split at h
    · rename_i f1 hx
      simp only [Except.error.injEq] at h
      exact h ▸ hg x f1 hx
    · exact absurd h (by simp)
  | Stmt.other kind children, f, h => by
    rw [inspectStmt] at h
    split at h
    · rename_i f1 hx
      simp only [Except.error.injEq] at h
      exact h ▸ inspectStmts_fault g hg children f1 hx
    · exact absurd h (by simp)
theorem inspectStmts_fault (g : Expr → Except Fault (Res Expr))
    (hg : ∀ x f, g x = Except.error f → f = Fault.outOfFuel) :
    ∀ (l : List Stmt) (f : Fault), inspectStmts g l = Except.error f → f = Fault.outOfFuel
  | [], f, h => by simp [inspectStmts] at h
  | s :: ss, f, h => by
    rw [inspectStmts] at h
    split at h
    · rename_i f1 hx
      simp only [Except.error.injEq] at h
      exact h ▸ inspectStmt_fault g hg s f1 hx
    · split at h
      · rename_i f2 hxs
        simp only [Except.error.injEq] at h
        exact h ▸ inspectStmts_fault g hg ss f2 hxs
      · exact absurd h (by simp)
end

theorem inspect_fault : ∀ (n : Nat) (e : Expr) (f : Fault),
    inspect n e = Except.error f → f = Fault.outOfFuel := by
  intro n
  induction n with
  | zero =>
    intro e f h
    simp only [inspect, Except.error.injEq] at h
    exact h.symm
  | succ n ih =>
    intro e f h
    obtain ⟨v, hv, _⟩ := visit_ok e
    rw [inspect, hv] at h
    simp only [] at h
    split at h
    · split at h
      · rename_i f1 hx
        simp only [Except.error.injEq] at h
        exact h ▸ ih _ f1 hx
      · split at h
        · rename_i f2 hxs
          simp only [Except.error.injEq] at h
          exact h ▸ walkList_fault (inspect n) ih _ f2 hxs
        · exact absurd h (by simp)
    · split at h
      · rename_i f1 hx
        simp only [Except.error.injEq] at h
        exact h ▸ ih _ f1 hx
      · split at h
        · rename_i f2 hxs
          simp only [Except.error.injEq] at h
          exact h ▸ inspectStmts_fault (inspect n) ih _ f2 hxs
        · exact absurd h (by simp)
    · split at h
      · rename_i f2 hxs
        simp only [Except.error.injEq] at h
        exact h ▸ walkList_fault (inspect n) ih _ f2 hxs
      · exact absurd h (by simp)
    · exact absurd h (by simp)

/-! ## The generic scan leaves the specified tree -/

theorem scanStmt_format : scanStmt formatDateTimeStmt = formatDateTimeStmt := rfl

theorem scanExpr_emptyFuncType : scanExpr emptyFuncType = emptyFuncType := rfl

theorem map_scanStmt_replicate (k : Nat) :
    (List.replicate k formatDateTimeStmt).map scanStmt = List.replicate k formatDateTimeStmt := by
  rw [List.map_replicate, scanStmt_format]

theorem notFuncLit_map_scan (l : List Expr) (h : NotFuncLit l.getLast?) :
    NotFuncLit (l.map scanExpr).getLast? := by
  intro typ body hl
  rw [List.getLast?_map] at hl
  cases hx : l.getLast? with
  | none => rw [hx] at hl; simp at hl
  | some x =>
    rw [hx] at hl
    simp only [Option.map_some', Option.some.injEq] at hl
    have hk := scanExpr_kindIndex x
    rw [hl] at hk
    cases x with
    | funcLit t b => exact h t b hx
    | ident name => simp [Expr.kindIndex] at hk
    | basicLit kind value => simp [Expr.kindIndex] at hk
    | callExpr fn args => simp [Expr.kindIndex] at hk
    | other kind children => simp [Expr.kindIndex] at hk

theorem map_scan_addFormats (k : Nat) (l : List Expr) :
    (addFormats k l).map scanExpr = addFormats k (l.map scanExpr) := by
  by_cases hk : k = 0
  · simp [addFormats, hk]
  · rcases last_cases l with ⟨init, typ, body, rfl⟩ | h
    · rw [addFormats_block k hk, List.map_append, List.map_append, List.map_singleton,
        List.map_singleton, scanExpr_funcLit, scanExpr_funcLit, addFormats_block k hk,
        List.map_append, map_scanStmt_replicate]
    · rw [addFormats_other k hk l h, addFormats_other k hk _ (notFuncLit_map_scan l h),
        List.map_append, List.map_singleton, scanExpr_funcLit, map_scanStmt_replicate,
        scanExpr_emptyFuncType]

theorem scanExpr_renameDateTime (a : Expr) :
    scanExpr (renameDateTime a) = if isDateTime a then Expr.ident "String" else scanExpr a := by
  unfold renameDateTime
  split_ifs
  · rfl
  · rfl

theorem scanExpr_keyElem (name : String) (h1 : name ≠ "HashOf") (h2 : name ≠ "Metadata")
    (a : Expr) : (visitArgs name [a]).map scanExpr = keyElemArgs (scanExpr a) := by
  simp only [visitArgs, if_neg h1, if_neg h2, keyElemArgs, isDateTime_scanExpr]
  by_cases hd : isDateTime a = true
  · cases a with
    | ident n =>
      simp only [isDateTime, beq_iff_eq] at hd
      subst hd
      rfl
    | basicLit kind value => simp [isDateTime] at hd
    | callExpr fn args => simp [isDateTime] at hd
    | funcLit typ body => simp [isDateTime] at hd
    | other kind children => simp [isDateTime] at hd
  · have hr : renameDateTime a = a := by simp [renameDateTime, hd]
    simp [hd, addFormats, hr]

theorem map_scan_mapOfArgs (args : List Expr) :
    (mapOfArgs args).map scanExpr = mapOfScanned (args.map scanExpr) := by
  unfold mapOfArgs mapOfScanned
  simp only [List.length_map]
  split_ifs
  · rfl
  · simp only [List.map_append, List.map_take, List.map_drop, List.map_singleton,
      scanExpr_funcLit, scanExpr_emptyFuncType, keyElemStmts, List.map_map]
    congr 3
    congr 1
    · congr 2
      apply List.map_congr_left
      intro a _
      simp only [Function.comp, scanStmt_call, scanExpr_keyElem "Key" (by decide) (by decide)]
      rfl
    · congr 2
      apply List.map_congr_left
      intro a _
      simp only [Function.comp, scanStmt_call, scanExpr_keyElem "Elem" (by decide) (by decide)]
      rfl

theorem scanCallee_eq_renameIdent (name : String) (h1 : name ≠ "HashOf") (h2 : name ≠ "Metadata") :
    scanCallee name = renameIdent name := by
  simp only [scanCallee, renameIdent, if_neg h1, if_neg h2]

mutual
theorem scanExpr_eq_spec : ∀ (e : Expr), scanExpr e = scanSpecExpr e
  | Expr.ident name => by
    rw [scanExpr_ident, scanSpecExpr, renameIdent]
  | Expr.basicLit kind value => by
    rw [scanExpr_step _ _ (rfl : visit (Expr.basicLit kind value) = _), scanSpecExpr]
  | Expr.funcLit typ body => by
    rw [scanExpr_funcLit, scanSpecExpr, scanExpr_eq_spec typ, scanStmts_eq_spec body]
  | Expr.other kind children => by
    rw [scanExpr_step _ _ (rfl : visit (Expr.other kind children) = _), scanSpecExpr]
    simp only [scanList_eq_spec children]
  | Expr.callExpr fn args => by
    have hfn := scanExpr_eq_spec fn
    have hl := scanList_eq_spec args
    have ha := scanArgs_eq_spec args
    cases fn with
    | ident name =>
      rw [scanExpr_call, scanSpecExpr]
      simp only [visitArgs]
      by_cases h1 : name = "HashOf"
      · subst h1
        simp only [if_true, map_scan_mapOfArgs, hl]
        rfl
      · by_cases h2 : name = "Metadata"
        · subst h2
          simp only [if_neg h1, if_true, hl]
          rfl
        · simp only [if_neg h1, if_neg h2, map_scan_addFormats, ha,
            scanCallee_eq_renameIdent name h1 h2]
    | basicLit k v =>
      rw [scanExpr_step _ _ (rfl : visit (Expr.callExpr (Expr.basicLit k v) args) = _), scanSpecExpr]
      · simp only [hl, hfn]
      · intro name h
        cases h
    | callExpr f a =>
      rw [scanExpr_step _ _ (rfl : visit (Expr.callExpr (Expr.callExpr f a) args) = _), scanSpecExpr]
      · simp only [hl, hfn]
      · intro name h
        cases h
    | funcLit t b =>
      rw [scanExpr_step _ _ (rfl : visit (Expr.callExpr (Expr.funcLit t b) args) = _), scanSpecExpr]
      · simp only [hl, hfn]
      · intro name h
        cases h
    | other k c =>
      rw [scanExpr_step _ _ (rfl : visit (Expr.callExpr (Expr.other k c) args) = _), scanSpecExpr]
      · simp only [hl, hfn]
      · intro name h
        cases h
theorem scanList_eq_spec : ∀ (l : List Expr), l.map scanExpr = scanSpecList l
  | [] => by rw [scanSpecList]; rfl
  | e :: es => by
    rw [List.map_cons, scanSpecList, scanExpr_eq_spec e, scanList_eq_spec es]
theorem scanArgs_eq_spec : ∀ (l : List Expr), (l.map renameDateTime).map scanExpr = scanSpecArgs l
  | [] => by rw [scanSpecArgs]; rfl
  | e :: es => by
    rw [List.map_cons, List.map_cons, scanSpecArgs, scanExpr_renameDateTime, scanExpr_eq_spec e,
      scanArgs_eq_spec es]
theorem scanStmt_eq_spec : ∀ (s : Stmt), scanStmt s = scanSpecStmt s
  | Stmt.exprStmt x => by
    rw [scanStmt_exprStmt, scanSpecStmt, scanExpr_eq_spec x]
  | Stmt.other kind children => by
    rw [scanStmt_other, scanSpecStmt, scanStmts_eq_spec children]
theorem scanStmts_eq_spec : ∀ (l : List Stmt), l.map scanStmt = scanSpecStmts l
  | [] => by rw [scanSpecStmts]; rfl
  | s :: ss => by
    rw [List.map_cons, scanSpecStmts, scanStmt_eq_spec s, scanStmts_eq_spec ss]
end
/-! ## The claims -/

/-- Claim C1 (the engine is idempotent) fails on the code: on the file holding
Type("Bottle", func() { Attribute("tags", HashOf(String, DateTime)) }) the first run renames
HashOf to MapOf and leaves its DateTime argument alone, and a second run on that output
reports two more diagnostics and rewrites the tree again (DateTime becomes String with a
Format(FormatDateTime) block). -/
theorem run_second_pass_rewrites :
    ∃ r1 r2, run exampleLib exampleHashOfFile = Except.ok r1 ∧
      r1.val = exampleHashOfFileOnce ∧
      run exampleLib r1.val = Except.ok r2 ∧
      r2.val = exampleHashOfFileTwice ∧
      r2.diags.map Diagnostic.message =
        ["DateTime should be replaced with String + Format(FormatDateTime)",
         "variable declarations should be fixed"] :=
  ⟨_, _, rfl, rfl, rfl, rfl, rfl⟩

/-- Claim C2: regrouping order preservation in analyzeAPI.  For a block argument of API
whose statements are all calls with identifier callees and of which at least one is a call
to BasePath, Consumes, Params or Produces, analyzeAPI returns, and the block then holds the
statements that are not relocated, in their original order, followed by one last statement
HTTP(func() ...) whose block holds the relocated statements in their original order (each
statement as the generic scan and the BasePath rule left it). -/
theorem analyzeAPI_regroup_order (args : List Expr) (i : Nat) (typ : Expr) (body : List Stmt)
    (harg : args[i]? = some (Expr.funcLit typ body))
    (hcalls : ∀ s ∈ body, IsIdentCall s)
    (hreloc : ∃ s ∈ body, isRelocatedAPI s = true) :
    ∃ r, analyzeAPI args = Except.ok r ∧
      r.val[i]? = some (Expr.funcLit (scanExpr typ)
        ((body.filter (fun s => !isRelocatedAPI s)).map scanStmt ++
          [Stmt.exprStmt (Expr.callExpr (Expr.ident "HTTP")
            [Expr.funcLit (Expr.other "FuncType" [])
              ((body.filter isRelocatedAPI).map (fun s => rewriteAPI (scanStmt s)))])])) := by
  obtain ⟨r, hr⟩ := walkList_total analyzeAPIArg args (fun x _ => analyzeAPIArg_total x)
  refine ⟨r, hr, ?_⟩
  obtain ⟨rx, h1, h2⟩ := walkList_get analyzeAPIArg args r hr i _ harg
  obtain ⟨ch, ds, h3⟩ := analyzeAPIArg_funcLit typ body
  rw [h3] at h1
  simp only [Except.ok.injEq] at h1
  rw [h2, ← h1]
  have hlen : (body.filter isRelocatedAPI).length > 0 := by
    obtain ⟨s, hs, hr⟩ := hreloc
    exact List.length_pos_of_mem (List.mem_filter.mpr ⟨hs, hr⟩)
  have hk : body.filter isKeptAPI = body.filter (fun s => !isRelocatedAPI s) :=
    List.filter_congr (fun s hs => isKeptAPI_of_identCall s (hcalls s hs))
  simp only [hlen, if_true, hk, httpWrapper, emptyFuncType]

/-- Witness of C2 on the body Title, BasePath, Metadata, Produces, which becomes Title, Meta,
HTTP(func() { Path; Produces }). -/
theorem analyzeAPI_regroup_order_witness :
    ∃ r, analyzeAPI [Expr.funcLit emptyFuncType exampleAPIBody] = Except.ok r ∧
      r.val[0]? = some (Expr.funcLit emptyFuncType
        [Stmt.exprStmt (Expr.callExpr (Expr.ident "Title") [Expr.basicLit LitKind.STRING "\"t\""]),
         Stmt.exprStmt (Expr.callExpr (Expr.ident "Meta") [Expr.basicLit LitKind.STRING "\"k\""]),
         Stmt.exprStmt (Expr.callExpr (Expr.ident "HTTP")
          [Expr.funcLit (Expr.other "FuncType" [])
            [Stmt.exprStmt (Expr.callExpr (Expr.ident "Path")
               [Expr.basicLit LitKind.STRING "\"/b/\x7bid\x7d\""]),
             Stmt.exprStmt (Expr.callExpr (Expr.ident "Produces")
               [Expr.basicLit LitKind.STRING "\"j\""])]])]) :=
  analyzeAPI_regroup_order [Expr.funcLit emptyFuncType exampleAPIBody] 0 emptyFuncType
    exampleAPIBody rfl
    (by
      intro s hs
      simp only [exampleAPIBody, List.mem_cons, List.mem_singleton, List.not_mem_nil, or_false] at hs
      rcases hs with rfl | rfl | rfl | rfl <;> exact ⟨_, _, rfl⟩)
    ⟨Stmt.exprStmt (Expr.callExpr (Expr.ident "Produces") [Expr.basicLit LitKind.STRING "\"j\""]),
      by simp [exampleAPIBody], rfl⟩

/-- Claim C3: Resource classification.  For a block argument of Resource, analyzeResource
returns the call with the callee renamed Service, and when a statement of the block is
relocated the block holds the kept statements in their original order (with the Error and
Result statements that Response statements add to them), followed by one last statement
HTTP(func() ...) whose block holds, in their original order, the BasePath,
CanonicalActionName, Headers, Params, Parent and Response statements; when none is
relocated, the block holds its statements in place.  The callee of every statement is renamed
by resourceCallee (Action to Method, BasePath to Path, CanonicalActionName to
CanonicalMethod), and the kept statements of the body, Action among them, are a
subsequence, in the original order, of the kept list. -/
theorem analyzeResource_classification (lib : Lib) (args : List Expr) (i : Nat) (typ : Expr)
    (body : List Stmt) (harg : args[i]? = some (Expr.funcLit typ body)) :
    ∃ r args1, analyzeResource lib args = Except.ok r ∧
      r.val = Expr.callExpr (Expr.ident "Service") args1 ∧
      args1[i]? = some (Expr.funcLit (scanExpr typ)
        (if (body.filter isRelocatedResource).length > 0 then
          body.flatMap (fun s =>
            if isKeptResource s then [rewriteResource lib (scanStmt s)]
            else keptExtras lib (scanStmt s)) ++
            [Stmt.exprStmt (Expr.callExpr (Expr.ident "HTTP")
              [Expr.funcLit (Expr.other "FuncType" [])
                ((body.filter isRelocatedResource).map (fun s => rewriteResource lib (scanStmt s)))])]
         else body.map (fun s => rewriteResource lib (scanStmt s)))) ∧
      (∀ s, calleeName (rewriteResource lib (scanStmt s)) = (calleeName s).map resourceCallee) ∧
      ((body.filter isKeptResource).map (fun s => rewriteResource lib (scanStmt s))).Sublist
        (body.flatMap (fun s =>
          if isKeptResource s then [rewriteResource lib (scanStmt s)]
          else keptExtras lib (scanStmt s))) := by
  obtain ⟨r, hr⟩ := walkList_total (analyzeResourceArg lib) args
    (fun x _ => analyzeResourceArg_total lib x)
  obtain ⟨rx, h1, h2⟩ := walkList_get (analyzeResourceArg lib) args r hr i _ harg
  obtain ⟨ch, ds, h3⟩ := analyzeResourceArg_funcLit lib typ body
  rw [h3] at h1
  simp only [Except.ok.injEq] at h1
  refine ⟨⟨Expr.callExpr (Expr.ident "Service") r.val, true,
    diag "Resource should be replaced with Service" :: r.diags⟩, r.val,
    by simp only [analyzeResource, hr], rfl, ?_, rewriteResource_callee lib,
    kept_sublist body _ _ _⟩
  rw [h2, ← h1]
  rfl

/-- Witness of C3 on the body Parent, Action, BasePath, Description, CanonicalActionName,
Headers, Params, Response(OK), DefaultMedia, which becomes Method, Description, HTTP(func() {
Parent; Path; CanonicalMethod; Headers; Params; Response(StatusOK) }). -/
theorem analyzeResource_classification_witness :
    ∃ r args1, analyzeResource exampleLib [Expr.funcLit emptyFuncType exampleResourceBody] =
        Except.ok r ∧
      r.val = Expr.callExpr (Expr.ident "Service") args1 ∧
      args1[0]? = some (Expr.funcLit (Expr.other "FuncType" [])
        [Stmt.exprStmt (Expr.callExpr (Expr.ident "Method")
           [Expr.basicLit LitKind.STRING "\"show\""]),
         Stmt.exprStmt (Expr.callExpr (Expr.ident "Description")
           [Expr.basicLit LitKind.STRING "\"d\""]),
         Stmt.exprStmt (Expr.callExpr (Expr.ident "HTTP")
          [Expr.funcLit (Expr.other "FuncType" [])
            [Stmt.exprStmt (Expr.callExpr (Expr.ident "Parent")
               [Expr.basicLit LitKind.STRING "\"account\""]),
             Stmt.exprStmt (Expr.callExpr (Expr.ident "Path")
               [Expr.basicLit LitKind.STRING "\"/b/\x7bid\x7d\""]),
             Stmt.exprStmt (Expr.callExpr (Expr.ident "CanonicalMethod")
               [Expr.basicLit LitKind.STRING "\"show\""]),
             Stmt.exprStmt (Expr.callExpr (Expr.ident "Headers") []),
             Stmt.exprStmt (Expr.callExpr (Expr.ident "Params") []),
             Stmt.exprStmt (Expr.callExpr (Expr.ident "Response") [Expr.ident "StatusOK"])]])]) ∧
      (∀ s, calleeName (rewriteResource exampleLib (scanStmt s)) =
        (calleeName s).map resourceCallee) ∧
      ((exampleResourceBody.filter isKeptResource).map
          (fun s => rewriteResource exampleLib (scanStmt s))).Sublist
        (exampleResourceBody.flatMap (fun s =>
          if isKeptResource s then [rewriteResource exampleLib (scanStmt s)]
          else keptExtras exampleLib (scanStmt s))) :=
  analyzeResource_classification exampleLib [Expr.funcLit emptyFuncType exampleResourceBody] 0
    emptyFuncType exampleResourceBody rfl

/-- Claim C4: no spurious wrapper.  For a block in which no statement is relocated, the
statement list after analyzeAPI, analyzeAction or analyzeResource holds, position by
position, the statements of the original list, so it has the original length and no HTTP
wrapper is appended.  The regrouping loops of analyzeAPI and analyzeAction return the very
list they range over; the loop of analyzeResource returns it with each Action statement as
the in-place rule left it (renamed Method) and every other statement as it was; before
their loops, analyzeAPI and analyzeResource run the generic scan, whose in-place renames
show at the same positions. -/
theorem no_spurious_wrapper (lib : Lib) (typ : Expr) (apiBody actionBody resourceBlock : List Stmt)
    (hapi : ∀ s ∈ apiBody, isRelocatedAPI s = false)
    (haction : ∀ s ∈ actionBody, isRelocatedAction s = false)
    (hresource : ∀ s ∈ resourceBlock, isRelocatedResource s = false) :
    (apiBody.foldl analyzeAPIStmt Regroup.empty).body = apiBody ∧
    (∃ ch ds, analyzeAPIArg (Expr.funcLit typ apiBody) =
      Except.ok ⟨Expr.funcLit (scanExpr typ) (apiBody.map scanStmt), ch, ds⟩) ∧
    (apiBody.map scanStmt).length = apiBody.length ∧
    (analyzeActionArg lib (Expr.funcLit typ actionBody)).val = Expr.funcLit typ actionBody ∧
    (resourceBlock.foldl (analyzeResourceStmt lib) Regroup.empty).body =
      resourceBlock.map (rewriteResource lib) ∧
    (∀ s ∈ resourceBlock, calleeName s ≠ some "Action" → rewriteResource lib s = s) ∧
    (∃ ch ds, analyzeResourceArg lib (Expr.funcLit typ resourceBlock) =
      Except.ok ⟨Expr.funcLit (scanExpr typ)
        (resourceBlock.map (fun s => rewriteResource lib (scanStmt s))), ch, ds⟩) ∧
    (resourceBlock.map (fun s => rewriteResource lib (scanStmt s))).length = resourceBlock.length := by
  refine ⟨analyzeAPI_loop_not_relocated apiBody hapi, ?_, by simp,
    analyzeActionArg_not_relocated lib typ actionBody haction,
    analyzeResource_loop_not_relocated lib resourceBlock hresource,
    fun s hs ha => rewriteResource_of_plain lib s (hresource s hs) ha, ?_, by simp⟩
  · obtain ⟨ch, ds, h⟩ := analyzeAPIArg_funcLit typ apiBody
    rw [filter_eq_nil_of_forall apiBody _ hapi] at h
    exact ⟨ch, ds, h⟩
  · obtain ⟨ch, ds, h⟩ := analyzeResourceArg_funcLit lib typ resourceBlock
    simp only [resourceBody, filter_eq_nil_of_forall resourceBlock _ hresource] at h
    exact ⟨ch, ds, h⟩

/-- Witness of C4 on the block Description("d") followed by a statement that is no call. -/
theorem no_spurious_wrapper_witness :
    (examplePlainBody.foldl analyzeAPIStmt Regroup.empty).body = examplePlainBody ∧
    (∃ ch ds, analyzeAPIArg (Expr.funcLit emptyFuncType examplePlainBody) =
      Except.ok ⟨Expr.funcLit (scanExpr emptyFuncType) (examplePlainBody.map scanStmt), ch, ds⟩) ∧
    (examplePlainBody.map scanStmt).length = examplePlainBody.length ∧
    (analyzeActionArg exampleLib (Expr.funcLit emptyFuncType examplePlainBody)).val =
      Expr.funcLit emptyFuncType examplePlainBody ∧
    (examplePlainBody.foldl (analyzeResourceStmt exampleLib) Regroup.empty).body =
      examplePlainBody.map (rewriteResource exampleLib) ∧
    (∀ s ∈ examplePlainBody, calleeName s ≠ some "Action" → rewriteResource exampleLib s = s) ∧
    (∃ ch ds, analyzeResourceArg exampleLib (Expr.funcLit emptyFuncType examplePlainBody) =
      Except.ok ⟨Expr.funcLit (scanExpr emptyFuncType)
        (examplePlainBody.map (fun s => rewriteResource exampleLib (scanStmt s))), ch, ds⟩) ∧
    (examplePlainBody.map (fun s => rewriteResource exampleLib (scanStmt s))).length =
      examplePlainBody.length :=
  no_spurious_wrapper exampleLib emptyFuncType examplePlainBody examplePlainBody examplePlainBody
    (by
      intro s hs
      simp only [examplePlainBody, List.mem_cons, List.mem_singleton, List.not_mem_nil, or_false] at hs
      rcases hs with rfl | rfl <;> rfl)
    (by
      intro s hs
      simp only [examplePlainBody, List.mem_cons, List.mem_singleton, List.not_mem_nil, or_false] at hs
      rcases hs with rfl | rfl <;> rfl)
    (by
      intro s hs
      simp only [examplePlainBody, List.mem_cons, List.mem_singleton, List.not_mem_nil, or_false] at hs
      rcases hs with rfl | rfl <;> rfl)

/-- Claim C5: wildcard rewrite correctness.  For every string, the text of replaceWildcard
is the one text that the rewriting of the specification relates to it (every leftmost,
non-overlapping slash-colon-name segment with a maximal non-empty name put in braces, every
other character kept), and the example of the specification is rewritten as stated. -/
theorem replaceWildcard_correct :
    (∀ (s : String) (out : List Char), Rewritten s.data out ↔ out = (replaceWildcard s).data) ∧
      replaceWildcard "\"/users/:id/posts/:postID\"" =
        "\"/users/\x7bid\x7d/posts/\x7bpostID\x7d\"" := by
  refine ⟨fun s out => ⟨fun h => rewritten_eq _ _ h _ (Nat.le_refl _), fun h => ?_⟩, by decide⟩
  rw [h]
  exact replaceAllFrom_rewritten _ _ (Nat.le_refl _)

/-- Claim C6: replaceWildcard returns its argument exactly when the argument has no slash,
colon, name character in a row; and for an argument that is a basic literal,
analyzeHTTPRoutingDSL and analyzeBasePath report their diagnostic about colons exactly when
the literal has such a segment, and nothing for every other argument, the diagnostics of a
call being those of its arguments in order (after the one about BasePath itself). -/
theorem replaceWildcard_fixed_iff :
    (∀ s : String, replaceWildcard s = s ↔ ¬ HasSegment s.data) ∧
    (∀ kind value, HasSegment value.data ↔
      (analyzeHTTPRoutingDSLArg (Expr.basicLit kind value)).diags =
        [diag "colons in HTTP routing DSLs should be replaced with curly braces"]) ∧
    (∀ kind value, ¬ HasSegment value.data ↔
      (analyzeHTTPRoutingDSLArg (Expr.basicLit kind value)).diags = []) ∧
    (∀ e, e.kindIndex ≠ 1 → (analyzeHTTPRoutingDSLArg e).diags = []) ∧
    (∀ args, (analyzeHTTPRoutingDSL args).diags =
      args.flatMap (fun e => (analyzeHTTPRoutingDSLArg e).diags)) ∧
    (∀ kind value, HasSegment value.data ↔
      (analyzeBasePathArg (Expr.basicLit kind value)).diags =
        [diag "colons in BasePath should be replaced with curly braces"]) ∧
    (∀ kind value, ¬ HasSegment value.data ↔
      (analyzeBasePathArg (Expr.basicLit kind value)).diags = []) ∧
    (∀ e, e.kindIndex ≠ 1 → (analyzeBasePathArg e).diags = []) ∧
    (∀ args parent, (analyzeBasePath args parent).diags =
      diag "BasePath should be replaced with Path and wrapped by HTTP" ::
        args.flatMap (fun e => (analyzeBasePathArg e).diags)) := by
  refine ⟨replaceWildcard_eq_self, ?_, ?_, ?_, ?_, ?_, ?_, ?_, ?_⟩
  · intro kind value
    by_cases h : replaceWildcard value = value
    · simp [analyzeHTTPRoutingDSLArg, h, (replaceWildcard_eq_self value).mp h]
    · have hs : HasSegment value.data := by
        by_contra hn
        exact h ((replaceWildcard_eq_self value).mpr hn)
      simp [analyzeHTTPRoutingDSLArg, h, hs]
  · intro kind value
    by_cases h : replaceWildcard value = value
    · simp [analyzeHTTPRoutingDSLArg, h, (replaceWildcard_eq_self value).mp h]
    · have hs : HasSegment value.data := by
        by_contra hn
        exact h ((replaceWildcard_eq_self value).mpr hn)
      simp [analyzeHTTPRoutingDSLArg, h, hs]
  · intro e he
    cases e with
    | basicLit kind value => exact absurd rfl he
    | _ => rfl
  · intro args
    induction args with
    | nil => rfl
    | cons e rest ih => simp only [analyzeHTTPRoutingDSL, List.flatMap_cons, ih]
  · intro kind value
    by_cases h : replaceWildcard value = value
    · simp [analyzeBasePathArg, h, (replaceWildcard_eq_self value).mp h]
    · have hs : HasSegment value.data := by
        by_contra hn
        exact h ((replaceWildcard_eq_self value).mpr hn)
      simp [analyzeBasePathArg, h, hs]
  · intro kind value
    by_cases h : replaceWildcard value = value
    · simp [analyzeBasePathArg, h, (replaceWildcard_eq_self value).mp h]
    · have hs : HasSegment value.data := by
        by_contra hn
        exact h ((replaceWildcard_eq_self value).mpr hn)
      simp [analyzeBasePathArg, h, hs]
  · intro e he
    cases e with
    | basicLit kind value => exact absurd rfl he
    | _ => rfl
  · intro args parent
    have : ∀ l : List Expr, (analyzeBasePathArgs l).diags =
        l.flatMap (fun e => (analyzeBasePathArg e).diags) := by
      intro l
      induction l with
      | nil => rfl
      | cons e rest ih => simp only [analyzeBasePathArgs, List.flatMap_cons, ih]
    simp only [analyzeBasePath, this]

/-- Claim C7: HashOf restructuring.  analyzeHashOf renames the callee to MapOf; with at most
two arguments the argument list is unchanged; with three or more it is the arguments at the
positions other than 2 and 3, in order, followed by one new block holding Key of the third
argument and then, when there is one, Elem of the fourth; and the generic scan turns
HashOf(String, Integer, keyDSL, valueDSL) into MapOf(String, Int, func() { Key(keyDSL);
Elem(valueDSL) }). -/
theorem analyzeHashOf_restructures :
    (∀ args, (analyzeHashOf args).val = Expr.callExpr (Expr.ident "MapOf") (mapOfArgs args)) ∧
    (∀ args, args.length ≤ 2 → mapOfArgs args = args) ∧
    (∀ a0 a1 a2, mapOfArgs [a0, a1, a2] =
      [a0, a1, Expr.funcLit emptyFuncType
        [Stmt.exprStmt (Expr.callExpr (Expr.ident "Key") [a2])]]) ∧
    (∀ a0 a1 a2 a3 rest, mapOfArgs (a0 :: a1 :: a2 :: a3 :: rest) =
      a0 :: a1 :: (rest ++ [Expr.funcLit emptyFuncType
        [Stmt.exprStmt (Expr.callExpr (Expr.ident "Key") [a2]),
         Stmt.exprStmt (Expr.callExpr (Expr.ident "Elem") [a3])]])) ∧
    (∃ r, analyzeGenericDSL (Expr.callExpr (Expr.ident "HashOf")
        [Expr.ident "String", Expr.ident "Integer", Expr.ident "keyDSL", Expr.ident "valueDSL"]) =
          Except.ok r ∧
      r.val = Expr.callExpr (Expr.ident "MapOf")
        [Expr.ident "String", Expr.ident "Int", Expr.funcLit emptyFuncType
          [Stmt.exprStmt (Expr.callExpr (Expr.ident "Key") [Expr.ident "keyDSL"]),
           Stmt.exprStmt (Expr.callExpr (Expr.ident "Elem") [Expr.ident "valueDSL"])]]) := by
  refine ⟨analyzeHashOf_val, ?_, ?_, ?_, ⟨_, rfl, rfl⟩⟩
  · intro args h
    simp [mapOfArgs, h]
  · intro a0 a1 a2
    simp [mapOfArgs, keyElemStmts]
  · intro a0 a1 a2 a3 rest
    simp [mapOfArgs, keyElemStmts]

/-- Claim C10 (the import remap) fails on the code for an import declaration without
parentheses whose only import is the legacy core design package: the spec list is emptied,
and building the declaration-level diagnostic calls decl.End(), which reads Specs[0] of a
declaration without parentheses, an index fault; no diagnostic with an empty replacement
text is reported.  With parentheses the same import gives the empty list and the empty
replacement text.  In general, with library functions such that unquoting a quoted text
gives the text back and the empty text is quoted as two double quotes, and for import specs
with valid non-empty paths: when the declaration has parentheses or an import remains,
analyzeAndFixImports returns the original specs, in order, with the legacy core
design import deleted, the legacy DSL import given the v3 path and every other import
keeping its path; when it has no parentheses and no import remains, it ends with the index
fault. -/
theorem analyzeAndFixImports_sole_legacy_faults :
    analyzeAndFixImports exampleLib DeclTok.IMPORT false
      [Spec.importSpec none "\"github.com/goadesign/goa/design\""] =
        Except.error Fault.indexOutOfRange ∧
    analyzeAndFixImports exampleLib DeclTok.IMPORT true
      [Spec.importSpec none "\"github.com/goadesign/goa/design\""] =
        Except.ok ⟨Decl.genDecl DeclTok.IMPORT true [], true,
          [diag "\"github.com/goadesign/goa/design\" should be removed",
           ⟨"import declarations should be fixed", some NewText.empty⟩]⟩ ∧
    (∀ paren, ∃ r, analyzeAndFixImports exampleLib DeclTok.IMPORT paren exampleImports = Except.ok r ∧
      r.val = Decl.genDecl DeclTok.IMPORT paren
        [Spec.importSpec (some ".") "\"goa.design/goa/v3/dsl\"", Spec.importSpec none "\"fmt\""] ∧
      r.diags.map Diagnostic.message =
        ["\"github.com/goadesign/goa/design\" should be removed",
         "\"github.com/goadesign/goa/design/apidsl\" should be replaced with \"goa.design/goa/v3/dsl\"",
         "import declarations should be fixed"]) ∧
    (∀ lib : Lib, (∀ s, lib.unquote (lib.quote s) = some s) → lib.quote "" = "\"\"" →
      ∀ tok paren specs, (∀ spec ∈ specs, ValidImport lib spec) →
        ((paren = true ∨ specs.filterMap (remapSpec lib) ≠ []) →
          ∃ r, analyzeAndFixImports lib tok paren specs = Except.ok r ∧
            r.val = Decl.genDecl tok paren (specs.filterMap (remapSpec lib))) ∧
        (paren = false → specs ≠ [] → specs.filterMap (remapSpec lib) = [] →
          analyzeAndFixImports lib tok paren specs = Except.error Fault.indexOutOfRange) ∧
        (∀ name value, specs = [Spec.importSpec name value] →
          lib.unquote value = some "github.com/goadesign/goa/design" → paren = true →
          analyzeAndFixImports lib tok paren specs = Except.ok ⟨Decl.genDecl tok true [], true,
            [diag "\"github.com/goadesign/goa/design\" should be removed",
             ⟨"import declarations should be fixed", some NewText.empty⟩]⟩)) := by
  refine ⟨rfl, rfl, ?_, ?_⟩
  · intro paren
    cases paren <;> exact ⟨_, rfl, rfl, rfl⟩
  · intro lib hq h0 tok paren specs hv
    refine ⟨analyzeAndFixImports_val lib hq h0 tok paren specs hv, ?_, ?_⟩
    · intro hp hne hnil
      subst hp
      exact analyzeAndFixImports_fault lib hq h0 tok specs hv hne hnil
    · intro name value hs hp hparen
      subst hs hparen
      have hch := analyzeImport_changed_of_legacy lib hq value _ hp (by decide)
      have hval := analyzeImport_val lib value _ hp
      have ht : importTarget "github.com/goadesign/goa/design" = "" := by decide
      rw [ht, h0] at hval
      have hd : (analyzeImport lib value).diags =
          [diag "\"github.com/goadesign/goa/design\" should be removed"] := by
        simp only [analyzeImport, hp]
        split_ifs <;> rfl
      simp [analyzeAndFixImports, analyzeAndFixImportsSpec, hch, hval, hd, genDeclEnd]

/-- Claim C11 (other imports pass through) fails on the code for an import whose literal is
not written as strconv.Quote prints the path: for the raw string literal of import `fmt`,
analyzeImport rewrites the literal to "fmt" and returns true without a diagnostic of its
own, and the declaration is reported as to be fixed, with an edit.  For a path that is
neither legacy path, analyzeImport reports no diagnostic, leaves the literal as strconv.Quote
prints the path, and returns true exactly when that differs from the literal as written;
a declaration of import specs written as strconv.Quote prints them, none of a legacy path,
gets no diagnostic, no edit and keeps its specs. -/
theorem analyzeImport_requotes :
    analyzeImport exampleRawLib "`fmt`" = ⟨"\"fmt\"", true, []⟩ ∧
    (∀ paren, analyzeAndFixImports exampleRawLib DeclTok.IMPORT paren [Spec.importSpec none "`fmt`"] =
      Except.ok ⟨Decl.genDecl DeclTok.IMPORT paren [Spec.importSpec none "\"fmt\""], true,
        [⟨"import declarations should be fixed",
          some (NewText.formatted
            (Decl.genDecl DeclTok.IMPORT paren [Spec.importSpec none "\"fmt\""]))⟩]⟩) ∧
    (∀ paren, analyzeAndFixImports exampleRawLib DeclTok.IMPORT paren [Spec.importSpec none "\"fmt\""] =
      Except.ok ⟨Decl.genDecl DeclTok.IMPORT paren [Spec.importSpec none "\"fmt\""], false, []⟩) ∧
    (∀ lib value path, lib.unquote value = some path →
      path ≠ "github.com/goadesign/goa/design" → path ≠ "github.com/goadesign/goa/design/apidsl" →
      analyzeImport lib value = ⟨lib.quote path, decide (value ≠ lib.quote path), []⟩) ∧
    (∀ lib tok paren specs,
      (∀ spec ∈ specs, ∃ name path, spec = Spec.importSpec name (lib.quote path) ∧
        lib.unquote (lib.quote path) = some path ∧ lib.quote path ≠ "\"\"" ∧
        path ≠ "github.com/goadesign/goa/design" ∧
        path ≠ "github.com/goadesign/goa/design/apidsl") →
      analyzeAndFixImports lib tok paren specs =
        Except.ok ⟨Decl.genDecl tok paren specs, false, []⟩) := by
  refine ⟨rfl, fun paren => by cases paren <;> rfl, fun paren => by cases paren <;> rfl, ?_, ?_⟩
  · intro lib value path hp h1 h2
    simp only [analyzeImport, hp, if_neg h1, if_neg h2]
    by_cases hv : value = lib.quote path
    · simp [hv]
    · simp [hv]
  · intro lib tok paren specs hs
    have hstep : ∀ spec ∈ specs, ∀ st : ImportVars, analyzeAndFixImportsSpec lib st spec =
        ⟨st.changed, st.specs ++ [spec], st.inPlace ++ [spec], st.diags⟩ := by
      intro spec hspec st
      obtain ⟨name, path, rfl, hp, hne, h1, h2⟩ := hs spec hspec
      simp [analyzeAndFixImportsSpec, analyzeImport, hp, h1, h2, hne]
    have hfold : ∀ (l : List Spec), (∀ spec ∈ l, spec ∈ specs) → ∀ st : ImportVars,
        l.foldl (analyzeAndFixImportsSpec lib) st =
          ⟨st.changed, st.specs ++ l, st.inPlace ++ l, st.diags⟩ := by
      intro l
      induction l with
      | nil => intro _ st; simp
      | cons s l ih =>
        intro hl st
        rw [List.foldl_cons, hstep s (hl s (List.mem_cons_self _ _)) st,
          ih (fun x hx => hl x (List.mem_cons_of_mem _ hx))]
        simp
    simp [analyzeAndFixImports, hfold specs (fun _ h => h)]

/-- Claim C12 (non-call statements are inert) fails on the code: when a statement of the
block is relocated, the block is rebuilt from the call statements with an identifier callee
only, so an assignment and a call to pkg.Describe are lost, in analyzeAPI, in analyzeAction
and in analyzeResource alike.  In general, for each of the three: once a statement of the
block is relocated, every statement of the resulting block is a call with an identifier
callee. -/
theorem regrouping_drops_statements :
    (∃ r, analyzeAPI [Expr.funcLit emptyFuncType (exampleMixedBody "BasePath")] = Except.ok r ∧
      r.val = [Expr.funcLit emptyFuncType (exampleMixedBodyAfter "Path")]) ∧
    (analyzeActionArg exampleLib (Expr.funcLit emptyFuncType (exampleMixedBody "Headers"))).val =
      Expr.funcLit emptyFuncType (exampleMixedBodyAfter "Headers") ∧
    (∃ r, analyzeResource exampleLib [Expr.funcLit emptyFuncType (exampleMixedBody "Parent")] =
        Except.ok r ∧
      r.val = Expr.callExpr (Expr.ident "Service")
        [Expr.funcLit emptyFuncType (exampleMixedBodyAfter "Parent")]) ∧
    (∀ callee, exampleAssign ∉ exampleMixedBodyAfter callee) ∧
    (∀ callee, exampleSelectorCall ∉ exampleMixedBodyAfter callee) ∧
    (∀ typ body, (∃ s ∈ body, isRelocatedAPI s = true) →
      ∃ r block, analyzeAPIArg (Expr.funcLit typ body) = Except.ok r ∧
        r.val = Expr.funcLit (scanExpr typ) block ∧ ∀ s ∈ block, IsIdentCall s) ∧
    (∀ lib typ body, (∃ s ∈ body, isRelocatedAction s = true) →
      ∃ block, (analyzeActionArg lib (Expr.funcLit typ body)).val = Expr.funcLit typ block ∧
        ∀ s ∈ block, IsIdentCall s) ∧
    (∀ lib typ body, (∃ s ∈ body, isRelocatedResource s = true) →
      ∃ r block, analyzeResource lib [Expr.funcLit typ body] = Except.ok r ∧
        r.val = Expr.callExpr (Expr.ident "Service") [Expr.funcLit (scanExpr typ) block] ∧
        ∀ s ∈ block, IsIdentCall s) := by
  refine ⟨⟨_, rfl, rfl⟩, rfl, ⟨_, rfl, rfl⟩, ?_, ?_, ?_, ?_, ?_⟩
  · intro callee
    simp [exampleMixedBodyAfter, exampleAssign, exampleTitle, httpWrapper]
  · intro callee
    simp [exampleMixedBodyAfter, exampleSelectorCall, exampleTitle, httpWrapper]
  · intro typ body hreloc
    obtain ⟨ds, h⟩ := analyzeAPIArg_closed (Expr.funcLit typ body)
    refine ⟨_, _, h, rfl, ?_⟩
    have hlen : (body.filter isRelocatedAPI).length > 0 := by
      obtain ⟨s, hs, hr⟩ := hreloc
      exact List.length_pos_of_mem (List.mem_filter.mpr ⟨hs, hr⟩)
    intro s hs
    simp only [apiBody, hlen, if_true] at hs
    rcases List.mem_append.mp hs with h1 | h1
    · obtain ⟨x, hx, rfl⟩ := List.mem_map.mp h1
      have hk : isKeptAPI (scanStmt x) = true := by
        rw [isKeptAPI_scan]
        exact (List.mem_filter.mp hx).2
      rcases stmt_cases (scanStmt x) with hc | hn
      · exact hc
      · simp [isKeptAPI, hn] at hk
    · simp only [List.mem_singleton] at h1
      rw [h1]
      exact ⟨_, _, rfl⟩
  · intro lib typ body hreloc
    refine ⟨_, analyzeActionArg_closed lib typ body (actionMoved_of_relocated lib body hreloc), ?_⟩
    intro s hs
    rcases List.mem_append.mp hs with h1 | h1
    · exact actionKept_identCall lib body s h1
    · simp only [List.mem_singleton] at h1
      rw [h1]
      exact ⟨_, _, rfl⟩
  · intro lib typ body hreloc
    obtain ⟨ds, h⟩ := analyzeResource_single lib typ body
    exact ⟨_, _, h, rfl, resourceBody_identCall lib body hreloc⟩

/-- Claim C13 (DefaultMedia removal) fails on the code for a Resource block in which nothing
is relocated: for Resource(func() { DefaultMedia(X) }) the diagnostic that DefaultMedia should
be removed is reported, but the statement list is replaced only when the HTTP list is not
empty, so the Service block still holds DefaultMedia(X); this is so for every block without
a relocated statement.  When a statement of the block is relocated, no statement of the
Service block is a call to DefaultMedia. -/
theorem analyzeResource_keeps_defaultMedia :
    (∃ r, analyzeResource exampleLib [Expr.funcLit emptyFuncType
        [Stmt.exprStmt (Expr.callExpr (Expr.ident "DefaultMedia") [Expr.ident "X"])]] = Except.ok r ∧
      r.val = Expr.callExpr (Expr.ident "Service") [Expr.funcLit emptyFuncType
        [Stmt.exprStmt (Expr.callExpr (Expr.ident "DefaultMedia") [Expr.ident "X"])]] ∧
      r.diags = [diag "Resource should be replaced with Service",
        diag "DefaultMedia should be removed"]) ∧
    (∀ lib typ body, (∀ s ∈ body, isRelocatedResource s = false) →
      ∀ args, Stmt.exprStmt (Expr.callExpr (Expr.ident "DefaultMedia") args) ∈ body →
        ∃ r block args1, analyzeResource lib [Expr.funcLit typ body] = Except.ok r ∧
          r.val = Expr.callExpr (Expr.ident "Service") [Expr.funcLit (scanExpr typ) block] ∧
          Stmt.exprStmt (Expr.callExpr (Expr.ident "DefaultMedia") args1) ∈ block) ∧
    (∀ lib typ body, (∃ s ∈ body, isRelocatedResource s = true) →
      ∃ r block, analyzeResource lib [Expr.funcLit typ body] = Except.ok r ∧
        r.val = Expr.callExpr (Expr.ident "Service") [Expr.funcLit (scanExpr typ) block] ∧
        ∀ s ∈ block, calleeName s ≠ some "DefaultMedia") := by
  refine ⟨⟨_, rfl, rfl, rfl⟩, ?_, ?_⟩
  · intro lib typ body hno args hm
    obtain ⟨ds, h⟩ := analyzeResource_single lib typ body
    obtain ⟨args1, h1⟩ := resourceBody_keeps_defaultMedia lib body hno args hm
    exact ⟨_, _, args1, h, rfl, h1⟩
  · intro lib typ body hreloc
    obtain ⟨ds, h⟩ := analyzeResource_single lib typ body
    exact ⟨_, _, h, rfl, resourceBody_no_defaultMedia lib body hreloc⟩

/-- Claim C14 (Routing expansion) fails on the code for an Action block in which nothing is
relocated: a Routing statement with no call to a routing function among its arguments, as
in Action("show", func() { Routing() }), is reported but stays in the block of the Method,
the statement list being replaced only when the HTTP list is not empty.  When a statement
of the block is relocated (a Routing with a routing call among them), the block of the
Method is the kept statements, none of which is a Routing statement, followed by the HTTP
wrapper, and the wrapper holds, in the original order, the calls to the routing functions
among the arguments of each Routing, each with its basic literals rewritten by
replaceWildcard. -/
theorem analyzeAction_routing :
    (analyzeAction exampleLib [Expr.basicLit LitKind.STRING "\"show\"",
        Expr.funcLit emptyFuncType [Stmt.exprStmt (Expr.callExpr (Expr.ident "Routing") [])]] []).stmt =
      Stmt.exprStmt (Expr.callExpr (Expr.ident "Method") [Expr.basicLit LitKind.STRING "\"show\"",
        Expr.funcLit emptyFuncType [Stmt.exprStmt (Expr.callExpr (Expr.ident "Routing") [])]]) ∧
    (analyzeAction exampleLib [Expr.basicLit LitKind.STRING "\"show\"",
        Expr.funcLit emptyFuncType [Stmt.exprStmt (Expr.callExpr (Expr.ident "Routing") [])]] []).diags =
      [diag "Action should be replaced with Method", diag "Routing should be replaced with HTTP"] ∧
    (∀ lib typ body, (∃ s ∈ body, isRelocatedAction s = true) →
      (analyzeActionArg lib (Expr.funcLit typ body)).val =
        Expr.funcLit typ (body.flatMap (actionKept lib) ++
          [httpWrapper (body.flatMap (actionMoved lib))]) ∧
      (∀ s ∈ body.flatMap (actionKept lib), calleeName s ≠ some "Routing") ∧
      (∀ args, Stmt.exprStmt (Expr.callExpr (Expr.ident "Routing") args) ∈ body →
        ((args.filter isRoutingCall).map (fun e => Stmt.exprStmt (rewriteRoutingCall e))).Sublist
          (body.flatMap (actionMoved lib)))) ∧
    (∀ fn args, rewriteRoutingCall (Expr.callExpr fn args) =
      Expr.callExpr fn (args.map rewriteRoutingArg)) ∧
    (∀ kind value, rewriteRoutingArg (Expr.basicLit kind value) =
      Expr.basicLit kind (replaceWildcard value)) ∧
    (∀ e, e.kindIndex ≠ 1 → rewriteRoutingArg e = e) ∧
    (analyzeActionArg exampleLib (Expr.funcLit emptyFuncType
      [Stmt.exprStmt (Expr.callExpr (Expr.ident "Routing")
        [Expr.callExpr (Expr.ident "GET") [Expr.basicLit LitKind.STRING "\"/a/:id\""],
         Expr.callExpr (Expr.ident "POST") [Expr.basicLit LitKind.STRING "\"/b\""]]),
       exampleTitle])).val =
      Expr.funcLit emptyFuncType
        [exampleTitle,
         httpWrapper
          [Stmt.exprStmt (Expr.callExpr (Expr.ident "GET")
            [Expr.basicLit LitKind.STRING "\"/a/\x7bid\x7d\""]),
           Stmt.exprStmt (Expr.callExpr (Expr.ident "POST") [Expr.basicLit LitKind.STRING "\"/b\""])]] := by
  refine ⟨rfl, rfl, ?_, fun _ _ => rfl, fun _ _ => rfl, ?_, rfl⟩
  · intro lib typ body hreloc
    refine ⟨analyzeActionArg_closed lib typ body (actionMoved_of_relocated lib body hreloc),
      actionKept_callee lib body, ?_⟩
    intro args hmem
    exact sublist_flatMap_of_mem (actionMoved lib) body _ hmem
  · intro e he
    cases e with
    | basicLit kind value => exact absurd rfl he
    | _ => rfl

/-- Claim C15 (the changed flag is exact) fails on the code: for var _ = API("x", func() {
Metadata("k") }) the generic scan renames Metadata to Meta and reports it, but analyzeAPI
drops what analyzeGenericDSL returns, so analyzeAndFixVariables reports no declaration-level
diagnostic and no edit for a tree it has changed; the same block under Type, where
analyzeType keeps the flag, gets the diagnostic with its edit.  In general the flag of
analyzeAPI tells only whether a statement was relocated. -/
theorem analyzeAndFixVariables_flag_not_exact :
    (∀ paren, analyzeAndFixVariables exampleLib DeclTok.VAR paren (exampleVarSpecs "API" "Metadata") =
      Except.ok ⟨Decl.genDecl DeclTok.VAR paren (exampleVarSpecs "API" "Meta"), false,
        [diag "Metadata should be replaced with Meta"]⟩) ∧
    exampleVarSpecs "API" "Meta" ≠ exampleVarSpecs "API" "Metadata" ∧
    (∀ paren, analyzeAndFixVariables exampleLib DeclTok.VAR paren (exampleVarSpecs "Type" "Metadata") =
      Except.ok ⟨Decl.genDecl DeclTok.VAR paren (exampleVarSpecs "Type" "Meta"), true,
        [diag "Metadata should be replaced with Meta",
         ⟨"variable declarations should be fixed",
          some (NewText.formatted
            (Decl.genDecl DeclTok.VAR paren (exampleVarSpecs "Type" "Meta")))⟩]⟩) ∧
    (∀ args, ∃ ds, analyzeAPI args = Except.ok ⟨args.map apiArg, args.any apiArgChanged, ds⟩) := by
  refine ⟨fun paren => by cases paren <;> rfl, ?_, fun paren => by cases paren <;> rfl,
    analyzeAPI_closed⟩
  simp [exampleVarSpecs]

/-- Claim C16 (Response block handling) fails on the code in its part (c): a call statement
of the block whose callee is no identifier is dropped with every statement that is no call.
On Response(OK, func() { pkg.Describe(); Status(200) }) the block that is left holds Code(200)
only.  What holds for every Response call with a block argument: the block is left with
blockKept of its statements (Status renamed Code in its place, Media removed, the other
calls with an identifier callee kept in order), and the Media calls, renamed Result, are
appended in order to the grandparent list when no error status name came before the block,
and dropped otherwise; so for Response(func() { Media(M) }, NotFound), where the error
status name comes after the block, Result(M) is appended before Error("not_found"). -/
theorem analyzeResponse_block_drops_calls :
    (analyzeResponse exampleLib (Expr.ident "Response")
      [Expr.ident "OK", Expr.funcLit emptyFuncType
        [Stmt.exprStmt (Expr.callExpr
          (Expr.other "SelectorExpr" [Expr.ident "pkg", Expr.ident "Describe"]) []),
         Stmt.exprStmt (Expr.callExpr (Expr.ident "Status") [Expr.basicLit LitKind.INT "200"])]]
      [] []).stmt =
      Stmt.exprStmt (Expr.callExpr (Expr.ident "Response")
        [Expr.ident "StatusOK", Expr.funcLit emptyFuncType
          [Stmt.exprStmt (Expr.callExpr (Expr.ident "Code") [Expr.basicLit LitKind.INT "200"])]]) ∧
    (analyzeResponse exampleLib (Expr.ident "Response")
      [Expr.funcLit emptyFuncType
        [Stmt.exprStmt (Expr.callExpr (Expr.ident "Media") [Expr.ident "M"])],
       Expr.ident "NotFound"] [] []).grandparent =
      [Stmt.exprStmt (Expr.callExpr (Expr.ident "Result") [Expr.ident "M"]),
       errorStmt "\"not_found\""] ∧
    (∀ lib fn pre typ body post p g,
      (analyzeResponse lib fn (pre ++ Expr.funcLit typ body :: post) p g).stmt =
        Stmt.exprStmt (Expr.callExpr fn (responseArgs lib (pre ++ Expr.funcLit typ body :: post))) ∧
      (body.flatMap blockKept ≠ [] →
        ∃ l1 l2, responseArgs lib (pre ++ Expr.funcLit typ body :: post) =
          l1 ++ Expr.funcLit typ (body.flatMap blockKept) :: l2) ∧
      ∃ before after,
        (analyzeResponse lib fn (pre ++ Expr.funcLit typ body :: post) p g).grandparent =
          g ++ before ++ body.flatMap (blockResults (pre.any isErrorStatus)) ++ after) ∧
    (∀ args, blockKept (Stmt.exprStmt (Expr.callExpr (Expr.ident "Status") args)) =
      [Stmt.exprStmt (Expr.callExpr (Expr.ident "Code") args)]) ∧
    (∀ args, blockKept (Stmt.exprStmt (Expr.callExpr (Expr.ident "Media") args)) = []) ∧
    (∀ name args, name ≠ "Media" → name ≠ "Status" →
      blockKept (Stmt.exprStmt (Expr.callExpr (Expr.ident name) args)) =
        [Stmt.exprStmt (Expr.callExpr (Expr.ident name) args)]) ∧
    (∀ s, calleeName s = none → blockKept s = []) ∧
    (∀ args, blockResults false (Stmt.exprStmt (Expr.callExpr (Expr.ident "Media") args)) =
      [Stmt.exprStmt (Expr.callExpr (Expr.ident "Result") args)]) ∧
    (∀ s, blockResults true s = []) ∧
    (∀ er s, calleeName s ≠ some "Media" → blockResults er s = []) := by
  refine ⟨rfl, rfl, ?_, ?_, ?_, ?_, ?_, ?_, ?_, ?_⟩
  · intro lib fn pre typ body post p g
    obtain ⟨h1, _, h3⟩ := analyzeResponse_closed lib fn (pre ++ Expr.funcLit typ body :: post) p g
    refine ⟨h1, responseArgs_block lib pre post typ body,
      responseExtrasFrom lib false pre,
      responseExtrasFrom lib (isErrorStatus (Expr.funcLit typ body) || (pre.any isErrorStatus || false))
        post, ?_⟩
    rw [h3, responseExtrasFrom_append]
    simp [responseExtrasFrom, responseArgExtras]
  · intro args; rfl
  · intro args; rfl
  · intro name args h1 h2
    simp [blockKept, h1, h2]
  · intro s h
    cases s with
    | other kind children => rfl
    | exprStmt x =>
      cases x with
      | callExpr fn args =>
        cases fn with
        | ident name => simp [calleeName] at h
        | _ => rfl
      | _ => rfl
  · intro args; rfl
  · intro s
    unfold blockResults
    split
    · simp
    · rfl
  · intro er s h
    unfold blockResults
    split
    · rename_i name args
      have : name ≠ "Media" := fun hn => h (by simp [calleeName, hn])
      simp [this]
    · rfl

/-- Claim C17: status-name renaming.  The argument list of a Response call after
analyzeResponse is responseArgs of the original one; for a call whose arguments are all
identifiers it holds, in order, for each argument: nothing for ErrorMedia; the identifier
renamed to Status followed by its name for a name of the non-error set (the sixteen names of
the claim); for a name of the error set the same renamed identifier, after a new identifier
named by the quoted snake case of the name; the identifier as it was for every other name.
A name that starts with Status is in neither set, so it is never prefixed again. -/
theorem analyzeResponse_status_names :
    (∀ lib fn args p g, (analyzeResponse lib fn args p g).stmt =
      Stmt.exprStmt (Expr.callExpr fn (responseArgs lib args))) ∧
    (∀ lib (names : List String), responseArgs lib (names.map Expr.ident) =
      names.flatMap (fun name => responseArgOut lib (Expr.ident name))) ∧
    (∀ lib name, name ∈ statusNames →
      responseArgOut lib (Expr.ident name) = [Expr.ident ("Status" ++ name)]) ∧
    (∀ lib name, name ∈ errorStatusNames →
      responseArgOut lib (Expr.ident name) =
        [Expr.ident (lib.quote (lib.toSnake name)), Expr.ident ("Status" ++ name)]) ∧
    (∀ lib name, name ∉ errorStatusNames → name ∉ statusNames → name ≠ "ErrorMedia" →
      responseArgOut lib (Expr.ident name) = [Expr.ident name]) ∧
    (∀ lib, responseArgOut lib (Expr.ident "ErrorMedia") = []) ∧
    (∀ lib name, responseArgOut lib (Expr.ident ("Status" ++ name)) =
      [Expr.ident ("Status" ++ name)]) ∧
    (∀ name, responseArgInPlace (Expr.ident name) =
      Expr.ident (if name ∈ errorStatusNames ∨ name ∈ statusNames then "Status" ++ name else name)) ∧
    statusNames = ["Continue", "SwitchingProtocols", "OK", "Created", "Accepted",
      "NonAuthoritativeInfo", "NoContent", "ResetContent", "PartialContent", "MultipleChoices",
      "MovedPermanently", "Found", "SeeOther", "NotModified", "UseProxy", "TemporaryRedirect"] ∧
    (analyzeResponse exampleLib (Expr.ident "Response")
      [Expr.ident "OK", Expr.ident "ErrorMedia", Expr.ident "StatusOK", Expr.ident "Custom",
        Expr.ident "NotFound"] [] []).stmt =
      Stmt.exprStmt (Expr.callExpr (Expr.ident "Response")
        [Expr.ident "StatusOK", Expr.ident "StatusOK", Expr.ident "Custom",
          Expr.ident "\"not_found\"", Expr.ident "StatusNotFound"]) := by
  refine ⟨fun lib fn args p g => (analyzeResponse_closed lib fn args p g).1,
    responseArgs_idents, ?_, ?_, ?_, fun _ => rfl, ?_, fun _ => rfl, rfl, rfl⟩
  · intro lib name h
    have hd := statusNames_disjoint name h
    simp [responseArgOut, h, hd.1, hd.2]
  · intro lib name h
    have hne : name ≠ "ErrorMedia" := fun hn => notMem_errorMedia.1 (hn ▸ h)
    simp [responseArgOut, h, hne]
  · intro lib name h1 h2 h3
    simp [responseArgOut, h1, h2, h3]
  · intro lib name
    obtain ⟨h1, h2, h3⟩ := status_prepend_not_mem name
    simp [responseArgOut, h1, h2, h3]

/-- Claim C18: the postcondition of the generic scan.  For every expression tree, and for
every body of a function declaration, analyzeGenericDSL returns; the tree it leaves is the
tree of the specification, scanSpecExpr (for a body, scanSpecStmts) of the tree before, in
which every identifier, at every depth and in the nodes the scan creates, is renamed by
renameIdent (Integer to Int, Number to Float64, File to Bytes, every other name kept), every
call to the identifier HashOf is a call to MapOf and every call to the identifier Metadata a
call to Meta; it holds no identifier named Integer, Number or File and no call whose callee
is the identifier HashOf or Metadata; and the returned flag is true exactly when at least
one diagnostic was reported.  An identifier is left with its name renamed, and a call to an
identifier with its callee renamed by scanCallee over the scanned arguments of the visited
call.  On the block exampleLegacyBody, as a function literal and as a function body, the
result is exampleLegacyBodyRenamed. -/
theorem analyzeGenericDSL_postcondition :
    (∀ node, ∃ r, analyzeGenericDSL node = Except.ok r ∧ r.val = scanSpecExpr node ∧
      Expr.scanned r.val = true ∧ (r.changed = true ↔ r.diags ≠ [])) ∧
    (∀ body, ∃ r, analyzeGenericDSLBlock (some body) = Except.ok r ∧
      r.val = scanSpecStmts body ∧ scannedStmts r.val = true ∧
      (r.changed = true ↔ r.diags ≠ [])) ∧
    (∀ name, ∃ r, analyzeGenericDSL (Expr.ident name) = Except.ok r ∧
      r.val = Expr.ident (if name = "Integer" then "Int" else if name = "Number" then "Float64"
        else if name = "File" then "Bytes" else name)) ∧
    (∀ name args, ∃ r, analyzeGenericDSL (Expr.callExpr (Expr.ident name) args) = Except.ok r ∧
      r.val = Expr.callExpr (Expr.ident (scanCallee name)) ((visitArgs name args).map scanExpr)) ∧
    scanCallee "HashOf" = "MapOf" ∧ scanCallee "Metadata" = "Meta" ∧
    (∀ name, scanSpecExpr (Expr.ident name) = Expr.ident (renameIdent name)) ∧
    renameIdent "Integer" = "Int" ∧ renameIdent "Number" = "Float64" ∧
    renameIdent "File" = "Bytes" ∧
    (∀ name, name ≠ "Integer" → name ≠ "Number" → name ≠ "File" → renameIdent name = name) ∧
    (∀ args, ∃ args1, scanSpecExpr (Expr.callExpr (Expr.ident "HashOf") args) =
      Expr.callExpr (Expr.ident "MapOf") args1) ∧
    (∀ args, scanSpecExpr (Expr.callExpr (Expr.ident "Metadata") args) =
      Expr.callExpr (Expr.ident "Meta") (scanSpecList args)) ∧
    (∀ typ body, scanSpecExpr (Expr.funcLit typ body) =
      Expr.funcLit (scanSpecExpr typ) (scanSpecStmts body)) ∧
    (∀ x, scanSpecStmt (Stmt.exprStmt x) = Stmt.exprStmt (scanSpecExpr x)) ∧
    (∀ kind children, scanSpecStmt (Stmt.other kind children) =
      Stmt.other kind (scanSpecStmts children)) ∧
    (∀ s ss, scanSpecStmts (s :: ss) = scanSpecStmt s :: scanSpecStmts ss) ∧
    (∃ r, analyzeGenericDSL (Expr.funcLit emptyFuncType exampleLegacyBody) = Except.ok r ∧
      r.val = Expr.funcLit emptyFuncType exampleLegacyBodyRenamed ∧
      r.diags.map Diagnostic.message =
        ["Integer should be replaced with Int", "HashOf should be replaced with MapOf",
         "Number should be replaced with Float64", "Metadata should be replaced with Meta",
         "File should be replaced with Bytes", "File should be replaced with Bytes"]) ∧
    (∃ r, analyzeGenericDSLBlock (some exampleLegacyBody) = Except.ok r ∧
      r.val = exampleLegacyBodyRenamed ∧ r.changed = true) := by
  refine ⟨?_, ?_, ?_, ?_, by decide, by decide, ?_, by decide, by decide, by decide, ?_, ?_, ?_,
    ?_, ?_, ?_, ?_, ⟨_, rfl, rfl, rfl⟩, ⟨_, rfl, rfl, rfl⟩⟩
  · intro node
    obtain ⟨r, hr⟩ := analyzeGenericDSL_total node
    obtain ⟨h1, h2⟩ := inspect_inv _ node r hr
    have hv : r.val = scanExpr node := by simp only [scanExpr, hr]
    exact ⟨r, hr, by rw [hv, scanExpr_eq_spec], h1, flag_iff _ _ h2⟩
  · intro body
    obtain ⟨ch, ds, hr⟩ := inspectStmts_scanStmt body (inspectDepthStmts body) (Nat.le_refl _)
    obtain ⟨h1, h2⟩ := inspectStmts_inv _ (inspect_inv _) body _ hr
    exact ⟨_, hr, scanStmts_eq_spec body, h1, flag_iff _ _ h2⟩
  · intro name
    obtain ⟨r, hr, hv⟩ := analyzeGenericDSL_scanExpr (Expr.ident name)
    exact ⟨r, hr, by rw [hv, scanExpr_ident]⟩
  · intro name args
    obtain ⟨r, hr, hv⟩ := analyzeGenericDSL_scanExpr (Expr.callExpr (Expr.ident name) args)
    exact ⟨r, hr, by rw [hv, scanExpr_call]⟩
  · intro name
    rw [scanSpecExpr]
  · intro name h1 h2 h3
    simp only [renameIdent, if_neg h1, if_neg h2, if_neg h3]
  · intro args
    exact ⟨_, by rw [scanSpecExpr]; rfl⟩
  · intro args
    rw [scanSpecExpr]
    rfl
  · intro typ body
    rw [scanSpecExpr]
  · intro x
    rw [scanSpecStmt]
  · intro kind children
    rw [scanSpecStmt]
  · intro s ss
    rw [scanSpecStmts]

/-- Claim C19 (the generic scan rewrites every DateTime) fails on the code when the enclosing
call is HashOf or Metadata: the scan leaves MapOf(String, DateTime) of HashOf(String,
DateTime) and Meta("k", DateTime) of Metadata("k", DateTime), while Attribute("a", DateTime)
becomes Attribute("a", String, func() { Format(FormatDateTime) }).  A Metadata call keeps
every direct DateTime argument; a call to any other identifier but HashOf is left without a
direct DateTime argument. -/
theorem analyzeGenericDSL_keeps_dateTime :
    (∃ r, analyzeGenericDSL (Expr.callExpr (Expr.ident "HashOf")
        [Expr.ident "String", Expr.ident "DateTime"]) = Except.ok r ∧
      r.val = Expr.callExpr (Expr.ident "MapOf") [Expr.ident "String", Expr.ident "DateTime"]) ∧
    (∃ r, analyzeGenericDSL (Expr.callExpr (Expr.ident "Metadata")
        [Expr.basicLit LitKind.STRING "\"k\"", Expr.ident "DateTime"]) = Except.ok r ∧
      r.val = Expr.callExpr (Expr.ident "Meta")
        [Expr.basicLit LitKind.STRING "\"k\"", Expr.ident "DateTime"]) ∧
    (∃ r, analyzeGenericDSL (Expr.callExpr (Expr.ident "Attribute")
        [Expr.basicLit LitKind.STRING "\"a\"", Expr.ident "DateTime"]) = Except.ok r ∧
      r.val = Expr.callExpr (Expr.ident "Attribute")
        [Expr.basicLit LitKind.STRING "\"a\"", Expr.ident "String",
          Expr.funcLit emptyFuncType [formatDateTimeStmt]]) ∧
    (∀ args, ∃ r, analyzeGenericDSL (Expr.callExpr (Expr.ident "Metadata") args) = Except.ok r ∧
      r.val = Expr.callExpr (Expr.ident "Meta") (args.map scanExpr) ∧
      (args.map scanExpr).countP isDateTime = args.countP isDateTime) ∧
    (∀ name args, name ≠ "HashOf" → name ≠ "Metadata" →
      ∃ r args1, analyzeGenericDSL (Expr.callExpr (Expr.ident name) args) = Except.ok r ∧
        r.val = Expr.callExpr (Expr.ident (scanCallee name)) args1 ∧
        ∀ a ∈ args1, isDateTime a = false) := by
  refine ⟨⟨_, rfl, rfl⟩, ⟨_, rfl, rfl⟩, ⟨_, rfl, rfl⟩, ?_, ?_⟩
  · intro args
    obtain ⟨r, hr, hv⟩ := analyzeGenericDSL_scanExpr (Expr.callExpr (Expr.ident "Metadata") args)
    refine ⟨r, hr, by rw [hv, scanExpr_call]; rfl, ?_⟩
    rw [List.countP_map]
    congr 1
    funext e
    exact isDateTime_scanExpr e
  · intro name args h1 h2
    obtain ⟨r, hr, hv⟩ := analyzeGenericDSL_scanExpr (Expr.callExpr (Expr.ident name) args)
    exact ⟨r, _, hr, by rw [hv, scanExpr_call], visitArgs_no_dateTime name args h1 h2⟩

/-- Claim C20: regrouping is idempotent on API bodies.  For every argument list of API,
analyzeAPI returns; in the result no statement of a block argument is a call to BasePath,
Consumes, Params or Produces; a second analyzeAPI on the result returns with the flag false
and leaves every argument in place, a block holding, position by position, the statements
it held (each as the generic scan of the second call leaves it, which is the statement
itself when that scan has nothing to rewrite in it), so the length is the same and no
further HTTP wrapper is appended.  On the body Title, BasePath, Metadata, Produces the
second call returns the very argument list of the first. -/
theorem analyzeAPI_idempotent :
    (∀ args, ∃ r1 r2, analyzeAPI args = Except.ok r1 ∧ analyzeAPI r1.val = Except.ok r2 ∧
      (∀ typ body, Expr.funcLit typ body ∈ r1.val → ∀ s ∈ body, isRelocatedAPI s = false) ∧
      r2.changed = false ∧
      r2.val = r1.val.map apiArgScanned ∧
      (∀ (i : Nat) typ body, r1.val[i]? = some (Expr.funcLit typ body) →
        r2.val[i]? = some (Expr.funcLit (scanExpr typ) (body.map scanStmt)) ∧
        (body.map scanStmt).length = body.length)) ∧
    (∃ r1 r2, analyzeAPI [Expr.funcLit emptyFuncType exampleAPIBody] = Except.ok r1 ∧
      analyzeAPI r1.val = Except.ok r2 ∧ r2.val = r1.val ∧ r2.changed = false) := by
  refine ⟨?_, ⟨_, _, rfl, rfl, rfl, rfl⟩⟩
  intro args
  obtain ⟨d1, h1⟩ := analyzeAPI_closed args
  obtain ⟨d2, h2⟩ := analyzeAPI_closed (args.map apiArg)
  have hnot : ∀ e ∈ args.map apiArg, apiArg e = apiArgScanned e ∧ apiArgChanged e = false := by
    intro e he
    apply apiArg_of_not_relocated
    intro typ body hb
    exact apiArg_funcLit_mem args typ body (hb ▸ he)
  have hval : (args.map apiArg).map apiArg = (args.map apiArg).map apiArgScanned :=
    List.map_congr_left (fun e he => (hnot e he).1)
  have hch : (args.map apiArg).any apiArgChanged = false := by
    rw [List.any_eq_false]
    intro e he
    simp [(hnot e he).2]
  refine ⟨_, _, h1, h2, apiArg_funcLit_mem args, hch, hval, ?_⟩
  intro i typ body hi
  refine ⟨?_, by simp⟩
  show ((args.map apiArg).map apiArg)[i]? = _
  rw [hval, List.getElem?_map]
  have hi2 : (args.map apiArg)[i]? = some (Expr.funcLit typ body) := hi
  rw [hi2]
  rfl

/-- Claim C21: index safety of the DateTime rule.  The access of analyzeDateTime to the last
argument is out of range exactly for an empty argument list, and it is not out of range
where the loop of analyzeAttribute reaches it, that is at an index at which the argument
list holds an argument.  So the loop returns without fault from every state, analyzeAttribute
returns for every argument list, the empty one included, and analyzeGenericDSL returns for
every tree; whatever the budget of the traversal, the only fault it can end with is the
exhaustion of that budget, never an index out of range, and the scan of the body of a
function declaration never ends with an index out of range either. -/
theorem analyzeDateTime_index_safe :
    (∀ args i, analyzeDateTime args i = Except.error Fault.indexOutOfRange ↔ args = []) ∧
    (∀ args i e, args.get? i = some e → ∃ r, analyzeDateTime args i = Except.ok r) ∧
    (∀ rest i st, ∃ r, analyzeAttributeLoop rest i st = Except.ok r) ∧
    (∀ args, ∃ r, analyzeAttribute args = Except.ok r) ∧
    analyzeAttribute [] = Except.ok ⟨[], false, []⟩ ∧
    (∀ node, ∃ r, analyzeGenericDSL node = Except.ok r) ∧
    (∀ n node f, inspect n node = Except.error f → f = Fault.outOfFuel) ∧
    (∀ body, analyzeGenericDSLBlock body ≠ Except.error Fault.indexOutOfRange) ∧
    (∃ r, analyzeGenericDSL (Expr.callExpr (Expr.ident "Attribute") []) = Except.ok r ∧
      r.val = Expr.callExpr (Expr.ident "Attribute") [] ∧ r.diags = []) := by
  refine ⟨?_, analyzeDateTime_guarded, fun rest i st => analyzeAttributeLoop_total rest i st,
    fun args => analyzeAttributeLoop_total args 0 _, rfl, analyzeGenericDSL_total, inspect_fault,
    ?_, ⟨_, rfl, rfl, rfl⟩⟩
  · intro args i
    refine ⟨fun h => (analyzeDateTime_fault args i _ h).2, fun h => ?_⟩
    subst h
    rfl
  · intro body
    cases body with
    | none => simp [analyzeGenericDSLBlock]
    | some list =>
      obtain ⟨r, hr⟩ := inspectStmts_total (inspect (inspectDepthStmts list)) (inspectDepthStmts list)
        (fun e he => inspect_total _ e he) list (Nat.le_refl _)
      intro h
      simp only [analyzeGenericDSLBlock, hr] at h
      exact absurd h (by simp)
end Goadesignupgrader
